import Mathlib

/-!
Verification of the open-swagger documentation generator.

The development shallowly embeds the JavaScript/TypeScript sources:

* `src/file_helpers.ts`   — file-upload marker schemas and their cleanup;
* `src/schema_utils.ts`   — the three DSL schema converters (VineJS, Zod,
  TypeBox), the nullable-required fixups and the request-body envelopes;
* `src/decorators.ts`     — the metadata registry and decorator functions;
* `src/route_parser.ts`   — route filtering, operation-id generation and
  generation-time metadata resolution.

JavaScript runtime values are modelled by the mutual inductive `JVal`:
plain objects carry an ordered list of string-keyed fields plus an ordered
list of symbol-keyed fields (symbols are interned `Symbol.for` keys,
modelled as `Nat` codes), mirroring that `Object.entries` / `Object.keys`
enumerate only string keys while object spread copies both.  External
library calls (`zod`'s `z.toJSONSchema`, VineJS' `compile`/`toJSON`) are
oracles passed as parameters; a throwing call is an oracle returning
`Except.error`.
-/

set_option maxHeartbeats 1000000

namespace OpenSwagger

/-! ## JavaScript value model -/

mutual
inductive JVal where
  | undef : JVal
  | jnull : JVal
  | jbool (b : Bool) : JVal
  | jnum (n : Int) : JVal
  | jstr (s : String) : JVal
  | jfn (tag : Nat) : JVal
  | jarr (elems : JList) : JVal
  | jobj (sf : JFields) (yf : JSyms) : JVal
inductive JList where
  | nil : JList
  | cons (hd : JVal) (tl : JList) : JList
inductive JFields where
  | nil : JFields
  | cons (key : String) (val : JVal) (tl : JFields) : JFields
inductive JSyms where
  | nil : JSyms
  | cons (key : Nat) (val : JVal) (tl : JSyms) : JSyms
end

deriving instance DecidableEq for JVal, JList, JFields, JSyms

/-- Interned symbol codes (`Symbol.for(...)`) used by the sources. -/
def fileSym : Nat := 0

def vineFileSym : Nat := 1

def zodFileSym : Nat := 2

def typeboxFileSym : Nat := 3

def kindSym : Nat := 4

def rawMetadataSym : Nat := 5

namespace JList

def toList : JList → List JVal
  | .nil => []
  | .cons h t => h :: toList t

def ofList : List JVal → JList
  | [] => .nil
  | h :: t => .cons h (ofList t)

def length : JList → Nat
  | .nil => 0
  | .cons _ t => 1 + length t

def getIdx : JList → Nat → JVal
  | .nil, _ => .undef
  | .cons h _, 0 => h
  | .cons _ t, n + 1 => getIdx t n

end JList

namespace JFields

/-- Property read: the value of the first occurrence of `k`, else `undefined`
(JavaScript objects have unique keys, so first = only). -/
def get : JFields → String → JVal
  | .nil, _ => .undef
  | .cons k v t, key => if k = key then v else get t key

def has : JFields → String → Bool
  | .nil, _ => false
  | .cons k _ t, key => k = key || has t key

/-- Property write: updates an existing key in place (preserving its
position), else appends — JavaScript object key-order semantics. -/
def set : JFields → String → JVal → JFields
  | .nil, key, v => .cons key v .nil
  | .cons k v' t, key, v => if k = key then .cons k v t else .cons k v' (set t key v)

/-- `delete obj[k]` — removes the (unique) key. -/
def del : JFields → String → JFields
  | .nil, _ => .nil
  | .cons k v t, key => if k = key then t else .cons k v (del t key)

def keys : JFields → List String
  | .nil => []
  | .cons k _ t => k :: keys t

def toList : JFields → List (String × JVal)
  | .nil => []
  | .cons k v t => (k, v) :: toList t

def ofList : List (String × JVal) → JFields
  | [] => .nil
  | (k, v) :: t => .cons k v (ofList t)

end JFields

namespace JSyms

def get : JSyms → Nat → JVal
  | .nil, _ => .undef
  | .cons k v t, key => if k = key then v else get t key

def has : JSyms → Nat → Bool
  | .nil, _ => false
  | .cons k _ t, key => k = key || has t key

end JSyms

namespace JVal

/-- JavaScript truthiness. -/
def truthy : JVal → Bool
  | .undef => false
  | .jnull => false
  | .jbool b => b
  | .jnum n => n ≠ 0
  | .jstr s => s ≠ ""
  | .jfn _ => true
  | .jarr _ => true
  | .jobj _ _ => true

/-- `typeof v === 'object'` (true for plain objects, arrays and `null`). -/
def isObjTy : JVal → Bool
  | .jnull => true
  | .jarr _ => true
  | .jobj _ _ => true
  | _ => false

def isArr : JVal → Bool
  | .jarr _ => true
  | _ => false

def isFn : JVal → Bool
  | .jfn _ => true
  | _ => false

/-- Property-key coercion `String(v)` for computed member access.  Accurate
for strings, numbers, booleans, `null` and `undefined`; function/object
coercions (never exercised by the sources on this path) are approximated
by a constant. -/
def keyStr : JVal → String
  | .jstr s => s
  | .jnum n => toString n
  | .jbool b => toString b
  | .jnull => "null"
  | .undef => "undefined"
  | _ => "object"

/-- `v[k]` property read with a string key: object lookup, array index
lookup for canonical numeric keys, `undefined` otherwise. -/
def getF : JVal → String → JVal
  | .jobj sf _, k => sf.get k
  | .jarr es, k =>
    match k.toNat? with
    | some i => if toString i = k then es.getIdx i else .undef
    | none => .undef
  | _, _ => (.undef)

/-- `v[sym]` symbol-keyed property read. -/
def getSym : JVal → Nat → JVal
  | .jobj _ yf, y => yf.get y
  | _, _ => .undef

end JVal

/-- Index fields `("0", v0), ("1", v1), …` used by `Object.entries` /
object spread applied to an array. -/
def idxFields (start : Nat) : JList → JFields
  | .nil => .nil
  | .cons h t => .cons (toString start) h (idxFields (start + 1) t)

/-- Index fields for `Object.entries` applied to a string. -/
def charFields (start : Nat) : List Char → JFields
  | [] => .nil
  | c :: t => .cons (toString start) (.jstr (String.mk [c])) (charFields (start + 1) t)

/-- `Object.entries(v)` (string-keyed own enumerable entries, in order;
symbol keys are never enumerated). -/
def entriesF : JVal → JFields
  | .jobj sf _ => sf
  | .jarr es => idxFields 0 es
  | .jstr s => charFields 0 s.data
  | _ => .nil

/-- Object spread `{...v}`: string fields plus symbol fields for objects,
index fields for arrays, nothing for primitives. -/
def spreadF : JVal → JFields × JSyms
  | .jobj sf yf => (sf, yf)
  | .jarr es => (idxFields 0 es, .nil)
  | _ => (.nil, .nil)

/-! ## file_helpers.ts -/

/-- Options accepted by the file-schema helpers (`FileOptions`). -/
structure FileOptions where
  description : Option String := none
  multiple : Bool := false
  minItems : Option Int := none
  maxItems : Option Int := none
deriving DecidableEq

/-- Truthiness of `options?.description` (absent or empty string is falsy). -/
def descTruthy : Option String → Bool
  | none => false
  | some s => s ≠ ""

/-- `createBaseFileSchema` — the plain (string-keyed) fields of a file
schema: array form with `items`/`minItems`/`maxItems` when `multiple`,
else `{type:"string", format:"binary"}`, plus `description` when given. -/
def createBaseFileSchema (o : FileOptions) : JFields :=
  if o.multiple then
    let base : JFields :=
      .cons "type" (.jstr "array")
        (.cons "items"
          (.jobj (.cons "type" (.jstr "string") (.cons "format" (.jstr "binary") .nil)) .nil)
          .nil)
    let base := if descTruthy o.description
      then base.set "description" (.jstr (o.description.getD "")) else base
    let base := match o.minItems with
      | some n => base.set "minItems" (.jnum n)
      | none => base
    match o.maxItems with
    | some n => base.set "maxItems" (.jnum n)
    | none => base
  else
    let base : JFields := .cons "type" (.jstr "string") (.cons "format" (.jstr "binary") .nil)
    if descTruthy o.description
      then base.set "description" (.jstr (o.description.getD "")) else base

/-- `openapiFile` — base fields tagged with the internal file marker. -/
def openapiFile (o : FileOptions) : JVal :=
  .jobj (createBaseFileSchema o) (.cons fileSym (.jbool true) .nil)

/-- `vineFile` — base fields plus the VineJS-compatibility members
(`options`, `validations`, `clone`) and the file + vine markers. -/
def vineFile (o : FileOptions) : JVal :=
  .jobj
    ((createBaseFileSchema o).set "options"
        (.jobj
          (.cons "bail" (.jbool true)
            (.cons "allowNull" (.jbool false) (.cons "isOptional" (.jbool false) .nil)))
          .nil)
      |>.set "validations" (.jarr .nil)
      |>.set "clone" (.jfn 0))
    (.cons fileSym (.jbool true) (.cons vineFileSym (.jbool true) .nil))

/-- `typeboxFile` — base fields plus file + typebox markers and the
TypeBox `Kind` symbol. -/
def typeboxFile (o : FileOptions) : JVal :=
  .jobj (createBaseFileSchema o)
    (.cons fileSym (.jbool true)
      (.cons typeboxFileSym (.jbool true) (.cons kindSym (.jstr "String") .nil)))

/-- `zodFile` — base fields plus Zod-compatibility members and file + zod
markers. -/
def zodFile (o : FileOptions) : JVal :=
  .jobj
    ((createBaseFileSchema o).set "_def"
        (.jobj
          (.cons "typeName" (.jstr "ZodString")
            (.cons "description" (o.description.elim .undef .jstr) .nil))
          .nil)
      |>.set "_type" (.jstr "string")
      |>.set "parse" (.jfn 1)
      |>.set "safeParse" (.jfn 2)
      |>.set "optional" (.jfn 3)
      |>.set "nullable" (.jfn 4)
      |>.set "describe" (.jfn 5))
    (.cons fileSym (.jbool true) (.cons zodFileSym (.jbool true) .nil))

/-- `isFileSchema` — truthy object carrying `[FILE_SCHEMA_SYMBOL]: true`. -/
def isFileSchema (v : JVal) : Bool :=
  v.truthy && v.isObjTy && (v.getSym fileSym = .jbool true)

/-- `isVineFileSchema` — truthy object carrying the vine-file marker. -/
def isVineFileSchema (v : JVal) : Bool :=
  v.truthy && v.isObjTy && (v.getSym vineFileSym = .jbool true)

/-- `EXCLUDED_PROPERTIES` — validator-internal members stripped by
`toOpenAPIFileSchema`. -/
def excludedProperties : List String :=
  ["clone", "options", "validations", "_def", "_type", "parse", "safeParse",
   "optional", "nullable", "describe"]

/-- The `Object.keys` walk of `toOpenAPIFileSchema`: drop excluded keys and
function-valued members, keep everything else in order. -/
def filterFileFields : JFields → JFields
  | .nil => .nil
  | .cons k v t =>
    if k ∈ excludedProperties || v.isFn then filterFileFields t
    else .cons k v (filterFileFields t)

/-- `toOpenAPIFileSchema` — rebuild the schema from its string-keyed
entries, dropping excluded/function members (symbol keys are never
enumerated, so both markers vanish). -/
def toOpenAPIFileSchema (v : JVal) : JVal :=
  .jobj (filterFileFields (entriesF v)) .nil

/-- The fully cleaned OpenAPI file node for given options (what the spec
calls the visible file schema). -/
def cleanFileNode (o : FileOptions) : JVal :=
  .jobj (createBaseFileSchema o) .nil

end OpenSwagger

namespace OpenSwagger

/-! ## decorators.ts — metadata registry and decorators -/

/-- Identity of a declaring type as seen through a method decorator's
`target` (the prototype): `ctorId` models the JavaScript reference
identity of `target.constructor`, `ctorName` its `name` property.  Two
distinct classes (different `ctorId`) may share a `ctorName`. -/
structure JsType where
  ctorId : Nat
  ctorName : String
deriving DecidableEq

/-- `SwaggerMetadata` — a metadata fragment; `none` models an absent key. -/
structure SwaggerMetadata where
  summary : Option String := none
  description : Option String := none
  tags : Option (List String) := none
  parameters : Option (List JVal) := none
  requestBody : Option JVal := none
  responses : Option (List (String × JVal)) := none
  security : Option JVal := none
  deprecated : Option Bool := none
deriving DecidableEq

/-- JavaScript `Map.get` (first, and only, occurrence of the key). -/
def mapGet {α : Type} : List (String × α) → String → Option α
  | [], _ => none
  | (k, v) :: t, key => if k = key then some v else mapGet t key

/-- JavaScript `Map.set` / `obj[k] = v`: update an existing key in place,
else append. -/
def mapSet {α : Type} : List (String × α) → String → α → List (String × α)
  | [], key, v => [(key, v)]
  | (k, v') :: t, key, v => if k = key then (k, v) :: t else (k, v') :: mapSet t key v

/-- The process-wide `SWAGGER_METADATA` map, passed explicitly. -/
def Registry : Type := List (String × SwaggerMetadata)

/-- `getMetadataKey` — the registry key is the declaring type's
constructor *name* concatenated with the member name. -/
def getMetadataKey (target : JsType) (propertyKey : String) : String :=
  target.ctorName ++ "." ++ propertyKey

/-- `getSwaggerMetadata`. -/
def getSwaggerMetadata (reg : Registry) (target : JsType) (propertyKey : String) :
    Option SwaggerMetadata :=
  mapGet reg (getMetadataKey target propertyKey)

/-- The shallow merge `{ ...existing, ...metadata }`: keys present in
`metadata` win, keys absent fall back to `existing`. -/
def mergeMetadata (existing m : SwaggerMetadata) : SwaggerMetadata where
  summary := m.summary.orElse fun _ => existing.summary
  description := m.description.orElse fun _ => existing.description
  tags := m.tags.orElse fun _ => existing.tags
  parameters := m.parameters.orElse fun _ => existing.parameters
  requestBody := m.requestBody.orElse fun _ => existing.requestBody
  responses := m.responses.orElse fun _ => existing.responses
  security := m.security.orElse fun _ => existing.security
  deprecated := m.deprecated.orElse fun _ => existing.deprecated

/-- `setSwaggerMetadata` — merge the partial fragment into the stored one. -/
def setSwaggerMetadata (reg : Registry) (target : JsType) (propertyKey : String)
    (m : SwaggerMetadata) : Registry :=
  let key := getMetadataKey target propertyKey
  let existing := (mapGet reg key).getD {}
  mapSet reg key (mergeMetadata existing m)

/-- The raw response object stored by `SwaggerResponse`:
`{ [RAW_METADATA_MARKER]: true, description, schema }`. -/
def rawResponse (description : String) (schema : Option JVal) : JVal :=
  .jobj
    (.cons "description" (.jstr description) (.cons "schema" (schema.getD .undef) .nil))
    (.cons rawMetadataSym (.jbool true) .nil)

/-- `SwaggerResponse(status, description, schema?)` applied to
`(target, propertyKey)`: adds/overwrites the `status.toString()` key of the
accumulated `responses` map with a raw placeholder. -/
def applySwaggerResponse (status : Nat) (description : String) (schema : Option JVal)
    (reg : Registry) (target : JsType) (propertyKey : String) : Registry :=
  let existing := getSwaggerMetadata reg target propertyKey
  let responses := (existing.bind (·.responses)).getD []
  let responses := mapSet responses (toString status) (rawResponse description schema)
  setSwaggerMetadata reg target propertyKey { responses := some responses }

/-- The raw parameter object stored by the parameter-adding decorators:
`{ [RAW_METADATA_MARKER]: true, name, in, required, schema, description }`. -/
def rawParameter (name location : String) (required : Bool) (schema : JVal)
    (description : Option String) : JVal :=
  .jobj
    (.cons "name" (.jstr name)
      (.cons "in" (.jstr location)
        (.cons "required" (.jbool required)
          (.cons "schema" schema
            (.cons "description" (description.elim .undef .jstr) .nil)))))
    (.cons rawMetadataSym (.jbool true) .nil)

/-- Shared body of the three parameter-adding decorators: append one raw
parameter to the accumulated list. -/
def appendParameter (raw : JVal) (reg : Registry) (target : JsType)
    (propertyKey : String) : Registry :=
  let existing := getSwaggerMetadata reg target propertyKey
  let parameters := (existing.bind (·.parameters)).getD []
  setSwaggerMetadata reg target propertyKey { parameters := some (parameters ++ [raw]) }

/-- `SwaggerParam({name, location, description?}, schema, required)`. -/
def applySwaggerParam (name location : String) (description : Option String)
    (schema : JVal) (required : Bool) (reg : Registry) (target : JsType)
    (propertyKey : String) : Registry :=
  appendParameter (rawParameter name location required schema description)
    reg target propertyKey

/-- `SwaggerHeader({name, description?}, schema, required)` — location is
always `header`. -/
def applySwaggerHeader (name : String) (description : Option String)
    (schema : JVal) (required : Bool) (reg : Registry) (target : JsType)
    (propertyKey : String) : Registry :=
  appendParameter (rawParameter name "header" required schema description)
    reg target propertyKey

/-- `SwaggerParameter(name, location, schema, required, description?)`
(legacy variant). -/
def applySwaggerParameter (name location : String) (schema : JVal) (required : Bool)
    (description : Option String) (reg : Registry) (target : JsType)
    (propertyKey : String) : Registry :=
  appendParameter (rawParameter name location required schema description)
    reg target propertyKey

/-- One application of a parameter-adding decorator. -/
inductive ParamCall where
  | param (name location : String) (description : Option String) (schema : JVal)
      (required : Bool)
  | header (name : String) (description : Option String) (schema : JVal)
      (required : Bool)
  | legacy (name location : String) (schema : JVal) (required : Bool)
      (description : Option String)
deriving DecidableEq

/-- The raw parameter object a given call stores. -/
def ParamCall.raw : ParamCall → JVal
  | .param name location description schema required =>
    rawParameter name location required schema description
  | .header name description schema required =>
    rawParameter name "header" required schema description
  | .legacy name location schema required description =>
    rawParameter name location required schema description

/-- Apply one parameter-adding decorator call. -/
def ParamCall.apply (c : ParamCall) (reg : Registry) (target : JsType)
    (propertyKey : String) : Registry :=
  match c with
  | .param name location description schema required =>
    applySwaggerParam name location description schema required reg target propertyKey
  | .header name description schema required =>
    applySwaggerHeader name description schema required reg target propertyKey
  | .legacy name location schema required description =>
    applySwaggerParameter name location schema required description reg target propertyKey

/-- Apply a sequence of parameter-adding decorator calls in order. -/
def applyParamCalls (cs : List ParamCall) (reg : Registry) (target : JsType)
    (propertyKey : String) : Registry :=
  match cs with
  | [] => reg
  | c :: rest => applyParamCalls rest (c.apply reg target propertyKey) target propertyKey

/-! ## route_parser.ts — generation-time metadata resolution -/

/-- `responseData && typeof responseData.then === 'function'`. -/
def isThenable (v : JVal) : Bool :=
  v.truthy && (v.getF "then").isFn

/-- Await a value when it is a thenable, via the `aw` oracle modelling
promise resolution; leave anything else unchanged. -/
def resolveVal (aw : JVal → JVal) (v : JVal) : JVal :=
  if isThenable v then aw v else v

/-- `RouteParser.resolveMetadataPromises` — walks `responses`,
`requestBody` and `parameters`, awaiting any *thenable* value and keeping
every other value exactly as stored. -/
def resolveMetadataPromises (aw : JVal → JVal) (metadata : SwaggerMetadata) :
    SwaggerMetadata :=
  let resolved := metadata
  let resolved :=
    match resolved.responses with
    | some rs =>
      { resolved with
        responses := some (rs.map fun (kv : String × JVal) => (kv.1, resolveVal aw kv.2)) }
    | none => resolved
  let resolved :=
    match resolved.requestBody with
    | some b => { resolved with requestBody := some (resolveVal aw b) }
    | none => resolved
  match resolved.parameters with
  | some ps => { resolved with parameters := some (ps.map (resolveVal aw)) }
  | none => resolved

/-! ## route_parser.ts — route filtering and operation ids -/

/-- `RouteInfo` (the fields the filtering/operation-id logic reads). -/
structure RouteInfo where
  method : String
  pattern : String
  handler : String := ""
  name : Option String := none
deriving DecidableEq

/-- The `routes` section of `OpenSwaggerConfig` (`include`, `exclude`,
`ignoreMethods`). -/
structure RoutesConfig where
  includePats : Option (List String) := none
  excludePats : Option (List String) := none
  ignoreMethods : Option (List String) := none
deriving DecidableEq

/-- Does `hay` start with `needle`? -/
def listStartsWith : List Char → List Char → Bool
  | [], _ => true
  | _ :: _, [] => false
  | n :: ns, h :: hs => n = h && listStartsWith ns hs

/-- Does `hay` contain `needle` as a contiguous sublist? -/
def listHasSub (needle : List Char) : List Char → Bool
  | [] => listStartsWith needle []
  | h :: hs => listStartsWith needle (h :: hs) || listHasSub needle hs

/-- `routePattern.includes(filterPattern)`. -/
def strIncludes (hay needle : String) : Bool :=
  listHasSub needle.data hay.data

/-- Hay remaining after the first occurrence of `needle`, if any. -/
def dropAfterSub (needle : List Char) : List Char → Option (List Char)
  | [] => if listStartsWith needle [] then some [] else none
  | h :: hs =>
    if listStartsWith needle (h :: hs) then some ((h :: hs).drop needle.length)
    else dropAfterSub needle hs

/-- Unanchored matching of the regex obtained from a `*`-glob: the literal
segments (the pattern split on `*`) must occur in order.  Regex
metacharacters other than the substituted `*` are modelled literally. -/
def segsMatch : List (List Char) → List Char → Bool
  | [], _ => true
  | s :: ss, hay =>
    match dropAfterSub s hay with
    | some rest => segsMatch ss rest
    | none => false

/-- Split on a separator character (kernel-evaluable `String.split`). -/
def splitChar (sep : Char) : List Char → List (List Char)
  | [] => [[]]
  | c :: t =>
    match splitChar sep t with
    | [] => [[]]
    | g :: gs => if c = sep then [] :: g :: gs else (c :: g) :: gs

/-- `RouteParser.matchesPattern` — `*`-patterns become `.*`-substituted
regexes tested unanchored, other patterns are substring containment. -/
def matchesPattern (routePattern filterPattern : String) : Bool :=
  if filterPattern.data.contains '*' then
    segsMatch (splitChar '*' filterPattern.data) routePattern.data
  else strIncludes routePattern filterPattern

/-- `RouteParser.filterRoutes` — exclude patterns reject, include patterns
(when present) must match; this is the complete body: the configured
`ignoreMethods` list is never consulted. -/
def filterRoutes (cfg : RoutesConfig) (routes : List RouteInfo) : List RouteInfo :=
  routes.filter fun route =>
    if (match cfg.excludePats with
        | some pats => pats.any (matchesPattern route.pattern)
        | none => false) then
      false
    else
      match cfg.includePats with
      | some pats => pats.any (matchesPattern route.pattern)
      | none => true

/-- `method.toLowerCase()` (kernel-evaluable). -/
def strToLower (s : String) : String :=
  String.mk (s.data.map Char.toLower)

/-- `method.toUpperCase()` (kernel-evaluable). -/
def strToUpper (s : String) : String :=
  String.mk (s.data.map Char.toUpper)

def lbrace : Char := Char.ofNat 123

def rbrace : Char := Char.ofNat 125

/-- `route.name.replace(/\./g, '_')`. -/
def dotsToUnderscores (s : String) : String :=
  String.mk (s.data.map fun c => if c = '.' then '_' else c)

/-- `.replace(/^\//, '')` — drop one leading slash. -/
def dropLeadSlash : List Char → List Char
  | '/' :: t => t
  | l => l

/-- `.replace(/_+/g, '_')` — collapse runs of underscores. -/
def collapseUnderscores : List Char → List Char
  | [] => []
  | [c] => [c]
  | a :: b :: t =>
    if a = '_' && b = '_' then collapseUnderscores (b :: t)
    else a :: collapseUnderscores (b :: t)

/-- One leading underscore removed (half of `.replace(/^_|_$/g, '')`). -/
def dropOneLeadUnderscore : List Char → List Char
  | '_' :: t => t
  | l => l

/-- `.replace(/^_|_$/g, '')` — strip one leading and one trailing
underscore. -/
def trimUnderscores (l : List Char) : List Char :=
  ((dropOneLeadUnderscore ((dropOneLeadUnderscore l).reverse)).reverse)

/-- The path-sanitising chain of `generateOperationId`. -/
def sanitizePath (pattern : String) : String :=
  let p := dropLeadSlash pattern.data
  let p := p.map fun c => if c = '/' then '_' else c
  let p := p.filter fun c => !(c = lbrace || c = rbrace || c = ':')
  let p := collapseUnderscores p
  String.mk (trimUnderscores p)

/-- `RouteParser.generateOperationId` — a truthy route name with dots
replaced by underscores, else `<method.toLowerCase()>_<sanitized path>`
(`root` for an empty sanitized path). -/
def generateOperationId (route : RouteInfo) : String :=
  if (route.name.getD "") ≠ "" then
    dotsToUnderscores (route.name.getD "")
  else
    let method := strToLower route.method
    let path := sanitizePath route.pattern
    method ++ "_" ++ (if path = "" then "root" else path)

end OpenSwagger

namespace OpenSwagger

/-! ## Registry lemmas -/

theorem mapGet_mapSet_self {α : Type} (l : List (String × α)) (k : String) (v : α) :
    mapGet (mapSet l k v) k = some v := by
  induction l with
  | nil => simp [mapGet, mapSet]
  | cons hd t ih =>
    obtain ⟨k0, v0⟩ := hd
    by_cases hk : k0 = k <;> simp [mapGet, mapSet, hk, ih]

theorem mapGet_mapSet_ne {α : Type} (l : List (String × α)) (k k' : String) (v : α)
    (h : k ≠ k') : mapGet (mapSet l k v) k' = mapGet l k' := by
  have h' : ¬(k = k') := h
  induction l with
  | nil => simp [mapGet, mapSet, h']
  | cons hd t ih =>
    obtain ⟨k0, v0⟩ := hd
    by_cases hk : k0 = k
    · subst hk
      simp [mapGet, mapSet, h']
    · by_cases hk' : k0 = k'
      · subst hk'
        simp [mapGet, mapSet, hk]
      · simp [mapGet, mapSet, hk, hk', ih]

theorem getSwaggerMetadata_set_self (reg : Registry) (t : JsType) (p : String)
    (m : SwaggerMetadata) :
    getSwaggerMetadata (setSwaggerMetadata reg t p m) t p =
      some (mergeMetadata ((mapGet reg (getMetadataKey t p)).getD {}) m) := by
  unfold getSwaggerMetadata setSwaggerMetadata
  exact mapGet_mapSet_self ..

/-- The accumulated `responses` map of the stored fragment (empty when the
fragment or its `responses` key is absent). -/
def responsesOf (reg : Registry) (t : JsType) (p : String) : List (String × JVal) :=
  ((getSwaggerMetadata reg t p).bind (·.responses)).getD []

/-- The accumulated `parameters` list of the stored fragment. -/
def parametersOf (reg : Registry) (t : JsType) (p : String) : List JVal :=
  ((getSwaggerMetadata reg t p).bind (·.parameters)).getD []

theorem responsesOf_applyResponse (reg : Registry) (t : JsType) (p : String)
    (st : Nat) (d : String) (s : Option JVal) :
    responsesOf (applySwaggerResponse st d s reg t p) t p
      = mapSet (responsesOf reg t p) (toString st) (rawResponse d s) := by
  unfold responsesOf applySwaggerResponse
  rw [getSwaggerMetadata_set_self]
  cases h : mapGet reg (getMetadataKey t p) <;>
    simp [getSwaggerMetadata, h, mergeMetadata, Option.orElse]

theorem parametersOf_appendParameter (reg : Registry) (t : JsType) (p : String)
    (raw : JVal) :
    parametersOf (appendParameter raw reg t p) t p = parametersOf reg t p ++ [raw] := by
  unfold parametersOf appendParameter
  rw [getSwaggerMetadata_set_self]
  cases h : mapGet reg (getMetadataKey t p) <;>
    simp [getSwaggerMetadata, h, mergeMetadata, Option.orElse]

theorem paramCall_apply_eq (c : ParamCall) (reg : Registry) (t : JsType) (p : String) :
    c.apply reg t p = appendParameter c.raw reg t p := by
  cases c <;> rfl

theorem parametersOf_applyParamCalls (cs : List ParamCall) (reg : Registry)
    (t : JsType) (p : String) :
    parametersOf (applyParamCalls cs reg t p) t p
      = parametersOf reg t p ++ cs.map ParamCall.raw := by
  induction cs generalizing reg with
  | nil => simp [applyParamCalls]
  | cons c rest ih =>
    simp only [applyParamCalls, ih, paramCall_apply_eq, parametersOf_appendParameter,
      List.map_cons]
    simp

/-! ## Claim C5 — decorator merge semantics -/

/-- C5: on the same (type, member), response decorators merge the
`responses` map key-by-key — applying status 200 then status 400 leaves
both the `"200"` and `"400"` keys present (each mapped to its raw
placeholder), a repeated status overwrites only its own key — while the
parameter-adding decorators append: after the calls `cs` the fragment's
parameter list is the previous list extended by one raw entry per call,
in application order. -/
theorem claim_C5_merge_semantics :
    (∀ (reg : Registry) (t : JsType) (p : String) (d1 d2 : String) (s1 s2 : Option JVal),
      mapGet (responsesOf (applySwaggerResponse 400 d2 s2
          (applySwaggerResponse 200 d1 s1 reg t p) t p) t p) "200"
        = some (rawResponse d1 s1) ∧
      mapGet (responsesOf (applySwaggerResponse 400 d2 s2
          (applySwaggerResponse 200 d1 s1 reg t p) t p) t p) "400"
        = some (rawResponse d2 s2)) ∧
    (∀ (reg : Registry) (t : JsType) (p : String) (st : Nat) (d : String) (s : Option JVal)
      (st' : String), toString st ≠ st' →
      mapGet (responsesOf (applySwaggerResponse st d s reg t p) t p) st'
        = mapGet (responsesOf reg t p) st') ∧
    (∀ (reg : Registry) (t : JsType) (p : String) (cs : List ParamCall),
      parametersOf (applyParamCalls cs reg t p) t p
        = parametersOf reg t p ++ cs.map ParamCall.raw) := by
  have h200 : toString (200 : Nat) = "200" := rfl
  have h400 : toString (400 : Nat) = "400" := rfl
  refine ⟨fun reg t p d1 d2 s1 s2 => ⟨?_, ?_⟩, fun reg t p st d s st' h => ?_,
    fun reg t p cs => parametersOf_applyParamCalls cs reg t p⟩
  · rw [responsesOf_applyResponse, responsesOf_applyResponse, h200, h400,
      mapGet_mapSet_ne _ _ _ _ (by decide), mapGet_mapSet_self]
  · rw [responsesOf_applyResponse, h400, mapGet_mapSet_self]
  · rw [responsesOf_applyResponse, mapGet_mapSet_ne _ _ _ _ h]

def typeUsers : JsType := ⟨0, "UsersController"⟩

/-- C5 witness: concrete two-response and two-parameter scenario on an
empty registry. -/
theorem claim_C5_merge_semantics_witness :
    (mapGet (responsesOf (applySwaggerResponse 400 "Bad request" none
        (applySwaggerResponse 200 "Success" none [] typeUsers "store") typeUsers "store")
        typeUsers "store") "200" = some (rawResponse "Success" none)) ∧
    (mapGet (responsesOf (applySwaggerResponse 400 "Bad request" none
        (applySwaggerResponse 200 "Success" none [] typeUsers "store") typeUsers "store")
        typeUsers "store") "400" = some (rawResponse "Bad request" none)) ∧
    (toString (201 : Nat) ≠ "200") ∧
    (parametersOf (applyParamCalls
        [.param "page" "query" none (.jobj .nil .nil) false,
         .header "x-request-id" none (.jobj .nil .nil) true] [] typeUsers "index")
        typeUsers "index"
      = [rawParameter "page" "query" false (.jobj .nil .nil) none,
         rawParameter "x-request-id" "header" true (.jobj .nil .nil) none]) := by
  refine ⟨(claim_C5_merge_semantics.1 [] typeUsers "store" "Success" "Bad request" none none).1,
    (claim_C5_merge_semantics.1 [] typeUsers "store" "Success" "Bad request" none none).2,
    by decide, ?_⟩
  rw [claim_C5_merge_semantics.2.2 [] typeUsers "index"
    [.param "page" "query" none (.jobj .nil .nil) false,
     .header "x-request-id" none (.jobj .nil .nil) true]]
  rfl

/-! ## Claim C4 — registry keying -/

def typeUsersDup : JsType := ⟨1, "UsersController"⟩

/-- C4 counterexample: two *distinct* declaring types that share a
constructor name collide — metadata stored for the first type's `index`
member is returned when querying the second type's `index` member, because
`getMetadataKey` uses only `constructor.name`. -/
theorem claim_C4_counterexample_same_name_collision :
    typeUsers ≠ typeUsersDup ∧
    getSwaggerMetadata
        (setSwaggerMetadata [] typeUsers "index" { summary := some "from type A" })
        typeUsersDup "index"
      = some { summary := some "from type A" } := by
  constructor
  · decide
  · rfl

theorem noDot_append_inj : ∀ {n1 n2 p1 p2 : List Char}, '.' ∉ n1 → '.' ∉ n2 →
    n1 ++ '.' :: p1 = n2 ++ '.' :: p2 → n1 = n2 := by
  intro n1
  induction n1 with
  | nil =>
    intro n2 p1 p2 _ h2 h
    cases n2 with
    | nil => rfl
    | cons c t =>
      exfalso
      simp only [List.nil_append, List.cons_append, List.cons.injEq] at h
      exact h2 (h.1 ▸ List.mem_cons_self c t)
  | cons c t ih =>
    intro n2 p1 p2 h1 h2 h
    cases n2 with
    | nil =>
      exfalso
      simp only [List.nil_append, List.cons_append, List.cons.injEq] at h
      exact h1 (h.1.symm ▸ List.mem_cons_self c t)
    | cons c' t' =>
      simp only [List.cons_append, List.cons.injEq] at h
      obtain ⟨hc, hrest⟩ := h
      have := ih (fun hm => h1 (List.mem_cons_of_mem _ hm))
        (fun hm => h2 (List.mem_cons_of_mem _ hm)) hrest
      rw [hc, this]

theorem getMetadataKey_inj_of_noDot (t1 t2 : JsType) (p1 p2 : String)
    (h1 : '.' ∉ t1.ctorName.data) (h2 : '.' ∉ t2.ctorName.data)
    (hne : t1.ctorName ≠ t2.ctorName) :
    getMetadataKey t1 p1 ≠ getMetadataKey t2 p2 := by
  intro h
  apply hne
  have hd := congrArg String.data h
  unfold getMetadataKey at hd
  simp only [String.data_append] at hd
  have : t1.ctorName.data = t2.ctorName.data := by
    apply noDot_append_inj h1 h2
    simpa using hd
  exact String.ext this

/-- C4 amended: the registry key is the pair (constructor *name*, member
name): as long as two declaring types have *different* constructor names
(names contain no dot), storing metadata for one (type, member) pair never
affects lookups for the other; two distinct types that share a constructor
name do collide (see the counterexample). -/
theorem claim_C4_amended_name_keyed_registry :
    ∀ (reg : Registry) (t1 t2 : JsType) (p1 p2 : String) (m : SwaggerMetadata),
      '.' ∉ t1.ctorName.data → '.' ∉ t2.ctorName.data → t1.ctorName ≠ t2.ctorName →
      getSwaggerMetadata (setSwaggerMetadata reg t1 p1 m) t2 p2
        = getSwaggerMetadata reg t2 p2 := by
  intro reg t1 t2 p1 p2 m h1 h2 hne
  unfold getSwaggerMetadata setSwaggerMetadata
  exact mapGet_mapSet_ne _ _ _ _ (getMetadataKey_inj_of_noDot t1 t2 p1 p2 h1 h2 hne)

def typePosts : JsType := ⟨2, "PostsController"⟩

/-- C4 witness: distinct constructor names, same member name, no
collision. -/
theorem claim_C4_amended_name_keyed_registry_witness :
    getSwaggerMetadata
        (setSwaggerMetadata [] typeUsers "index" { summary := some "from type A" })
        typePosts "index"
      = none := by
  rw [claim_C4_amended_name_keyed_registry [] typeUsers typePosts "index" "index"
    { summary := some "from type A" } (by decide) (by decide) (by decide)]
  rfl

/-! ## Claim C2 — generation-time resolution of raw placeholders -/

def schemaUsersBody : JVal :=
  .jobj (.cons "type" (.jstr "object") .nil) .nil

def fragStored : SwaggerMetadata :=
  { responses := some [("200", rawResponse "Success" (some schemaUsersBody))] }

/-- C2 (code-bug evidence): the fragment stored by
`SwaggerResponse(200, "Success", schema)` holds a Raw Metadata Placeholder
(tagged with `RAW_METADATA_MARKER`), and `resolveMetadataPromises` —
whatever promise resolution does — returns it *unchanged*: the marker is
still present and no `{description, content: {...}}` envelope is built,
because the function only awaits thenables and a raw placeholder is not a
thenable. -/
theorem claim_C2_resolve_keeps_raw_placeholder :
    ∀ aw : JVal → JVal,
      getSwaggerMetadata
          (applySwaggerResponse 200 "Success" (some schemaUsersBody) [] typeUsers "index")
          typeUsers "index" = some fragStored ∧
      resolveMetadataPromises aw fragStored = fragStored ∧
      (rawResponse "Success" (some schemaUsersBody)).getSym rawMetadataSym = .jbool true ∧
      (rawResponse "Success" (some schemaUsersBody)).getF "content" = .undef := by
  intro aw
  refine ⟨rfl, ?_, rfl, rfl⟩
  rfl

/-! ## Claim C3 — ignoreMethods is never applied -/

def headRoute : RouteInfo :=
  { method := "HEAD", pattern := "/users", handler := "UsersController.index" }

def cfgIgnoreHead : RoutesConfig := { ignoreMethods := some ["HEAD"] }

/-- C3 (code-bug evidence): with `ignoreMethods = ["HEAD"]` configured, a
`HEAD` route — whose upper-cased method is in the upper-cased ignore
list — still survives `filterRoutes` unchanged: the filtering stage never
consults `ignoreMethods`. -/
theorem claim_C3_filterRoutes_keeps_ignored_method :
    filterRoutes cfgIgnoreHead [headRoute] = [headRoute] ∧
    ((cfgIgnoreHead.ignoreMethods.getD []).map strToUpper).contains
      (strToUpper headRoute.method) = true := by
  constructor
  · rfl
  · decide

/-! ## Claim C9 — operation-id generation -/

def routeUsersShow : RouteInfo := { method := "GET", pattern := "/users/:id" }

/-- C9 counterexample: for the unnamed route `GET /users/:id` the code
produces `get_users_id` — the `{`, `}`, `:` characters are stripped — not
the `get_users_\x7bid\x7d` stated by the claim. -/
theorem claim_C9_counterexample_braces_stripped :
    generateOperationId routeUsersShow = "get_users_id" ∧
    generateOperationId routeUsersShow ≠ "get_users_\x7bid\x7d" := by
  constructor
  · rfl
  · decide

/-- C9 amended: a route with a truthy declared name yields the name with
every dot replaced by an underscore (`users.index` gives `users_index`);
an unnamed `GET /users/:id` yields `get_users_id`, since the sanitising
chain strips `{`, `}` and `:` after replacing slashes with underscores. -/
theorem claim_C9_amended_operation_id :
    (∀ (r : RouteInfo) (n : String), r.name = some n → n ≠ "" →
      generateOperationId r = dotsToUnderscores n) ∧
    generateOperationId { method := "GET", pattern := "/users", name := some "users.index" }
      = "users_index" ∧
    generateOperationId routeUsersShow = "get_users_id" := by
  refine ⟨fun r n hn hne => ?_, rfl, rfl⟩
  unfold generateOperationId
  rw [hn]
  simp [hne]

/-- C9 witness: the name branch applied at a concrete route. -/
theorem claim_C9_amended_operation_id_witness :
    generateOperationId { method := "POST", pattern := "/users", name := some "users.index" }
      = dotsToUnderscores "users.index" :=
  claim_C9_amended_operation_id.1
    { method := "POST", pattern := "/users", name := some "users.index" }
    "users.index" rfl (by decide)

end OpenSwagger

namespace OpenSwagger

/-! ## schema_utils.ts — cleanZodJsonSchema

Each transformation function below walks the string-keyed fields of the
spread copy `{...schema}`; the per-key updates of the source (targeted
assignments to `properties`, `items`, `anyOf`/`oneOf`/`allOf`, …) become
per-entry transformations, which is equivalent because JavaScript object
keys are unique and assignment preserves key order.  An array input is
spread into an object with index keys (`{...arr}`), whose numeric keys
never match the special names, so no recursion happens there. -/

mutual

/-- `cleanZodJsonSchema` — drop the `pattern` of `date-time` fields, and
recurse through `properties`, `items` and `anyOf`/`oneOf`/`allOf`. -/
def cleanZodJsonSchema : JVal → JVal
  | .jobj sf yf =>
    let delPat := (sf.get "format" = .jstr "date-time") && (sf.get "pattern").truthy
    .jobj (cleanZodFields delPat sf) yf
  | .jarr es => .jobj (idxFields 0 es) .nil
  | v => v

def cleanZodFields (delPat : Bool) : JFields → JFields
  | .nil => .nil
  | .cons k v t =>
    let rest := cleanZodFields delPat t
    if k = "pattern" && delPat then rest
    else if k = "properties" then
      if v.truthy then .cons k (cleanZodProps v) rest else .cons k v rest
    else if k = "items" then
      if v.truthy then .cons k (cleanZodJsonSchema v) rest else .cons k v rest
    else if k = "anyOf" || k = "oneOf" || k = "allOf" then
      match v with
      | .jarr es => .cons k (.jarr (cleanZodList es)) rest
      | _ => .cons k v rest
    else .cons k v rest

/-- `Object.fromEntries(Object.entries(props).map(([k, v]) => [k, clean(v)]))`. -/
def cleanZodProps : JVal → JVal
  | .jobj sfP _ => .jobj (cleanZodMapF sfP) .nil
  | .jarr es => .jobj (cleanZodIdx 0 es) .nil
  | .jstr s => .jobj (charFields 0 s.data) .nil
  | _ => .jobj .nil .nil

def cleanZodMapF : JFields → JFields
  | .nil => .nil
  | .cons k v t => .cons k (cleanZodJsonSchema v) (cleanZodMapF t)

def cleanZodIdx (start : Nat) : JList → JFields
  | .nil => .nil
  | .cons h t => .cons (toString start) (cleanZodJsonSchema h) (cleanZodIdx (start + 1) t)

def cleanZodList : JList → JList
  | .nil => .nil
  | .cons h t => .cons (cleanZodJsonSchema h) (cleanZodList t)

end

/-! ## schema_utils.ts — fixNullableFieldsInSchema (Zod) -/

/-- The element list of a value known to be an array. -/
def reqElems : JVal → JList
  | .jarr es => es
  | _ => .nil

/-- The `required.filter(...)` callback of the Zod fixup: keep a field
name unless its property exists and carries `nullable === true`. -/
def zodReqFilter (props : JVal) : JList → JList
  | .nil => .nil
  | .cons el t =>
    let rest := zodReqFilter props t
    let property := props.getF el.keyStr
    if !property.truthy then .cons el rest
    else if property.getF "nullable" = .jbool true then rest
    else .cons el rest

mutual

/-- `fixNullableFieldsInSchema` — on object schemas with `properties` and
an array `required`, filter nullable fields out of `required` (deleting
the key when the filter empties it), then recurse through `properties`,
`items` and `anyOf`/`oneOf`/`allOf`. -/
def fixNullableFieldsInSchema : JVal → JVal
  | .jobj sf yf =>
    let condReq := (sf.get "type" = .jstr "object") && (sf.get "properties").truthy
      && (sf.get "required").isArr
    let filtered := zodReqFilter (sf.get "properties") (reqElems (sf.get "required"))
    .jobj (fixZodFields condReq filtered sf) yf
  | .jarr es => .jobj (idxFields 0 es) .nil
  | v => v

def fixZodFields (condReq : Bool) (filtered : JList) : JFields → JFields
  | .nil => .nil
  | .cons k v t =>
    let rest := fixZodFields condReq filtered t
    if k = "required" then
      if condReq then
        match filtered with
        | .nil => rest
        | f => .cons k (.jarr f) rest
      else .cons k v rest
    else if k = "properties" then
      if v.truthy then .cons k (fixZodProps v) rest else .cons k v rest
    else if k = "items" then
      if v.truthy then .cons k (fixNullableFieldsInSchema v) rest else .cons k v rest
    else if k = "anyOf" || k = "oneOf" || k = "allOf" then
      match v with
      | .jarr es => .cons k (.jarr (fixZodList es)) rest
      | _ => .cons k v rest
    else .cons k v rest

def fixZodProps : JVal → JVal
  | .jobj sfP _ => .jobj (fixZodMapF sfP) .nil
  | .jarr es => .jobj (fixZodIdx 0 es) .nil
  | .jstr s => .jobj (charFields 0 s.data) .nil
  | _ => .jobj .nil .nil

def fixZodMapF : JFields → JFields
  | .nil => .nil
  | .cons k v t => .cons k (fixNullableFieldsInSchema v) (fixZodMapF t)

def fixZodIdx (start : Nat) : JList → JFields
  | .nil => .nil
  | .cons h t => .cons (toString start) (fixNullableFieldsInSchema h) (fixZodIdx (start + 1) t)

def fixZodList : JList → JList
  | .nil => .nil
  | .cons h t => .cons (fixNullableFieldsInSchema h) (fixZodList t)

end

/-! ## schema_utils.ts — fixTypeBoxNullableFields -/

/-- `property.anyOf.some(item => item.type === 'null')`. -/
def hasNullItem : JList → Bool
  | .nil => false
  | .cons h t => (h.getF "type" = .jstr "null") || hasNullItem t

/-- The `required.filter(...)` callback of the TypeBox fixup: keep a field
name unless its property exists and its `anyOf` (an array) has an item of
`type 'null'`. -/
def tbReqFilter (props : JVal) : JList → JList
  | .nil => .nil
  | .cons el t =>
    let rest := tbReqFilter props t
    let property := props.getF el.keyStr
    if !property.truthy then .cons el rest
    else if (property.getF "anyOf").truthy && (property.getF "anyOf").isArr
        && hasNullItem (reqElems (property.getF "anyOf")) then rest
    else .cons el rest

mutual

/-- `fixTypeBoxNullableFields` — same walk as the Zod fixup, with
nullability read from an `anyOf` branch of `type 'null'`. -/
def fixTypeBoxNullableFields : JVal → JVal
  | .jobj sf yf =>
    let condReq := (sf.get "type" = .jstr "object") && (sf.get "properties").truthy
      && (sf.get "required").isArr
    let filtered := tbReqFilter (sf.get "properties") (reqElems (sf.get "required"))
    .jobj (fixTBFields condReq filtered sf) yf
  | .jarr es => .jobj (idxFields 0 es) .nil
  | v => v

def fixTBFields (condReq : Bool) (filtered : JList) : JFields → JFields
  | .nil => .nil
  | .cons k v t =>
    let rest := fixTBFields condReq filtered t
    if k = "required" then
      if condReq then
        match filtered with
        | .nil => rest
        | f => .cons k (.jarr f) rest
      else .cons k v rest
    else if k = "properties" then
      if v.truthy then .cons k (fixTBProps v) rest else .cons k v rest
    else if k = "items" then
      if v.truthy then .cons k (fixTypeBoxNullableFields v) rest else .cons k v rest
    else if k = "anyOf" || k = "oneOf" || k = "allOf" then
      match v with
      | .jarr es => .cons k (.jarr (fixTBList es)) rest
      | _ => .cons k v rest
    else .cons k v rest

def fixTBProps : JVal → JVal
  | .jobj sfP _ => .jobj (fixTBMapF sfP) .nil
  | .jarr es => .jobj (fixTBIdx 0 es) .nil
  | .jstr s => .jobj (charFields 0 s.data) .nil
  | _ => .jobj .nil .nil

def fixTBMapF : JFields → JFields
  | .nil => .nil
  | .cons k v t => .cons k (fixTypeBoxNullableFields v) (fixTBMapF t)

def fixTBIdx (start : Nat) : JList → JFields
  | .nil => .nil
  | .cons h t => .cons (toString start) (fixTypeBoxNullableFields h) (fixTBIdx (start + 1) t)

def fixTBList : JList → JList
  | .nil => .nil
  | .cons h t => .cons (fixTypeBoxNullableFields h) (fixTBList t)

end

/-! ## schema_utils.ts — cleanTypeBoxFileSchemas -/

mutual

/-- `cleanTypeBoxFileSchemas` — rebuild an object from its string-keyed
entries (so symbol keys vanish): file schemas found under a `properties`
key become clean OpenAPI nodes, nested non-array objects are cleaned
recursively, arrays and primitives are copied verbatim. -/
def cleanTypeBoxFileSchemas : JVal → JVal
  | .jobj sf _ => .jobj (cleanTBFields sf) .nil
  | .jarr es => .jobj (cleanTBIdx 0 es) .nil
  | v => v

def cleanTBFields : JFields → JFields
  | .nil => .nil
  | .cons k v t =>
    let rest := cleanTBFields t
    if k = "properties" && v.isObjTy && !(v = .jnull) then .cons k (cleanTBProps v) rest
    else if v.isObjTy && !(v = .jnull) && !v.isArr then
      .cons k (cleanTypeBoxFileSchemas v) rest
    else .cons k v rest

def cleanTBProps : JVal → JVal
  | .jobj sfP _ => .jobj (cleanTBPropF sfP) .nil
  | .jarr es => .jobj (cleanTBPropIdx 0 es) .nil
  | _ => .jobj .nil .nil

def cleanTBPropF : JFields → JFields
  | .nil => .nil
  | .cons k v t =>
    let entry :=
      if isFileSchema v then toOpenAPIFileSchema v
      else if v.isObjTy && !(v = .jnull) then cleanTypeBoxFileSchemas v
      else v
    .cons k entry (cleanTBPropF t)

def cleanTBPropIdx (start : Nat) : JList → JFields
  | .nil => .nil
  | .cons h t =>
    let entry :=
      if isFileSchema h then toOpenAPIFileSchema h
      else if h.isObjTy && !(h = .jnull) then cleanTypeBoxFileSchemas h
      else h
    .cons (toString start) entry (cleanTBPropIdx (start + 1) t)

def cleanTBIdx (start : Nat) : JList → JFields
  | .nil => .nil
  | .cons h t =>
    let entry :=
      if h.isObjTy && !(h = .jnull) && !h.isArr then cleanTypeBoxFileSchemas h
      else h
    .cons (toString start) entry (cleanTBIdx (start + 1) t)

end

/-- `typeBoxToJsonSchema` — clean file markers, then fix nullable required
fields.  The source wraps this in `try`/`catch` with a `{type:'object',
description:'TypeBox schema (conversion failed)'}` fallback, but the body
is pure and cannot throw, so the fallback is unreachable. -/
def typeBoxToJsonSchema (typeBoxSchema : JVal) : JVal :=
  fixTypeBoxNullableFields (cleanTypeBoxFileSchemas typeBoxSchema)

end OpenSwagger

namespace OpenSwagger

/-! ## Lemmas about the nullable-required fixups -/

/-- `hasF` — does the value (as an object) own the string key? -/
def JVal.hasF : JVal → String → Bool
  | .jobj sf _, k => sf.has k
  | _, _ => false

theorem fixZodFields_get_notMem : ∀ (c : Bool) (fl : JList) (sf : JFields) (k : String),
    k ∉ sf.keys → (fixZodFields c fl sf).get k = .undef
  | _, _, .nil, _, _ => by simp [fixZodFields, JFields.get]
  | c, fl, .cons k' v t, k, hk => by
    simp only [JFields.keys, List.mem_cons, not_or] at hk
    obtain ⟨hk1, hk2⟩ := hk
    have hne : ¬(k' = k) := fun h => hk1 h.symm
    have ih := fixZodFields_get_notMem c fl t k hk2
    unfold fixZodFields
    split_ifs <;> (try cases fl) <;> (try cases v) <;>
      first
        | exact ih
        | simp [JFields.get, hne, ih]

theorem fixZodFields_has_notMem : ∀ (c : Bool) (fl : JList) (sf : JFields) (k : String),
    k ∉ sf.keys → (fixZodFields c fl sf).has k = false
  | _, _, .nil, _, _ => by simp [fixZodFields, JFields.has]
  | c, fl, .cons k' v t, k, hk => by
    simp only [JFields.keys, List.mem_cons, not_or] at hk
    obtain ⟨hk1, hk2⟩ := hk
    have hne : ¬(k' = k) := fun h => hk1 h.symm
    have ih := fixZodFields_has_notMem c fl t k hk2
    unfold fixZodFields
    split_ifs <;> (try cases fl) <;> (try cases v) <;>
      first
        | exact ih
        | simp [JFields.has, hne, ih]

end OpenSwagger

namespace OpenSwagger

theorem fixZodFields_get_required : ∀ (c : Bool) (fl : JList) (sf : JFields),
    sf.keys.Nodup →
    (fixZodFields c fl sf).get "required" =
      (if sf.has "required" then
        (if c then (match fl with | .nil => JVal.undef | f => JVal.jarr f)
         else sf.get "required")
       else .undef)
  | c, fl, .nil, _ => by simp [fixZodFields, JFields.get, JFields.has]
  | c, fl, .cons k' v t, hnd => by
    simp only [JFields.keys, List.nodup_cons] at hnd
    obtain ⟨hk', hnd'⟩ := hnd
    have ih := fixZodFields_get_required c fl t hnd'
    by_cases hk : k' = "required"
    · subst hk
      have hget := fixZodFields_get_notMem c fl t "required" hk'
      unfold fixZodFields
      split_ifs with h1 h2 <;> (try cases fl) <;>
        simp_all [JFields.get, JFields.has]
    · unfold fixZodFields
      split_ifs <;> (try cases fl) <;> (try cases v) <;>
        simp_all [JFields.get, JFields.has]

theorem fixTBFields_get_notMem : ∀ (c : Bool) (fl : JList) (sf : JFields) (k : String),
    k ∉ sf.keys → (fixTBFields c fl sf).get k = .undef
  | _, _, .nil, _, _ => by simp [fixTBFields, JFields.get]
  | c, fl, .cons k' v t, k, hk => by
    simp only [JFields.keys, List.mem_cons, not_or] at hk
    obtain ⟨hk1, hk2⟩ := hk
    have hne : ¬(k' = k) := fun h => hk1 h.symm
    have ih := fixTBFields_get_notMem c fl t k hk2
    unfold fixTBFields
    split_ifs <;> (try cases fl) <;> (try cases v) <;>
      first
        | exact ih
        | simp [JFields.get, hne, ih]

theorem fixTBFields_has_notMem : ∀ (c : Bool) (fl : JList) (sf : JFields) (k : String),
    k ∉ sf.keys → (fixTBFields c fl sf).has k = false
  | _, _, .nil, _, _ => by simp [fixTBFields, JFields.has]
  | c, fl, .cons k' v t, k, hk => by
    simp only [JFields.keys, List.mem_cons, not_or] at hk
    obtain ⟨hk1, hk2⟩ := hk
    have hne : ¬(k' = k) := fun h => hk1 h.symm
    have ih := fixTBFields_has_notMem c fl t k hk2
    unfold fixTBFields
    split_ifs <;> (try cases fl) <;> (try cases v) <;>
      first
        | exact ih
        | simp [JFields.has, hne, ih]

theorem fixTBFields_get_required : ∀ (c : Bool) (fl : JList) (sf : JFields),
    sf.keys.Nodup →
    (fixTBFields c fl sf).get "required" =
      (if sf.has "required" then
        (if c then (match fl with | .nil => JVal.undef | f => JVal.jarr f)
         else sf.get "required")
       else .undef)
  | c, fl, .nil, _ => by simp [fixTBFields, JFields.get, JFields.has]
  | c, fl, .cons k' v t, hnd => by
    simp only [JFields.keys, List.nodup_cons] at hnd
    obtain ⟨hk', hnd'⟩ := hnd
    have ih := fixTBFields_get_required c fl t hnd'
    by_cases hk : k' = "required"
    · subst hk
      have hget := fixTBFields_get_notMem c fl t "required" hk'
      unfold fixTBFields
      split_ifs with h1 h2 <;> (try cases fl) <;>
        simp_all [JFields.get, JFields.has]
    · unfold fixTBFields
      split_ifs <;> (try cases fl) <;> (try cases v) <;>
        simp_all [JFields.get, JFields.has]

/-- The keep-condition of the Zod `required.filter` callback. -/
def zodKeep (props el : JVal) : Bool :=
  if !(props.getF el.keyStr).truthy then true
  else if (props.getF el.keyStr).getF "nullable" = .jbool true then false
  else true

theorem zodReqFilter_toList (props : JVal) : ∀ R : JList,
    (zodReqFilter props R).toList = R.toList.filter (zodKeep props)
  | .nil => rfl
  | .cons h t => by
    have ih := zodReqFilter_toList props t
    have hcons : (JList.cons h t).toList = h :: t.toList := rfl
    rw [hcons, List.filter_cons]
    unfold zodReqFilter
    dsimp only
    by_cases h1 : (props.getF h.keyStr).truthy
    · by_cases h2 : (props.getF h.keyStr).getF "nullable" = .jbool true
      · have hk : zodKeep props h = false := by simp [zodKeep, h1, h2]
        simp [h1, h2, hk, ih, JList.toList]
      · have hk : zodKeep props h = true := by simp [zodKeep, h1, h2]
        simp [h1, h2, hk, ih, JList.toList]
    · have hk : zodKeep props h = true := by simp [zodKeep, h1]
      simp [h1, hk, ih, JList.toList]

/-- The keep-condition of the TypeBox `required.filter` callback. -/
def tbKeep (props el : JVal) : Bool :=
  if !(props.getF el.keyStr).truthy then true
  else if ((props.getF el.keyStr).getF "anyOf").truthy
      && ((props.getF el.keyStr).getF "anyOf").isArr
      && hasNullItem (reqElems ((props.getF el.keyStr).getF "anyOf")) then false
  else true

theorem tbReqFilter_toList (props : JVal) : ∀ R : JList,
    (tbReqFilter props R).toList = R.toList.filter (tbKeep props)
  | .nil => rfl
  | .cons h t => by
    have ih := tbReqFilter_toList props t
    by_cases hb1 : (!(props.getF h.keyStr).truthy) = true
    · have hk : tbKeep props h = true := by
        unfold tbKeep
        rw [if_pos hb1]
      unfold tbReqFilter
      dsimp only
      rw [if_pos hb1]
      rw [show (JList.cons h (tbReqFilter props t)).toList
          = h :: (tbReqFilter props t).toList from rfl]
      rw [show (JList.cons h t).toList = h :: t.toList from rfl, List.filter_cons,
        if_pos hk, ih]
    · by_cases hb2 : (((props.getF h.keyStr).getF "anyOf").truthy
          && ((props.getF h.keyStr).getF "anyOf").isArr
          && hasNullItem (reqElems ((props.getF h.keyStr).getF "anyOf"))) = true
      · have hk : tbKeep props h = false := by
          unfold tbKeep
          rw [if_neg hb1, if_pos hb2]
        unfold tbReqFilter
        dsimp only
        rw [if_neg hb1, if_pos hb2]
        rw [show (JList.cons h t).toList = h :: t.toList from rfl, List.filter_cons,
          if_neg (by simp [hk]), ih]
      · have hk : tbKeep props h = true := by
          unfold tbKeep
          rw [if_neg hb1, if_neg hb2]
        unfold tbReqFilter
        dsimp only
        rw [if_neg hb1, if_neg hb2]
        rw [show (JList.cons h (tbReqFilter props t)).toList
            = h :: (tbReqFilter props t).toList from rfl]
        rw [show (JList.cons h t).toList = h :: t.toList from rfl, List.filter_cons,
          if_pos hk, ih]

end OpenSwagger

namespace OpenSwagger

theorem has_of_get_present (k : String) : ∀ (sf : JFields),
    sf.get k ≠ .undef → sf.has k = true
  | .nil, h => by simp [JFields.get] at h
  | .cons k' v t, h => by
    by_cases hk : k' = k
    · simp [JFields.has, hk]
    · simp only [JFields.get, if_neg hk] at h
      simp [JFields.has, hk, has_of_get_present k t h]

theorem fixZodFields_has_required_nil : ∀ (sf : JFields), sf.keys.Nodup →
    (fixZodFields true .nil sf).has "required" = false
  | .nil, _ => rfl
  | .cons k' v t, hnd => by
    simp only [JFields.keys, List.nodup_cons] at hnd
    obtain ⟨hk', hnd'⟩ := hnd
    by_cases hk : k' = "required"
    · subst hk
      have hrest := fixZodFields_has_notMem true .nil t "required" hk'
      unfold fixZodFields
      simp [hrest]
    · have ih := fixZodFields_has_required_nil t hnd'
      unfold fixZodFields
      split_ifs <;> (try cases v) <;>
        first
          | exact ih
          | simp [JFields.has, hk, ih]

theorem fixTBFields_has_required_nil : ∀ (sf : JFields), sf.keys.Nodup →
    (fixTBFields true .nil sf).has "required" = false
  | .nil, _ => rfl
  | .cons k' v t, hnd => by
    simp only [JFields.keys, List.nodup_cons] at hnd
    obtain ⟨hk', hnd'⟩ := hnd
    by_cases hk : k' = "required"
    · subst hk
      have hrest := fixTBFields_has_notMem true .nil t "required" hk'
      unfold fixTBFields
      simp [hrest]
    · have ih := fixTBFields_has_required_nil t hnd'
      unfold fixTBFields
      split_ifs <;> (try cases v) <;>
        first
          | exact ih
          | simp [JFields.has, hk, ih]

/-! ## Claim C10 — empty required arrays -/

/-- An object node with an (already empty) `required` array but no
`properties` key: neither fixup touches it. -/
def nodeEmptyReq : JVal :=
  .jobj (.cons "type" (.jstr "object") (.cons "required" (.jarr .nil) .nil)) .nil

/-- C10 counterexample: an object node whose `required` is an empty array
but which has no `properties` key does not satisfy the filter
precondition, so both fixups return it unchanged — the output object node
still carries the empty `required` array, refuting "no object node in the
output ever carries an empty required array". -/
theorem claim_C10_counterexample_empty_required_survives :
    (fixNullableFieldsInSchema nodeEmptyReq).getF "type" = .jstr "object" ∧
    (fixNullableFieldsInSchema nodeEmptyReq).getF "required" = .jarr .nil ∧
    (fixTypeBoxNullableFields nodeEmptyReq).getF "type" = .jstr "object" ∧
    (fixTypeBoxNullableFields nodeEmptyReq).getF "required" = .jarr .nil := by
  exact ⟨rfl, rfl, rfl, rfl⟩

/-- C10 amended: whenever the fixups' required-filter actually runs — the
node has `type: 'object'`, a truthy `properties` and an array `required`
(keys unique, as in every JavaScript object) — an empty filter result
deletes the `required` key entirely and a non-empty one is kept whole, so
no *filtered* object node ever carries an empty `required` array; an
object node without `properties` (see the counterexample) keeps a
pre-existing empty `required` array. -/
theorem claim_C10_amended_required_deletion :
    ∀ (sf : JFields) (yf : JSyms) (R : JList),
      sf.keys.Nodup →
      sf.get "type" = .jstr "object" →
      (sf.get "properties").truthy = true →
      sf.get "required" = .jarr R →
      ((zodReqFilter (sf.get "properties") R = .nil →
          (fixNullableFieldsInSchema (.jobj sf yf)).hasF "required" = false) ∧
        (∀ h tl, zodReqFilter (sf.get "properties") R = .cons h tl →
          (fixNullableFieldsInSchema (.jobj sf yf)).getF "required" = .jarr (.cons h tl))) ∧
      ((tbReqFilter (sf.get "properties") R = .nil →
          (fixTypeBoxNullableFields (.jobj sf yf)).hasF "required" = false) ∧
        (∀ h tl, tbReqFilter (sf.get "properties") R = .cons h tl →
          (fixTypeBoxNullableFields (.jobj sf yf)).getF "required" = .jarr (.cons h tl))) := by
  intro sf yf R hnd hty hpr hreq
  have hcond : ((sf.get "type" = JVal.jstr "object") && (sf.get "properties").truthy
      && (sf.get "required").isArr) = true := by
    simp [hty, hpr, hreq, JVal.isArr]
  have hhasReq : sf.has "required" = true :=
    has_of_get_present "required" sf (by simp [hreq])
  constructor
  · constructor
    · intro hfil
      show (fixZodFields _ _ sf).has "required" = false
      rw [show (((sf.get "type" = JVal.jstr "object") && (sf.get "properties").truthy
          && (sf.get "required").isArr)) = true from hcond]
      rw [hreq]
      show (fixZodFields true (zodReqFilter (sf.get "properties") (reqElems (.jarr R))) sf).has
        "required" = false
      rw [show reqElems (.jarr R) = R from rfl, hfil]
      exact fixZodFields_has_required_nil sf hnd
    · intro h tl hfil
      show (fixZodFields _ _ sf).get "required" = _
      rw [show (((sf.get "type" = JVal.jstr "object") && (sf.get "properties").truthy
          && (sf.get "required").isArr)) = true from hcond]
      rw [hreq]
      rw [show reqElems (.jarr R) = R from rfl, hfil]
      rw [fixZodFields_get_required true (.cons h tl) sf hnd]
      simp [hhasReq]
  · constructor
    · intro hfil
      show (fixTBFields _ _ sf).has "required" = false
      rw [show (((sf.get "type" = JVal.jstr "object") && (sf.get "properties").truthy
          && (sf.get "required").isArr)) = true from hcond]
      rw [hreq]
      show (fixTBFields true (tbReqFilter (sf.get "properties") (reqElems (.jarr R))) sf).has
        "required" = false
      rw [show reqElems (.jarr R) = R from rfl, hfil]
      exact fixTBFields_has_required_nil sf hnd
    · intro h tl hfil
      show (fixTBFields _ _ sf).get "required" = _
      rw [show (((sf.get "type" = JVal.jstr "object") && (sf.get "properties").truthy
          && (sf.get "required").isArr)) = true from hcond]
      rw [hreq]
      rw [show reqElems (.jarr R) = R from rfl, hfil]
      rw [fixTBFields_get_required true (.cons h tl) sf hnd]
      simp [hhasReq]

end OpenSwagger

namespace OpenSwagger

def sfZodAllNullable : JFields :=
  .cons "type" (.jstr "object")
    (.cons "properties"
      (.jobj (.cons "a" (.jobj (.cons "nullable" (.jbool true) .nil) .nil) .nil) .nil)
      (.cons "required" (.jarr (.cons (.jstr "a") .nil)) .nil))

def sfZodMixed : JFields :=
  .cons "type" (.jstr "object")
    (.cons "properties"
      (.jobj
        (.cons "a" (.jobj (.cons "nullable" (.jbool true) .nil) .nil)
          (.cons "b" (.jobj (.cons "type" (.jstr "string") .nil) .nil) .nil))
        .nil)
      (.cons "required" (.jarr (.cons (.jstr "a") (.cons (.jstr "b") .nil))) .nil))

def tbNullProp : JVal :=
  .jobj (.cons "anyOf" (.jarr (.cons (.jobj (.cons "type" (.jstr "null") .nil) .nil) .nil)) .nil)
    .nil

def sfTBAllNullable : JFields :=
  .cons "type" (.jstr "object")
    (.cons "properties" (.jobj (.cons "a" tbNullProp .nil) .nil)
      (.cons "required" (.jarr (.cons (.jstr "a") .nil)) .nil))

def sfTBMixed : JFields :=
  .cons "type" (.jstr "object")
    (.cons "properties"
      (.jobj
        (.cons "a" tbNullProp
          (.cons "b" (.jobj (.cons "type" (.jstr "string") .nil) .nil) .nil))
        .nil)
      (.cons "required" (.jarr (.cons (.jstr "a") (.cons (.jstr "b") .nil))) .nil))

/-- C10 witness: concrete runs of both fixups — an all-nullable object
loses its `required` key, a mixed one keeps exactly the non-nullable
name. -/
theorem claim_C10_amended_required_deletion_witness :
    (fixNullableFieldsInSchema (.jobj sfZodAllNullable .nil)).hasF "required" = false ∧
    (fixNullableFieldsInSchema (.jobj sfZodMixed .nil)).getF "required"
      = .jarr (.cons (.jstr "b") .nil) ∧
    (fixTypeBoxNullableFields (.jobj sfTBAllNullable .nil)).hasF "required" = false ∧
    (fixTypeBoxNullableFields (.jobj sfTBMixed .nil)).getF "required"
      = .jarr (.cons (.jstr "b") .nil) := by
  refine ⟨?_, ?_, ?_, ?_⟩
  · exact ((claim_C10_amended_required_deletion sfZodAllNullable .nil
      (.cons (.jstr "a") .nil) (by decide) rfl rfl rfl).1).1 (by decide)
  · exact ((claim_C10_amended_required_deletion sfZodMixed .nil
      (.cons (.jstr "a") (.cons (.jstr "b") .nil)) (by decide) rfl rfl rfl).1).2
      (.jstr "b") .nil (by decide)
  · exact ((claim_C10_amended_required_deletion sfTBAllNullable .nil
      (.cons (.jstr "a") .nil) (by decide) rfl rfl rfl).2).1 (by decide)
  · exact ((claim_C10_amended_required_deletion sfTBMixed .nil
      (.cons (.jstr "a") (.cons (.jstr "b") .nil)) (by decide) rfl rfl rfl).2).2
      (.jstr "b") .nil (by decide)

end OpenSwagger

namespace OpenSwagger

/-! ## schema_utils.ts — convertVineJSToJsonSchema -/

/-- Concatenation of field lists (building an object left to right). -/
def JFields.append : JFields → JFields → JFields
  | .nil, r => r
  | .cons k v t, r => .cons k v (JFields.append t r)

/-- `{type:'object', description: d}` — the converter fallback nodes. -/
def mkFallback (d : String) : JVal :=
  .jobj (.cons "type" (.jstr "object") (.cons "description" (.jstr d) .nil)) .nil

/-- The valid field name of a VineJS property entry: skipped when falsy,
whitespace-only after `trim()`, or the internal `propertyName`.  (A truthy
non-string `fieldName` would make the source throw inside the converter's
outer `try`; VineJS `toJSON` output always carries string field names, so
it is modelled as a skip.) -/
def vineFieldKey (p : JVal) : Option String :=
  match p.getF "fieldName" with
  | .jstr s =>
    if s = "" || s.data.all (·.isWhitespace) || s = "propertyName" then none else some s
  | _ => none

/-- The valid field names of a VineJS property list, in order. -/
def vineNames (es : JList) : List String :=
  es.toList.filterMap vineFieldKey

/-- The `required` list accumulated by the conversion loops: a valid field
name is pushed when the property is neither optional nor nullable. -/
def vineReqList : JList → JList
  | .nil => .nil
  | .cons p t =>
    match vineFieldKey p with
    | some f =>
      if !(p.getF "isOptional").truthy && !(p.getF "allowNull").truthy then
        .cons (.jstr f) (vineReqList t)
      else vineReqList t
    | none => vineReqList t

/-- The `switch (prop.subtype)` mapping of `convertVineJSProperty`. -/
def vineSubtypeFields (subty : JVal) : JFields :=
  if subty = .jstr "string" then .cons "type" (.jstr "string") .nil
  else if subty = .jstr "number" then .cons "type" (.jstr "number") .nil
  else if subty = .jstr "date" then
    .cons "type" (.jstr "string") (.cons "format" (.jstr "date-time") .nil)
  else if subty = .jstr "boolean" then .cons "type" (.jstr "boolean") .nil
  else .cons "type" (.jstr "string") .nil

/-- The validations loop of `convertVineJSProperty`: dereference
`refs[validation.ruleFnId]`, map `choices` onto `enum` and `min`/`max`
onto `minLength`/`minimum` / `maxLength`/`maximum` by subtype. -/
def valFold (subty refs : JVal) : JFields → JList → JFields
  | acc, .nil => acc
  | acc, .cons v t =>
    let refData := refs.getF (v.getF "ruleFnId").keyStr
    let acc :=
      if refData.truthy && (refData.getF "options").truthy then
        let opts := refData.getF "options"
        let acc :=
          if (opts.getF "choices").truthy && (opts.getF "choices").isArr then
            acc.set "enum" (opts.getF "choices")
          else acc
        let acc :=
          if !(opts.getF "min" = .undef) then
            (if subty = .jstr "string" then acc.set "minLength" (opts.getF "min")
             else if subty = .jstr "number" then acc.set "minimum" (opts.getF "min")
             else acc)
          else acc
        if !(opts.getF "max" = .undef) then
          (if subty = .jstr "string" then acc.set "maxLength" (opts.getF "max")
           else if subty = .jstr "number" then acc.set "maximum" (opts.getF "max")
           else acc)
        else acc
      else acc
    valFold subty refs acc t

/-- The literal (non-array, non-object) tail of `convertVineJSProperty`. -/
def vineLiteral (prop refs : JVal) : JVal :=
  let base := vineSubtypeFields (prop.getF "subtype")
  let base :=
    if (prop.getF "allowNull").truthy then base.set "nullable" (.jbool true) else base
  let base :=
    if (prop.getF "validations").isArr then
      valFold (prop.getF "subtype") refs base (reqElems (prop.getF "validations"))
    else base
  .jobj base .nil

theorem sizeOf_JFields_get_le : ∀ (sf : JFields) (k : String),
    sizeOf (sf.get k) ≤ sizeOf sf
  | .nil, _ => by simp [JFields.get]
  | .cons k' v t, k => by
    by_cases hk : k' = k
    · simp only [JFields.get, if_pos hk]
      simp
      omega
    · simp only [JFields.get, if_neg hk]
      have := sizeOf_JFields_get_le t k
      simp
      omega

theorem sizeOf_JList_getIdx_le : ∀ (es : JList) (i : Nat),
    sizeOf (es.getIdx i) ≤ sizeOf es
  | .nil, _ => by simp [JList.getIdx]
  | .cons h t, 0 => by simp [JList.getIdx]; omega
  | .cons h t, i + 1 => by
    have := sizeOf_JList_getIdx_le t i
    simp [JList.getIdx]
    omega

theorem sizeOf_getF_le (v : JVal) (k : String) : sizeOf (v.getF k) ≤ sizeOf v := by
  cases v
  case jarr es =>
    simp only [JVal.getF]
    cases h : k.toNat? with
    | none => simp <;> omega
    | some i =>
      by_cases hi : toString i = k
      · simp only [if_pos hi]
        have := sizeOf_JList_getIdx_le es i
        simp <;> omega
      · simp only [if_neg hi]
        simp <;> omega
  case jobj sf yf =>
    simp only [JVal.getF]
    have := sizeOf_JFields_get_le sf k
    simp <;> omega
  all_goals simp [JVal.getF]
  all_goals omega

mutual

/-- `convertVineJSProperty` — arrays recurse into `each`, objects loop
over their property-entry array, anything else maps through the subtype
switch plus the validations fold. -/
def convertVineJSProperty : JVal → JVal → JVal
  | prop@(.jobj sf _), refs =>
    if sf.get "type" = .jstr "array" && (sf.get "each").truthy then
      let items := convertVineJSProperty (sf.get "each") refs
      let base : JFields := .cons "type" (.jstr "array") (.cons "items" items .nil)
      let base :=
        if (sf.get "allowNull").truthy then base.set "nullable" (.jbool true) else base
      .jobj base .nil
    else
      match hp : sf.get "properties" with
      | .jarr es =>
        if sf.get "type" = .jstr "object" then
          let props := convertVinePropsFields refs es
          let req := vineReqList es
          let base : JFields :=
            .cons "type" (.jstr "object") (.cons "properties" (.jobj props .nil) .nil)
          let base :=
            match req with
            | .nil => base
            | r => JFields.append base (.cons "required" (.jarr r) .nil)
          let base := JFields.append base (.cons "additionalProperties" (.jbool false) .nil)
          let base :=
            if (sf.get "allowNull").truthy then base.set "nullable" (.jbool true) else base
          .jobj base .nil
        else vineLiteral prop refs
      | _ => vineLiteral prop refs
  | prop, refs => vineLiteral prop refs
termination_by prop refs => sizeOf prop
decreasing_by
  all_goals first
    | (have hsz := sizeOf_JFields_get_le sf "each"
       simp
       omega)
    | (have h1 : sizeOf (JVal.jarr es) ≤ sizeOf sf := hp ▸ sizeOf_JFields_get_le sf "properties"
       simp at h1 ⊢
       omega)

/-- The property loop: skip entries without a valid field name, convert
the rest in order. -/
def convertVinePropsFields (refs : JVal) : JList → JFields
  | .nil => .nil
  | .cons p t =>
    match vineFieldKey p with
    | some f => .cons f (convertVineJSProperty p refs) (convertVinePropsFields refs t)
    | none => convertVinePropsFields refs t
termination_by es => sizeOf es
decreasing_by
  all_goals (simp <;> omega)

end

/-- `convertVineJSToJsonSchema` — unwrap `{schema: {schema}, refs}` from
the VineJS `toJSON` output; convert a literal directly, an object via the
property loop (`additionalProperties` forced `false`, `required` appended
only when non-empty), and fall back on anything else. -/
def convertVineJSToJsonSchema (vineOutput : JVal) : JVal :=
  if !vineOutput.truthy || !vineOutput.isObjTy then
    mkFallback "Invalid VineJS output"
  else
    let schema := vineOutput.getF "schema"
    let refs := vineOutput.getF "refs"
    if !schema.truthy || !(schema.getF "schema").truthy then
      mkFallback "No schema found in VineJS output"
    else
      let vineSchema := schema.getF "schema"
      if vineSchema.getF "type" = .jstr "literal" then
        convertVineJSProperty vineSchema refs
      else
        match vineSchema.getF "properties" with
        | .jarr es =>
          if vineSchema.getF "type" = .jstr "object" then
            let props := convertVinePropsFields refs es
            let req := vineReqList es
            let base : JFields :=
              .cons "type" (.jstr "object")
                (.cons "properties" (.jobj props .nil)
                  (.cons "additionalProperties" (.jbool false) .nil))
            let base :=
              match req with
              | .nil => base
              | r => JFields.append base (.cons "required" (.jarr r) .nil)
            .jobj base .nil
          else mkFallback "Unsupported VineJS schema type"
        | _ => mkFallback "Unsupported VineJS schema type"

end OpenSwagger

namespace OpenSwagger

/-! ## Lemmas for claim C1 -/

/-- The `{schema: {schema: {type:'object', properties}}, refs}` wrapper
shape produced by VineJS `compile(...).toJSON()` for an object schema. -/
def mkVineOutput (es : JList) (refs : JVal) : JVal :=
  .jobj
    (.cons "schema"
      (.jobj
        (.cons "schema"
          (.jobj (.cons "type" (.jstr "object") (.cons "properties" (.jarr es) .nil)) .nil)
          .nil)
        .nil)
      (.cons "refs" refs .nil))
    .nil

theorem mem_vineNames_of_mem {p : JVal} {f : String} : ∀ {es : JList},
    p ∈ es.toList → vineFieldKey p = some f → f ∈ vineNames es := by
  intro es hp hk
  exact List.mem_filterMap.mpr ⟨p, hp, hk⟩

theorem mem_vineNames_of_mem_req {g : String} : ∀ (es : JList),
    JVal.jstr g ∈ (vineReqList es).toList → g ∈ vineNames es
  | .cons p t, hm => by
    unfold vineReqList at hm
    cases hk : vineFieldKey p with
    | some f =>
      rw [hk] at hm
      dsimp only at hm
      by_cases hc : (!(p.getF "isOptional").truthy && !(p.getF "allowNull").truthy) = true
      · rw [if_pos hc] at hm
        rcases (by simpa [JList.toList] using hm :
            JVal.jstr g = JVal.jstr f ∨ JVal.jstr g ∈ (vineReqList t).toList) with heq | hm'
        · have : g = f := by cases heq; rfl
          subst this
          exact mem_vineNames_of_mem (by simp [JList.toList]) hk
        · have := mem_vineNames_of_mem_req t hm'
          simp only [vineNames, JList.toList, List.filterMap_cons, hk]
          exact List.mem_cons_of_mem _ this
      · rw [if_neg hc] at hm
        have := mem_vineNames_of_mem_req t hm
        simp only [vineNames, JList.toList, List.filterMap_cons, hk]
        exact List.mem_cons_of_mem _ this
    | none =>
      rw [hk] at hm
      dsimp only at hm
      have := mem_vineNames_of_mem_req t hm
      simpa only [vineNames, JList.toList, List.filterMap_cons, hk] using this

theorem mem_vineReqList {p : JVal} {f : String} : ∀ (es : JList),
    p ∈ es.toList → vineFieldKey p = some f →
    (p.getF "isOptional").truthy = false → (p.getF "allowNull").truthy = false →
    JVal.jstr f ∈ (vineReqList es).toList
  | .cons q t, hp, hk, hopt, hnull => by
    unfold vineReqList
    rcases (by simpa [JList.toList] using hp : p = q ∨ p ∈ t.toList) with rfl | hp'
    · rw [hk]
      dsimp only
      rw [if_pos (by simp [hopt, hnull])]
      simp [JList.toList]
    · have ih := mem_vineReqList t hp' hk hopt hnull
      cases hq : vineFieldKey q with
      | some g =>
        dsimp only
        by_cases hc : (!(q.getF "isOptional").truthy && !(q.getF "allowNull").truthy) = true
        · rw [if_pos hc]
          simp [JList.toList, ih]
        · rw [if_neg hc]
          exact ih
      | none => exact ih

theorem notMem_vineReqList {p : JVal} {f : String} : ∀ (es : JList),
    (vineNames es).Nodup → p ∈ es.toList → vineFieldKey p = some f →
    (p.getF "allowNull").truthy = true →
    JVal.jstr f ∉ (vineReqList es).toList
  | .cons q t, hnd, hp, hk, hnull => by
    rcases (by simpa [JList.toList] using hp : p = q ∨ p ∈ t.toList) with rfl | hp'
    · -- the nullable entry itself contributes nothing; its name is not in the tail
      have hnames : f ∉ vineNames t := by
        simp only [vineNames, JList.toList, List.filterMap_cons, hk] at hnd
        exact (List.nodup_cons.mp hnd).1
      unfold vineReqList
      rw [hk]
      dsimp only
      rw [if_neg (by simp [hnull])]
      intro hm
      exact hnames (mem_vineNames_of_mem_req t hm)
    · have hndt : (vineNames t).Nodup := by
        simp only [vineNames, JList.toList, List.filterMap_cons] at hnd
        cases hq : vineFieldKey q with
        | some g => rw [hq] at hnd; exact (List.nodup_cons.mp hnd).2
        | none => rw [hq] at hnd; exact hnd
      have ih := notMem_vineReqList t hndt hp' hk hnull
      unfold vineReqList
      cases hq : vineFieldKey q with
      | some g =>
        dsimp only
        by_cases hc : (!(q.getF "isOptional").truthy && !(q.getF "allowNull").truthy) = true
        · rw [if_pos hc]
          intro hm
          rcases (by simpa [JList.toList] using hm :
              JVal.jstr f = JVal.jstr g ∨ JVal.jstr f ∈ (vineReqList t).toList) with heq | hm'
          · have hfg : f = g := by cases heq; rfl
            subst hfg
            have hmemt : f ∈ vineNames t := mem_vineNames_of_mem hp' hk
            simp only [vineNames, JList.toList, List.filterMap_cons, hq] at hnd
            exact (List.nodup_cons.mp hnd).1 hmemt
          · exact ih hm'
        · rw [if_neg hc]
          exact ih
      | none => exact ih

end OpenSwagger

namespace OpenSwagger

theorem vineConvert_required (es : JList) (refs : JVal) :
    reqElems ((convertVineJSToJsonSchema (mkVineOutput es refs)).getF "required")
      = vineReqList es := by
  cases h : vineReqList es with
  | nil =>
    simp [convertVineJSToJsonSchema, mkVineOutput, JVal.getF, JFields.get, JVal.truthy,
      JVal.isObjTy, h, reqElems, JFields.append]
  | cons a b =>
    simp [convertVineJSToJsonSchema, mkVineOutput, JVal.getF, JFields.get, JVal.truthy,
      JVal.isObjTy, h, reqElems, JFields.append]

theorem zodFix_required_eq (sf : JFields) (yf : JSyms) (R : JList)
    (hnd : sf.keys.Nodup) (hty : sf.get "type" = .jstr "object")
    (hpr : (sf.get "properties").truthy = true) (hreq : sf.get "required" = .jarr R) :
    reqElems ((fixNullableFieldsInSchema (.jobj sf yf)).getF "required")
      = zodReqFilter (sf.get "properties") R := by
  have hcond : ((sf.get "type" = JVal.jstr "object") && (sf.get "properties").truthy
      && (sf.get "required").isArr) = true := by
    simp [hty, hpr, hreq, JVal.isArr]
  show reqElems ((fixZodFields _ _ sf).get "required") = _
  rw [show (((sf.get "type" = JVal.jstr "object") && (sf.get "properties").truthy
      && (sf.get "required").isArr)) = true from hcond]
  rw [hreq, show reqElems (JVal.jarr R) = R from rfl]
  rw [fixZodFields_get_required true (zodReqFilter (sf.get "properties") R) sf hnd]
  rw [if_pos (has_of_get_present "required" sf (by simp [hreq]))]
  cases hf : zodReqFilter (sf.get "properties") R <;> simp [reqElems]

theorem tbFix_required_eq (sf : JFields) (yf : JSyms) (R : JList)
    (hnd : sf.keys.Nodup) (hty : sf.get "type" = .jstr "object")
    (hpr : (sf.get "properties").truthy = true) (hreq : sf.get "required" = .jarr R) :
    reqElems ((fixTypeBoxNullableFields (.jobj sf yf)).getF "required")
      = tbReqFilter (sf.get "properties") R := by
  have hcond : ((sf.get "type" = JVal.jstr "object") && (sf.get "properties").truthy
      && (sf.get "required").isArr) = true := by
    simp [hty, hpr, hreq, JVal.isArr]
  show reqElems ((fixTBFields _ _ sf).get "required") = _
  rw [show (((sf.get "type" = JVal.jstr "object") && (sf.get "properties").truthy
      && (sf.get "required").isArr)) = true from hcond]
  rw [hreq, show reqElems (JVal.jarr R) = R from rfl]
  rw [fixTBFields_get_required true (tbReqFilter (sf.get "properties") R) sf hnd]
  rw [if_pos (has_of_get_present "required" sf (by simp [hreq]))]
  cases hf : tbReqFilter (sf.get "properties") R <;> simp [reqElems]

/-! ## Claim C1 — nullability-exclusion invariant -/

/-- C1: in all three DSL converters a field marked nullable but not
optional never lands in the output node's `required` list, and a field
that is neither optional nor nullable always does.  VineJS
(`convertVineJSToJsonSchema`): a property entry with a valid (unique)
field name and truthy `allowNull` is excluded, one with falsy
`isOptional` and falsy `allowNull` is included.  Zod
(`fixNullableFieldsInSchema`): on an object node a field whose property
carries `nullable: true` is filtered out of `required`, a field of the
input `required` without it is kept.  TypeBox
(`fixTypeBoxNullableFields`): the same with nullability read from an
`anyOf` branch of `type: 'null'`. -/
theorem claim_C1_nullable_required_exclusion :
    (∀ (es : JList) (refs p : JVal) (f : String),
      p ∈ es.toList → vineFieldKey p = some f →
      (((vineNames es).Nodup → (p.getF "allowNull").truthy = true →
        JVal.jstr f ∉
          (reqElems ((convertVineJSToJsonSchema (mkVineOutput es refs)).getF
            "required")).toList) ∧
       ((p.getF "isOptional").truthy = false → (p.getF "allowNull").truthy = false →
        JVal.jstr f ∈
          (reqElems ((convertVineJSToJsonSchema (mkVineOutput es refs)).getF
            "required")).toList))) ∧
    (∀ (sf : JFields) (yf : JSyms) (R : JList) (f : String),
      sf.keys.Nodup → sf.get "type" = .jstr "object" →
      (sf.get "properties").truthy = true → sf.get "required" = .jarr R →
      ((((sf.get "properties").getF f).truthy = true →
        ((sf.get "properties").getF f).getF "nullable" = .jbool true →
        JVal.jstr f ∉
          (reqElems ((fixNullableFieldsInSchema (.jobj sf yf)).getF "required")).toList) ∧
       (JVal.jstr f ∈ R.toList →
        ¬(((sf.get "properties").getF f).getF "nullable" = .jbool true) →
        JVal.jstr f ∈
          (reqElems ((fixNullableFieldsInSchema (.jobj sf yf)).getF "required")).toList))) ∧
    (∀ (sf : JFields) (yf : JSyms) (R : JList) (f : String),
      sf.keys.Nodup → sf.get "type" = .jstr "object" →
      (sf.get "properties").truthy = true → sf.get "required" = .jarr R →
      ((((sf.get "properties").getF f).truthy = true →
        ((((sf.get "properties").getF f).getF "anyOf").truthy
          && (((sf.get "properties").getF f).getF "anyOf").isArr
          && hasNullItem (reqElems (((sf.get "properties").getF f).getF "anyOf"))) = true →
        JVal.jstr f ∉
          (reqElems ((fixTypeBoxNullableFields (.jobj sf yf)).getF "required")).toList) ∧
       (JVal.jstr f ∈ R.toList →
        ((((sf.get "properties").getF f).getF "anyOf").truthy
          && (((sf.get "properties").getF f).getF "anyOf").isArr
          && hasNullItem (reqElems (((sf.get "properties").getF f).getF "anyOf"))) = false →
        JVal.jstr f ∈
          (reqElems ((fixTypeBoxNullableFields (.jobj sf yf)).getF "required")).toList))) := by
  refine ⟨fun es refs p f hp hk => ⟨fun hnd hnull => ?_, fun hopt hnull => ?_⟩,
    fun sf yf R f hnd hty hpr hreq => ⟨fun htr hnul => ?_, fun hmem hnul => ?_⟩,
    fun sf yf R f hnd hty hpr hreq => ⟨fun htr hnul => ?_, fun hmem hnul => ?_⟩⟩
  · rw [vineConvert_required]
    exact notMem_vineReqList es hnd hp hk hnull
  · rw [vineConvert_required]
    exact mem_vineReqList es hp hk hopt hnull
  · rw [zodFix_required_eq sf yf R hnd hty hpr hreq]
    intro hm
    have := (List.mem_filter.mp ((zodReqFilter_toList (sf.get "properties") R) ▸ hm)).2
    unfold zodKeep at this
    rw [show JVal.keyStr (.jstr f) = f from rfl] at this
    rw [if_neg (by simp [htr]), if_pos hnul] at this
    cases this
  · rw [zodFix_required_eq sf yf R hnd hty hpr hreq]
    rw [zodReqFilter_toList]
    refine List.mem_filter.mpr ⟨hmem, ?_⟩
    unfold zodKeep
    rw [show JVal.keyStr (.jstr f) = f from rfl]
    by_cases htr : (((sf.get "properties").getF f).truthy : Bool)
    · rw [if_neg (by simp [htr]), if_neg hnul]
    · rw [if_pos (by simp [Bool.eq_false_iff.mpr htr])]
  · rw [tbFix_required_eq sf yf R hnd hty hpr hreq]
    intro hm
    have := (List.mem_filter.mp ((tbReqFilter_toList (sf.get "properties") R) ▸ hm)).2
    unfold tbKeep at this
    rw [show JVal.keyStr (.jstr f) = f from rfl] at this
    rw [if_neg (by simp [htr]), if_pos hnul] at this
    cases this
  · rw [tbFix_required_eq sf yf R hnd hty hpr hreq]
    rw [tbReqFilter_toList]
    refine List.mem_filter.mpr ⟨hmem, ?_⟩
    unfold tbKeep
    rw [show JVal.keyStr (.jstr f) = f from rfl]
    by_cases htr : ((((sf.get "properties").getF f)).truthy : Bool)
    · rw [if_neg (by simp [htr]), if_neg (by simp [hnul])]
    · rw [if_pos (by simp [Bool.eq_false_iff.mpr htr])]

end OpenSwagger

namespace OpenSwagger

def vinePropNickname : JVal :=
  .jobj (.cons "fieldName" (.jstr "nickname") (.cons "allowNull" (.jbool true) .nil)) .nil

def vinePropName : JVal :=
  .jobj (.cons "fieldName" (.jstr "name") .nil) .nil

def vineEsW : JList := .cons vinePropNickname (.cons vinePropName .nil)

def vineRefsW : JVal := .jobj .nil .nil

/-- C1 witness: a nullable-not-optional field stays out of `required` and
a plain field stays in, for each of the three converters at concrete
inputs. -/
theorem claim_C1_nullable_required_exclusion_witness :
    (JVal.jstr "nickname" ∉
      (reqElems ((convertVineJSToJsonSchema (mkVineOutput vineEsW vineRefsW)).getF
        "required")).toList) ∧
    (JVal.jstr "name" ∈
      (reqElems ((convertVineJSToJsonSchema (mkVineOutput vineEsW vineRefsW)).getF
        "required")).toList) ∧
    (JVal.jstr "a" ∉
      (reqElems ((fixNullableFieldsInSchema (.jobj sfZodMixed .nil)).getF "required")).toList) ∧
    (JVal.jstr "b" ∈
      (reqElems ((fixNullableFieldsInSchema (.jobj sfZodMixed .nil)).getF "required")).toList) ∧
    (JVal.jstr "a" ∉
      (reqElems ((fixTypeBoxNullableFields (.jobj sfTBMixed .nil)).getF "required")).toList) ∧
    (JVal.jstr "b" ∈
      (reqElems ((fixTypeBoxNullableFields (.jobj sfTBMixed .nil)).getF "required")).toList) := by
  refine ⟨?_, ?_, ?_, ?_, ?_, ?_⟩
  · exact (claim_C1_nullable_required_exclusion.1 vineEsW vineRefsW vinePropNickname
      "nickname" (by decide) (by decide)).1 (by decide) (by decide)
  · exact (claim_C1_nullable_required_exclusion.1 vineEsW vineRefsW vinePropName
      "name" (by decide) (by decide)).2 (by decide) (by decide)
  · exact (claim_C1_nullable_required_exclusion.2.1 sfZodMixed .nil
      (.cons (.jstr "a") (.cons (.jstr "b") .nil)) "a"
      (by decide) rfl rfl rfl).1 (by decide) (by decide)
  · exact (claim_C1_nullable_required_exclusion.2.1 sfZodMixed .nil
      (.cons (.jstr "a") (.cons (.jstr "b") .nil)) "b"
      (by decide) rfl rfl rfl).2 (by decide) (by decide)
  · exact (claim_C1_nullable_required_exclusion.2.2 sfTBMixed .nil
      (.cons (.jstr "a") (.cons (.jstr "b") .nil)) "a"
      (by decide) rfl rfl rfl).1 (by decide) (by decide)
  · exact (claim_C1_nullable_required_exclusion.2.2 sfTBMixed .nil
      (.cons (.jstr "a") (.cons (.jstr "b") .nil)) "b"
      (by decide) rfl rfl rfl).2 (by decide) (by decide)

end OpenSwagger

namespace OpenSwagger

/-! ## schema_utils.ts — file extraction, merging and the converter bodies

The external `zod` / `@vinejs/vine` libraries are oracles: `Except.error`
models a `throw` (caught by the converters' `try`/`catch`), and a failed
dynamic `import` is an `Except.error` import value. -/

/-- The callable surface of an imported `zod` module: `z.object` and the
optional `z.toJSONSchema` (absent on Zod < 4). -/
structure ZodLib where
  objectFn : JVal → Except Unit JVal
  toJSONSchema : Option (JVal → Except Unit JVal)

/-- The callable surface of an imported `@vinejs/vine` module plus the
dynamic members the extractor invokes (`schema.getProperties()`,
`vine.object`, `vine.compile`, `compiled.toJSON()`). -/
structure VineLib where
  getPropsOf : JVal → Except Unit JVal
  objectFn : JVal → Except Unit JVal
  compile : JVal → Except Unit JVal
  toJSONOf : JVal → Except Unit JVal

def zodOldFallback : JVal :=
  mkFallback "Zod schema (requires Zod v4+ for automatic conversion)"

def zodCatchFallback : JVal :=
  mkFallback "Zod schema (Zod v4+ required for conversion)"

def vineCatchFallback : JVal :=
  mkFallback "VineJS schema (conversion failed)"

/-- The `fileSchemas.set(key, toOpenAPIFileSchema(value))` loop of
`extractZodFileSchemas`. -/
def collectZodFiles : List (String × JVal) → JFields → List (String × JVal)
  | acc, .nil => acc
  | acc, .cons k v t =>
    collectZodFiles (if isFileSchema v then mapSet acc k (toOpenAPIFileSchema v) else acc) t

/-- The `newShape` loop: shape entries that are not file schemas. -/
def nonFileShape : JFields → JFields
  | .nil => .nil
  | .cons k v t =>
    if isFileSchema v then nonFileShape t else .cons k v (nonFileShape t)

/-- `extractZodFileSchemas` — pull file markers out of `zodSchema.shape`
and rebuild the shape through `z.object` (whose throw propagates to the
converter's catch). -/
def extractZodFileSchemas (z : ZodLib) (zodSchema : JVal) :
    Except Unit (JVal × List (String × JVal)) :=
  if !zodSchema.truthy || !zodSchema.isObjTy || !(zodSchema.getF "shape").truthy then
    .ok (zodSchema, [])
  else
    let fileSchemas := collectZodFiles [] (entriesF (zodSchema.getF "shape"))
    if fileSchemas ≠ [] then
      match z.objectFn (.jobj (nonFileShape (entriesF (zodSchema.getF "shape"))) .nil) with
      | .ok ns => .ok (ns, fileSchemas)
      | .error e => .error e
    else .ok (zodSchema, [])

/-- `result.properties[k] = v` — assignment on whatever the `properties`
value is (a no-op on primitives; property creation on arrays is not
representable and modelled as a no-op, an unreachable corner). -/
def setKV (v : JVal) (k : String) (val : JVal) : JVal :=
  match v with
  | .jobj sf yf => .jobj (sf.set k val) yf
  | other => other

def assignFileSchemas : JVal → List (String × JVal) → JVal
  | props, [] => props
  | props, (k, fs) :: t => assignFileSchemas (setKV props k fs) t

/-- `mergeFileSchemas` — no-op on an empty map, else spread the schema,
default `properties` to `{}` when falsy, and assign each extracted file
schema back under its field name. -/
def mergeFileSchemas (jsonSchema : JVal) (fileSchemas : List (String × JVal)) : JVal :=
  match fileSchemas with
  | [] => jsonSchema
  | _ =>
    let sfyf := spreadF jsonSchema
    let props :=
      if (sfyf.1.get "properties").truthy then sfyf.1.get "properties" else .jobj .nil .nil
    .jobj (sfyf.1.set "properties" (assignFileSchemas props fileSchemas)) sfyf.2

/-- The `try` body of `zodToJsonSchema`: import, require `z.toJSONSchema`
(else the old-Zod fallback is returned *normally*), extract file markers,
emit, clean, fix, merge. -/
def zodBody (imp : Except Unit ZodLib) (zodSchema : JVal) : Except Unit JVal := do
  let z ← imp
  match z.toJSONSchema with
  | some emit => do
    let ex ← extractZodFileSchemas z zodSchema
    let rawSchema ← emit ex.1
    let cleanedSchema := cleanZodJsonSchema rawSchema
    let fixedSchema := fixNullableFieldsInSchema cleanedSchema
    pure (mergeFileSchemas fixedSchema ex.2)
  | none => pure zodOldFallback

/-- `zodToJsonSchema` — the body's throw is caught and replaced by the
fallback node. -/
def zodToJsonSchema (imp : Except Unit ZodLib) (zodSchema : JVal) : JVal :=
  match zodBody imp zodSchema with
  | .ok r => r
  | .error _ => zodCatchFallback

/-- The `fileSchemas.set(...)` loop of `extractFileSchemas` (VineJS). -/
def collectVineFiles : List (String × JVal) → JFields → List (String × JVal)
  | acc, .nil => acc
  | acc, .cons k v t =>
    collectVineFiles
      (if isVineFileSchema v then mapSet acc k (toOpenAPIFileSchema v) else acc) t

def nonVineFileProps : JFields → JFields
  | .nil => .nil
  | .cons k v t =>
    if isVineFileSchema v then nonVineFileProps t else .cons k v (nonVineFileProps t)

/-- `extractFileSchemas` (VineJS) — the whole access to `getProperties` /
`vine.object` sits in an internal `try` whose catch falls through to
returning the original schema together with the map collected so far. -/
def extractFileSchemas (vine : VineLib) (vineSchema : JVal) :
    JVal × List (String × JVal) :=
  if !vineSchema.truthy || !vineSchema.isObjTy then (vineSchema, [])
  else if (vineSchema.getF "getProperties").isFn then
    match vine.getPropsOf vineSchema with
    | .error _ => (vineSchema, [])
    | .ok properties =>
      let fileSchemas := collectVineFiles [] (entriesF properties)
      if fileSchemas ≠ [] then
        match vine.objectFn (.jobj (nonVineFileProps (entriesF properties)) .nil) with
        | .ok newSchema => (newSchema, fileSchemas)
        | .error _ => (vineSchema, fileSchemas)
      else (vineSchema, fileSchemas)
  else (vineSchema, [])

/-- The `try` body of `vineToJsonSchema`: import, extract file markers,
compile, `toJSON`, convert, merge. -/
def vineBody (imp : Except Unit VineLib) (vineSchema : JVal) : Except Unit JVal := do
  let vine ← imp
  let ex := extractFileSchemas vine vineSchema
  let compiledValidator ← vine.compile ex.1
  let vineJsonOutput ← vine.toJSONOf compiledValidator
  let jsonSchema := convertVineJSToJsonSchema vineJsonOutput
  pure (mergeFileSchemas jsonSchema ex.2)

/-- `vineToJsonSchema` — the body's throw is caught and replaced by the
fallback node. -/
def vineToJsonSchema (imp : Except Unit VineLib) (vineSchema : JVal) : JVal :=
  match vineBody imp vineSchema with
  | .ok r => r
  | .error _ => vineCatchFallback

/-! ## Claim C6 — converters never throw, fallback on failure -/

/-- C6: no converter propagates an error.  If the `zod` import throws, if
`z.toJSONSchema` is missing (old Zod), or if anything in the Zod body
throws, `zodToJsonSchema` returns a fallback node; same for
`vineToJsonSchema` (import, `compile`, or `toJSON` throwing);
`typeBoxToJsonSchema` is a total pure function (its catch is
unreachable).  Every fallback node has `type: 'object'` and a non-empty
`description`. -/
theorem claim_C6_fallback_on_failure :
    (∀ s : JVal, zodToJsonSchema (.error ()) s = zodCatchFallback) ∧
    (∀ (zl : ZodLib) (s : JVal), zl.toJSONSchema = none →
      zodToJsonSchema (.ok zl) s = zodOldFallback) ∧
    (∀ (imp : Except Unit ZodLib) (s : JVal), zodBody imp s = .error () →
      zodToJsonSchema imp s = zodCatchFallback) ∧
    (∀ (zl : ZodLib) (s cs : JVal) (m : List (String × JVal))
      (emit : JVal → Except Unit JVal),
      zl.toJSONSchema = some emit → extractZodFileSchemas zl s = .ok (cs, m) →
      emit cs = .error () → zodToJsonSchema (.ok zl) s = zodCatchFallback) ∧
    (∀ s : JVal, vineToJsonSchema (.error ()) s = vineCatchFallback) ∧
    (∀ (imp : Except Unit VineLib) (s : JVal), vineBody imp s = .error () →
      vineToJsonSchema imp s = vineCatchFallback) ∧
    (∀ (vl : VineLib) (s : JVal),
      vl.compile (extractFileSchemas vl s).1 = .error () →
      vineToJsonSchema (.ok vl) s = vineCatchFallback) ∧
    (∀ s : JVal,
      typeBoxToJsonSchema s = fixTypeBoxNullableFields (cleanTypeBoxFileSchemas s)) ∧
    (zodCatchFallback.getF "type" = .jstr "object"
      ∧ (zodCatchFallback.getF "description").truthy = true) ∧
    (zodOldFallback.getF "type" = .jstr "object"
      ∧ (zodOldFallback.getF "description").truthy = true) ∧
    (vineCatchFallback.getF "type" = .jstr "object"
      ∧ (vineCatchFallback.getF "description").truthy = true) := by
  refine ⟨fun s => rfl, fun zl s h => ?_, fun imp s h => ?_, fun zl s cs m emit h1 h2 h3 => ?_,
    fun s => rfl, fun imp s h => ?_, fun vl s h => ?_, fun s => rfl,
    ⟨rfl, rfl⟩, ⟨rfl, rfl⟩, ⟨rfl, rfl⟩⟩
  · simp [zodToJsonSchema, zodBody, h, Bind.bind, Except.bind, Pure.pure, Except.pure]
  · simp [zodToJsonSchema, h]
  · simp [zodToJsonSchema, zodBody, h1, h2, h3, Bind.bind, Except.bind, Functor.map,
      Except.map, Pure.pure, Except.pure]
  · simp [vineToJsonSchema, h]
  · simp [vineToJsonSchema, vineBody, h, Bind.bind, Except.bind, Functor.map, Except.map,
      Pure.pure, Except.pure]

def zlibNone : ZodLib := { objectFn := fun v => .ok v, toJSONSchema := none }

def zlibThrow : ZodLib :=
  { objectFn := fun v => .ok v, toJSONSchema := some fun _ => .error () }

def vlibThrowCompile : VineLib :=
  { getPropsOf := fun _ => .error (), objectFn := fun v => .ok v,
    compile := fun _ => .error (), toJSONOf := fun v => .ok v }

/-- C6 witness: concrete failing imports/emitters all land on the
fallback nodes. -/
theorem claim_C6_fallback_on_failure_witness :
    zodToJsonSchema (.error ()) (.jobj .nil .nil) = zodCatchFallback ∧
    zodToJsonSchema (.ok zlibNone) (.jobj .nil .nil) = zodOldFallback ∧
    zodToJsonSchema (.ok zlibThrow) (.jobj .nil .nil) = zodCatchFallback ∧
    vineToJsonSchema (.error ()) (.jobj .nil .nil) = vineCatchFallback ∧
    vineToJsonSchema (.ok vlibThrowCompile) (.jobj .nil .nil) = vineCatchFallback := by
  refine ⟨claim_C6_fallback_on_failure.1 (.jobj .nil .nil), ?_, ?_, ?_, ?_⟩
  · exact claim_C6_fallback_on_failure.2.1 zlibNone (.jobj .nil .nil) rfl
  · exact claim_C6_fallback_on_failure.2.2.2.1 zlibThrow (.jobj .nil .nil) (.jobj .nil .nil)
      [] (fun _ => .error ()) rfl rfl rfl
  · exact claim_C6_fallback_on_failure.2.2.2.2.1 (.jobj .nil .nil)
  · exact claim_C6_fallback_on_failure.2.2.2.2.2.2.1 vlibThrowCompile (.jobj .nil .nil) rfl

end OpenSwagger

namespace OpenSwagger

/-! ## schema_utils.ts — request-body helpers -/

mutual

/-- `processSchemaForFiles` — convert a file marker node, else rebuild
`properties` (when a truthy object) with processed values, else process
`items` (when truthy), else pass through. -/
def processSchemaForFiles : JVal → JVal
  | v@(.jobj sf yf) =>
    if isFileSchema v then toOpenAPIFileSchema v
    else if (sf.get "properties").truthy && (sf.get "properties").isObjTy then
      .jobj (procPropsWalk sf) yf
    else if (sf.get "items").truthy then
      .jobj (procItemsWalk sf) yf
    else v
  | v => v

def procPropsWalk : JFields → JFields
  | .nil => .nil
  | .cons k v t =>
    if k = "properties" then .cons k (procPropsVal v) (procPropsWalk t)
    else .cons k v (procPropsWalk t)

/-- Fresh object of processed property entries
(`processedProperties[key] = processSchemaForFiles(value)`). -/
def procPropsVal : JVal → JVal
  | .jobj sfP _ => .jobj (procMapF sfP) .nil
  | .jarr es => .jobj (procIdx 0 es) .nil
  | v => v

def procMapF : JFields → JFields
  | .nil => .nil
  | .cons k v t => .cons k (processSchemaForFiles v) (procMapF t)

def procIdx (start : Nat) : JList → JFields
  | .nil => .nil
  | .cons h t => .cons (toString start) (processSchemaForFiles h) (procIdx (start + 1) t)

def procItemsWalk : JFields → JFields
  | .nil => .nil
  | .cons k v t =>
    if k = "items" then .cons k (processSchemaForFiles v) (procItemsWalk t)
    else .cons k v (procItemsWalk t)

end

mutual

/-- `schemaContainsFiles` — the node is a file marker, a binary string,
an array of binary strings, or (recursively) has a property that is. -/
def schemaContainsFiles : JVal → Bool
  | v@(.jobj sf _) =>
    (v.getSym fileSym = .jbool true) ||
    (sf.get "type" = .jstr "string" && sf.get "format" = .jstr "binary") ||
    (sf.get "type" = .jstr "array" && (sf.get "items").getF "type" = .jstr "string"
      && (sf.get "items").getF "format" = .jstr "binary") ||
    containsPropsWalk sf
  | _ => false

def containsPropsWalk : JFields → Bool
  | .nil => false
  | .cons k v t =>
    if k = "properties" then v.truthy && v.isObjTy && valuesContain v
    else containsPropsWalk t

def valuesContain : JVal → Bool
  | .jobj sfP _ => anyFieldContains sfP
  | .jarr es => anyElemContains es
  | _ => false

def anyFieldContains : JFields → Bool
  | .nil => false
  | .cons _ v t => schemaContainsFiles v || anyFieldContains t

def anyElemContains : JList → Bool
  | .nil => false
  | .cons h t => schemaContainsFiles h || anyElemContains t

end

/-- `'typebox' | 'zod' | 'vinejs'`. -/
inductive SchemaValidator where
  | zod : SchemaValidator
  | typebox : SchemaValidator
  | vinejs : SchemaValidator
deriving DecidableEq

/-- The oracle bundle for the two dynamically imported validator
libraries. -/
structure ConvOracles where
  zod : Except Unit ZodLib
  vine : Except Unit VineLib

/-- `convertToJsonSchema` — dispatch on the explicitly given validator;
without one the schema passes through unchanged (the unknown-validator
fallthrough of the source is unreachable, the TS type admits only the
three values, and both returns of the no-validator tail yield the schema
itself). -/
def convertToJsonSchema (oc : ConvOracles) (schema : JVal)
    (validator : Option SchemaValidator) : JVal :=
  if !schema.truthy then .undef
  else
    match validator with
    | some .zod => zodToJsonSchema oc.zod schema
    | some .typebox => typeBoxToJsonSchema schema
    | some .vinejs => vineToJsonSchema oc.vine schema
    | none => schema

/-- `'application/json' | 'multipart/form-data' |
'application/x-www-form-urlencoded'` (json is the declared default). -/
inductive RequestBodyContentType where
  | json : RequestBodyContentType
  | multipart : RequestBodyContentType
  | urlencoded : RequestBodyContentType
deriving DecidableEq

/-- `{content: {<ct>: {schema}}}`. -/
def mkContentEnvelope1 (ct : String) (s : JVal) : JVal :=
  .jobj (.cons "content" (.jobj (.cons ct (.jobj (.cons "schema" s .nil) .nil) .nil) .nil) .nil)
    .nil

/-- The default dual envelope
`{content: {application/json: {schema}, application/x-www-form-urlencoded: {schema}}}`. -/
def mkContentEnvelope2 (s : JVal) : JVal :=
  .jobj
    (.cons "content"
      (.jobj
        (.cons "application/json" (.jobj (.cons "schema" s .nil) .nil)
          (.cons "application/x-www-form-urlencoded" (.jobj (.cons "schema" s .nil) .nil)
            .nil))
        .nil)
      .nil)
    .nil

/-- `createRequestBodySchema` — convert, process file helpers, then pick
the envelope: an explicit multipart or urlencoded content type wins; the
default json path auto-upgrades to multipart-only when the processed
schema contains files, else emits the json + form-urlencoded dual
envelope. -/
def createRequestBodySchema (oc : ConvOracles) (schema : JVal)
    (validator : Option SchemaValidator) (contentType : RequestBodyContentType) : JVal :=
  if !schema.truthy then .undef
  else
    let jsonSchema := convertToJsonSchema oc schema validator
    let processedSchema := processSchemaForFiles jsonSchema
    match contentType with
    | .multipart => mkContentEnvelope1 "multipart/form-data" processedSchema
    | .urlencoded => mkContentEnvelope1 "application/x-www-form-urlencoded" processedSchema
    | .json =>
      if schemaContainsFiles processedSchema then
        mkContentEnvelope1 "multipart/form-data" processedSchema
      else mkContentEnvelope2 processedSchema

/-- The keys of the result's `content` object. -/
def contentKeys (r : JVal) : List String :=
  match r.getF "content" with
  | .jobj sf _ => sf.keys
  | _ => []

/-! ## Claim C8 — request-body content-type selection -/

/-- C8: for a truthy request-body schema, the envelope's `content` keys
are exactly `multipart/form-data` when that content type is requested, or
`application/x-www-form-urlencoded` when that one is; on the default json
path they are exactly `multipart/form-data` when the processed schema
recursively contains a file node, else exactly `application/json` and
`application/x-www-form-urlencoded`. -/
theorem claim_C8_content_type_selection :
    ∀ (oc : ConvOracles) (schema : JVal) (validator : Option SchemaValidator),
      schema.truthy = true →
      contentKeys (createRequestBodySchema oc schema validator .multipart)
        = ["multipart/form-data"] ∧
      contentKeys (createRequestBodySchema oc schema validator .urlencoded)
        = ["application/x-www-form-urlencoded"] ∧
      (schemaContainsFiles (processSchemaForFiles (convertToJsonSchema oc schema validator))
          = true →
        contentKeys (createRequestBodySchema oc schema validator .json)
          = ["multipart/form-data"]) ∧
      (schemaContainsFiles (processSchemaForFiles (convertToJsonSchema oc schema validator))
          = false →
        contentKeys (createRequestBodySchema oc schema validator .json)
          = ["application/json", "application/x-www-form-urlencoded"]) := by
  intro oc schema validator htr
  refine ⟨?_, ?_, fun hf => ?_, fun hf => ?_⟩ <;>
    first
      | simp [createRequestBodySchema, htr, hf, contentKeys, mkContentEnvelope1,
          mkContentEnvelope2, JVal.getF, JFields.get, JFields.keys]
      | simp [createRequestBodySchema, htr, contentKeys, mkContentEnvelope1,
          mkContentEnvelope2, JVal.getF, JFields.get, JFields.keys]

def binarySchemaW : JVal :=
  .jobj
    (.cons "type" (.jstr "object")
      (.cons "properties"
        (.jobj
          (.cons "upload"
            (.jobj (.cons "type" (.jstr "string") (.cons "format" (.jstr "binary") .nil)) .nil)
            .nil)
          .nil)
        .nil))
    .nil

def plainSchemaW : JVal :=
  .jobj (.cons "type" (.jstr "object") .nil) .nil

def noLibOracles : ConvOracles := { zod := .error (), vine := .error () }

/-- C8 witness: a schema with a binary-format property auto-upgrades the
default envelope to multipart only; a plain schema keeps the dual
envelope; explicit content types select their single key. -/
theorem claim_C8_content_type_selection_witness :
    contentKeys (createRequestBodySchema noLibOracles plainSchemaW none .multipart)
      = ["multipart/form-data"] ∧
    contentKeys (createRequestBodySchema noLibOracles plainSchemaW none .urlencoded)
      = ["application/x-www-form-urlencoded"] ∧
    contentKeys (createRequestBodySchema noLibOracles binarySchemaW none .json)
      = ["multipart/form-data"] ∧
    contentKeys (createRequestBodySchema noLibOracles plainSchemaW none .json)
      = ["application/json", "application/x-www-form-urlencoded"] := by
  refine ⟨(claim_C8_content_type_selection noLibOracles plainSchemaW none (by decide)).1,
    (claim_C8_content_type_selection noLibOracles plainSchemaW none (by decide)).2.1,
    (claim_C8_content_type_selection noLibOracles binarySchemaW none (by decide)).2.2.1
      (by decide),
    (claim_C8_content_type_selection noLibOracles plainSchemaW none (by decide)).2.2.2
      (by decide)⟩

end OpenSwagger

namespace OpenSwagger

/-! ## Claim C7 machinery — marker-freeness -/

mutual

/-- No object anywhere in the tree carries the internal file marker. -/
def mfV : JVal → Bool
  | .jobj sf yf => !(yf.has fileSym) && mfF sf && mfY yf
  | .jarr es => mfL es
  | _ => true

def mfF : JFields → Bool
  | .nil => true
  | .cons _ v t => mfV v && mfF t

def mfY : JSyms → Bool
  | .nil => true
  | .cons _ v t => mfV v && mfY t

def mfL : JList → Bool
  | .nil => true
  | .cons h t => mfV h && mfL t

end

theorem mfF_get : ∀ (sf : JFields) (k : String), mfF sf = true → mfV (sf.get k) = true
  | .nil, _, _ => rfl
  | .cons k' v t, k, h => by
    simp only [mfF, Bool.and_eq_true] at h
    by_cases hk : k' = k
    · simpa [JFields.get, hk] using h.1
    · simpa [JFields.get, hk] using mfF_get t k h.2

theorem mfL_getIdx : ∀ (es : JList) (i : Nat), mfL es = true → mfV (es.getIdx i) = true
  | .nil, _, _ => rfl
  | .cons h t, 0, hm => by
    simp only [mfL, Bool.and_eq_true] at hm
    simpa [JList.getIdx] using hm.1
  | .cons h t, i + 1, hm => by
    simp only [mfL, Bool.and_eq_true] at hm
    simpa [JList.getIdx] using mfL_getIdx t i hm.2

theorem mf_getF (v : JVal) (k : String) (h : mfV v = true) : mfV (v.getF k) = true := by
  cases v with
  | jobj sf yf =>
    simp only [mfV, Bool.and_eq_true] at h
    exact mfF_get sf k h.1.2
  | jarr es =>
    simp only [JVal.getF]
    cases k.toNat? with
    | none => rfl
    | some i =>
      by_cases hi : toString i = k
      · simp only [if_pos hi]
        exact mfL_getIdx es i (by simpa [mfV] using h)
      · simp only [if_neg hi]
        rfl
  | undef => rfl
  | jnull => rfl
  | jbool b => rfl
  | jnum n => rfl
  | jstr s => rfl
  | jfn t => rfl

theorem mfF_set : ∀ (sf : JFields) (k : String) (x : JVal),
    mfF sf = true → mfV x = true → mfF (sf.set k x) = true
  | .nil, k, x, _, hx => by simp [JFields.set, mfF, hx]
  | .cons k' v t, k, x, h, hx => by
    simp only [mfF, Bool.and_eq_true] at h
    by_cases hk : k' = k
    · simp [JFields.set, hk, mfF, hx, h.2]
    · simp [JFields.set, hk, mfF, h.1, mfF_set t k x h.2 hx]

theorem mfF_idxFields : ∀ (es : JList) (i : Nat), mfL es = true → mfF (idxFields i es) = true
  | .nil, _, _ => rfl
  | .cons h t, i, hm => by
    simp only [mfL, Bool.and_eq_true] at hm
    simp [idxFields, mfF, hm.1, mfF_idxFields t (i + 1) hm.2]

theorem mfF_charFields : ∀ (l : List Char) (i : Nat), mfF (charFields i l) = true
  | [], _ => rfl
  | c :: t, i => by simp [charFields, mfF, mfV, mfF_charFields t (i + 1)]

theorem mf_entriesF (v : JVal) (h : mfV v = true) : mfF (entriesF v) = true := by
  cases v with
  | jobj sf yf => simpa [mfV, Bool.and_eq_true, entriesF] using
      (by simp only [mfV, Bool.and_eq_true] at h; exact h.1.2)
  | jarr es => exact mfF_idxFields es 0 (by simpa [mfV] using h)
  | jstr s => exact mfF_charFields s.data 0
  | undef => rfl
  | jnull => rfl
  | jbool b => rfl
  | jnum n => rfl
  | jfn t => rfl

theorem mfL_zodReqFilter (props : JVal) : ∀ (R : JList),
    mfL R = true → mfL (zodReqFilter props R) = true
  | .nil, _ => rfl
  | .cons h t, hm => by
    simp only [mfL, Bool.and_eq_true] at hm
    unfold zodReqFilter
    dsimp only
    split_ifs <;> simp [mfL, hm.1, mfL_zodReqFilter props t hm.2]

theorem mfL_tbReqFilter (props : JVal) : ∀ (R : JList),
    mfL R = true → mfL (tbReqFilter props R) = true
  | .nil, _ => rfl
  | .cons h t, hm => by
    simp only [mfL, Bool.and_eq_true] at hm
    unfold tbReqFilter
    dsimp only
    split_ifs <;> simp [mfL, hm.1, mfL_tbReqFilter props t hm.2]

theorem mfL_reqElems (v : JVal) (h : mfV v = true) : mfL (reqElems v) = true := by
  cases v <;> simp_all [reqElems, mfV, mfL]

end OpenSwagger

namespace OpenSwagger

/-! ## Claim C7 machinery — helper file nodes -/

/-- `v` is a node produced by one of the four file helper factories with
options `o`. -/
def HelperFileAt (v : JVal) (o : FileOptions) : Prop :=
  v = openapiFile o ∨ v = vineFile o ∨ v = typeboxFile o ∨ v = zodFile o

/-- `v` is a node produced by a file helper factory. -/
def HelperFile (v : JVal) : Prop := ∃ o, HelperFileAt v o

theorem filterFileFields_base (o : FileOptions) :
    filterFileFields (createBaseFileSchema o) = createBaseFileSchema o := by
  rcases o with ⟨d, m, mi, ma⟩
  cases d <;> cases m <;> cases mi <;> cases ma <;>
    simp only [createBaseFileSchema, descTruthy] <;> split_ifs <;> rfl

theorem toOpenAPI_openapiFile (o : FileOptions) :
    toOpenAPIFileSchema (openapiFile o) = cleanFileNode o := by
  simp only [toOpenAPIFileSchema, openapiFile, entriesF, cleanFileNode,
    filterFileFields_base]

theorem toOpenAPI_vineFile (o : FileOptions) :
    toOpenAPIFileSchema (vineFile o) = cleanFileNode o := by
  rcases o with ⟨d, m, mi, ma⟩
  cases d <;> cases m <;> cases mi <;> cases ma <;>
    simp only [toOpenAPIFileSchema, vineFile, entriesF, cleanFileNode,
      createBaseFileSchema, descTruthy] <;> split_ifs <;> rfl

theorem toOpenAPI_typeboxFile (o : FileOptions) :
    toOpenAPIFileSchema (typeboxFile o) = cleanFileNode o := by
  simp only [toOpenAPIFileSchema, typeboxFile, entriesF, cleanFileNode,
    filterFileFields_base]

theorem toOpenAPI_zodFile (o : FileOptions) :
    toOpenAPIFileSchema (zodFile o) = cleanFileNode o := by
  rcases o with ⟨d, m, mi, ma⟩
  cases d <;> cases m <;> cases mi <;> cases ma <;>
    simp only [toOpenAPIFileSchema, zodFile, entriesF, cleanFileNode,
      createBaseFileSchema, descTruthy] <;> split_ifs <;> rfl

theorem toOpenAPI_helper (v : JVal) (o : FileOptions) (h : HelperFileAt v o) :
    toOpenAPIFileSchema v = cleanFileNode o := by
  rcases h with h | h | h | h <;> subst h
  · exact toOpenAPI_openapiFile o
  · exact toOpenAPI_vineFile o
  · exact toOpenAPI_typeboxFile o
  · exact toOpenAPI_zodFile o

theorem mf_cleanFileNode (o : FileOptions) : mfV (cleanFileNode o) = true := by
  rcases o with ⟨d, m, mi, ma⟩
  cases d <;> cases m <;> cases mi <;> cases ma <;>
    simp only [cleanFileNode, createBaseFileSchema, descTruthy] <;> split_ifs <;> rfl

theorem isFileSchema_helper (v : JVal) (o : FileOptions) (h : HelperFileAt v o) :
    isFileSchema v = true := by
  rcases h with h | h | h | h <;> subst h <;> rfl

theorem base_get_props (o : FileOptions) :
    (createBaseFileSchema o).get "properties" = .undef := by
  rcases o with ⟨d, m, mi, ma⟩
  cases d <;> cases m <;> cases mi <;> cases ma <;>
    simp only [createBaseFileSchema, descTruthy] <;> split_ifs <;> rfl

theorem helper_no_props (v : JVal) (o : FileOptions) (h : HelperFileAt v o) :
    v.getF "properties" = .undef := by
  rcases o with ⟨d, m, mi, ma⟩
  rcases h with h | h | h | h <;> subst h <;>
    cases d <;> cases m <;> cases mi <;> cases ma <;>
    simp only [openapiFile, vineFile, typeboxFile, zodFile, createBaseFileSchema,
      descTruthy, JVal.getF] <;> split_ifs <;> rfl

theorem fixTB_cleanFileNode (o : FileOptions) :
    fixTypeBoxNullableFields (cleanFileNode o) = cleanFileNode o := by
  rcases o with ⟨d, m, mi, ma⟩
  cases d <;> cases m <;> cases mi <;> cases ma <;>
    simp only [cleanFileNode, createBaseFileSchema, descTruthy] <;> split_ifs <;> rfl

end OpenSwagger

namespace OpenSwagger

/-! ## Claim C7 — goodness invariant for TypeBox inputs

`cleanTypeBoxFileSchemas` copies arrays outside `properties` verbatim and
keeps marked non-helper nodes' fields, so marker-freeness of its output
needs an invariant on the input: every marked node sitting directly under
a `properties` map is helper-made, and every subtree that the walk copies
verbatim is already marker-free.  The branch structure below mirrors the
walk exactly. -/

mutual

def tbGoodV : JVal → Prop
  | .jobj sf _ => tbGoodF sf
  | .jarr es => tbGoodElems es
  | _ => True

def tbGoodF : JFields → Prop
  | .nil => True
  | .cons k v t =>
    (if k = "properties" && v.isObjTy && !(v = .jnull) then tbGoodProps v
     else if v.isObjTy && !(v = .jnull) && !v.isArr then tbGoodV v
     else mfV v = true) ∧ tbGoodF t

def tbGoodProps : JVal → Prop
  | .jobj sfP _ => tbGoodPropF sfP
  | .jarr es => tbGoodPropElems es
  | _ => True

def tbGoodPropF : JFields → Prop
  | .nil => True
  | .cons _ v t =>
    (if isFileSchema v then HelperFile v
     else if v.isObjTy && !(v = .jnull) then tbGoodV v
     else True) ∧ tbGoodPropF t

def tbGoodPropElems : JList → Prop
  | .nil => True
  | .cons h t =>
    (if isFileSchema h then HelperFile h
     else if h.isObjTy && !(h = .jnull) then tbGoodV h
     else True) ∧ tbGoodPropElems t

def tbGoodElems : JList → Prop
  | .nil => True
  | .cons h t =>
    (if h.isObjTy && !(h = .jnull) && !h.isArr then tbGoodV h
     else mfV h = true) ∧ tbGoodElems t

end

theorem mf_toOpenAPI_helper (v : JVal) (h : HelperFile v) :
    mfV (toOpenAPIFileSchema v) = true := by
  rcases h with ⟨o, ho⟩
  rw [toOpenAPI_helper v o ho]
  exact mf_cleanFileNode o

mutual

theorem mf_cleanTB : ∀ (v : JVal), tbGoodV v → mfV (cleanTypeBoxFileSchemas v) = true
  | .jobj sf yf, h => by
    have hh : tbGoodF sf := by simpa [tbGoodV] using h
    simp [cleanTypeBoxFileSchemas, mfV, JSyms.has, mfY, mf_cleanTBFields sf hh]
  | .jarr es, h => by
    have hh : tbGoodElems es := by simpa [tbGoodV] using h
    simp [cleanTypeBoxFileSchemas, mfV, JSyms.has, mfY, mf_cleanTBIdx 0 es hh]
  | .undef, _ => rfl
  | .jnull, _ => rfl
  | .jbool b, _ => rfl
  | .jnum n, _ => rfl
  | .jstr s, _ => rfl
  | .jfn t, _ => rfl

theorem mf_cleanTBFields : ∀ (sf : JFields), tbGoodF sf → mfF (cleanTBFields sf) = true
  | .nil, _ => rfl
  | .cons k v t, h => by
    simp only [tbGoodF] at h
    have ih := mf_cleanTBFields t h.2
    unfold cleanTBFields
    dsimp only
    by_cases h1 : (k = "properties" && v.isObjTy && !(v = .jnull)) = true
    · rw [if_pos h1]
      have hv := mf_cleanTBProps v (by rw [if_pos h1] at h; exact h.1)
      simp [mfF, hv, ih]
    · rw [if_neg h1]
      by_cases h2 : (v.isObjTy && !(v = .jnull) && !v.isArr) = true
      · rw [if_pos h2]
        have hv := mf_cleanTB v (by rw [if_neg h1, if_pos h2] at h; exact h.1)
        simp [mfF, hv, ih]
      · rw [if_neg h2]
        have hv : mfV v = true := by rw [if_neg h1, if_neg h2] at h; exact h.1
        simp [mfF, hv, ih]

theorem mf_cleanTBProps : ∀ (v : JVal), tbGoodProps v → mfV (cleanTBProps v) = true
  | .jobj sfP yfP, h => by
    have hh : tbGoodPropF sfP := by simpa [tbGoodProps] using h
    simp [cleanTBProps, mfV, JSyms.has, mfY, mf_cleanTBPropF sfP hh]
  | .jarr es, h => by
    have hh : tbGoodPropElems es := by simpa [tbGoodProps] using h
    simp [cleanTBProps, mfV, JSyms.has, mfY, mf_cleanTBPropIdx 0 es hh]
  | .undef, _ => rfl
  | .jnull, _ => rfl
  | .jbool b, _ => rfl
  | .jnum n, _ => rfl
  | .jstr s, _ => rfl
  | .jfn t, _ => rfl

theorem mf_cleanTBPropF : ∀ (sfP : JFields), tbGoodPropF sfP → mfF (cleanTBPropF sfP) = true
  | .nil, _ => rfl
  | .cons k v t, h => by
    simp only [tbGoodPropF] at h
    have ih := mf_cleanTBPropF t h.2
    have hv : mfV (if isFileSchema v then toOpenAPIFileSchema v
        else if v.isObjTy && !(v = .jnull) then cleanTypeBoxFileSchemas v else v) = true := by
      by_cases h1 : isFileSchema v = true
      · rw [if_pos h1]
        exact mf_toOpenAPI_helper v (by rw [if_pos h1] at h; exact h.1)
      · rw [if_neg h1]
        by_cases h2 : (v.isObjTy && !(v = .jnull)) = true
        · rw [if_pos h2]
          exact mf_cleanTB v (by rw [if_neg h1, if_pos h2] at h; exact h.1)
        · rw [if_neg h2]
          cases v <;> simp_all [JVal.isObjTy, mfV]
    unfold cleanTBPropF
    simp [mfF, ih] <;> simpa using hv

theorem mf_cleanTBPropIdx : ∀ (i : Nat) (es : JList),
    tbGoodPropElems es → mfF (cleanTBPropIdx i es) = true
  | _, .nil, _ => rfl
  | i, .cons v t, h => by
    simp only [tbGoodPropElems] at h
    have ih := mf_cleanTBPropIdx (i + 1) t h.2
    have hv : mfV (if isFileSchema v then toOpenAPIFileSchema v
        else if v.isObjTy && !(v = .jnull) then cleanTypeBoxFileSchemas v else v) = true := by
      by_cases h1 : isFileSchema v = true
      · rw [if_pos h1]
        exact mf_toOpenAPI_helper v (by rw [if_pos h1] at h; exact h.1)
      · rw [if_neg h1]
        by_cases h2 : (v.isObjTy && !(v = .jnull)) = true
        · rw [if_pos h2]
          exact mf_cleanTB v (by rw [if_neg h1, if_pos h2] at h; exact h.1)
        · rw [if_neg h2]
          cases v <;> simp_all [JVal.isObjTy, mfV]
    unfold cleanTBPropIdx
    simp [mfF, ih] <;> simpa using hv

theorem mf_cleanTBIdx : ∀ (i : Nat) (es : JList),
    tbGoodElems es → mfF (cleanTBIdx i es) = true
  | _, .nil, _ => rfl
  | i, .cons v t, h => by
    simp only [tbGoodElems] at h
    have ih := mf_cleanTBIdx (i + 1) t h.2
    have hv : mfV (if v.isObjTy && !(v = .jnull) && !v.isArr
        then cleanTypeBoxFileSchemas v else v) = true := by
      by_cases h2 : (v.isObjTy && !(v = .jnull) && !v.isArr) = true
      · rw [if_pos h2]
        exact mf_cleanTB v (by rw [if_pos h2] at h; exact h.1)
      · rw [if_neg h2]
        rw [if_neg h2] at h
        exact h.1
    unfold cleanTBIdx
    simp [mfF, ih] <;> simpa using hv

end

end OpenSwagger

namespace OpenSwagger

/-! ## Claim C7 — property paths -/

/-- `AtPath v p target`: starting at schema node `v`, following
`properties` and then a field name for each step of `p` reaches
`target`. -/
inductive AtPath : JVal → List String → JVal → Prop where
  | here (v : JVal) : AtPath v [] v
  | step {sf : JFields} {yf : JSyms} {sfP : JFields} {yfP : JSyms}
      {n : String} {ns : List String} {target : JVal} :
      sf.get "properties" = .jobj sfP yfP →
      AtPath (sfP.get n) ns target →
      AtPath (.jobj sf yf) (n :: ns) target

theorem cleanTBFields_get : ∀ (sf : JFields) (k : String),
    (cleanTBFields sf).get k =
      (if k = "properties" && (sf.get k).isObjTy && !(sf.get k = .jnull) then
        cleanTBProps (sf.get k)
       else if (sf.get k).isObjTy && !(sf.get k = .jnull) && !(sf.get k).isArr then
        cleanTypeBoxFileSchemas (sf.get k)
       else sf.get k)
  | .nil, k => by simp [cleanTBFields, JFields.get, JVal.isObjTy]
  | .cons k' v t, k => by
    by_cases hk : k' = k
    · subst hk
      have hget : (JFields.cons k' v t).get k' = v := by simp [JFields.get]
      rw [hget]
      unfold cleanTBFields
      dsimp only
      split_ifs with h1 h2 <;> simp [JFields.get]
    · have hget : (JFields.cons k' v t).get k = t.get k := by simp [JFields.get, hk]
      have hstep : (cleanTBFields (.cons k' v t)).get k = (cleanTBFields t).get k := by
        conv_lhs => rw [cleanTBFields]
        split_ifs <;> simp [JFields.get, hk]
      rw [hget, hstep]
      exact cleanTBFields_get t k

theorem cleanTBPropF_get : ∀ (sfP : JFields) (n : String),
    (cleanTBPropF sfP).get n =
      (if isFileSchema (sfP.get n) then toOpenAPIFileSchema (sfP.get n)
       else if (sfP.get n).isObjTy && !(sfP.get n = .jnull) then
        cleanTypeBoxFileSchemas (sfP.get n)
       else sfP.get n)
  | .nil, n => by simp [cleanTBPropF, JFields.get, isFileSchema, JVal.truthy, JVal.isObjTy]
  | .cons k' v t, n => by
    by_cases hk : k' = n
    · subst hk
      have hget : (JFields.cons k' v t).get k' = v := by simp [JFields.get]
      rw [hget]
      unfold cleanTBPropF
      dsimp only
      simp [JFields.get]
    · have hget : (JFields.cons k' v t).get n = t.get n := by simp [JFields.get, hk]
      have hstep : (cleanTBPropF (.cons k' v t)).get n = (cleanTBPropF t).get n := by
        conv_lhs => rw [cleanTBPropF]
        simp [JFields.get, hk]
      rw [hget, hstep]
      exact cleanTBPropF_get t n

theorem tbGoodF_get : ∀ (sf : JFields), tbGoodF sf → ∀ (k : String),
    (if k = "properties" && (sf.get k).isObjTy && !(sf.get k = .jnull) then
      tbGoodProps (sf.get k)
     else if (sf.get k).isObjTy && !(sf.get k = .jnull) && !(sf.get k).isArr then
      tbGoodV (sf.get k)
     else mfV (sf.get k) = true)
  | .nil, _, k => by simp [JFields.get, JVal.isObjTy, mfV]
  | .cons k' v t, h, k => by
    simp only [tbGoodF] at h
    by_cases hk : k' = k
    · subst hk
      have hget : (JFields.cons k' v t).get k' = v := by simp [JFields.get]
      rw [hget]
      exact h.1
    · have hget : (JFields.cons k' v t).get k = t.get k := by simp [JFields.get, hk]
      rw [hget]
      exact tbGoodF_get t h.2 k

theorem tbGoodPropF_get : ∀ (sfP : JFields), tbGoodPropF sfP → ∀ (n : String),
    (if isFileSchema (sfP.get n) then HelperFile (sfP.get n)
     else if (sfP.get n).isObjTy && !(sfP.get n = .jnull) then tbGoodV (sfP.get n)
     else True)
  | .nil, _, n => by simp [JFields.get, isFileSchema, JVal.truthy, JVal.isObjTy]
  | .cons k' v t, h, n => by
    simp only [tbGoodPropF] at h
    by_cases hk : k' = n
    · subst hk
      have hget : (JFields.cons k' v t).get k' = v := by simp [JFields.get]
      rw [hget]
      exact h.1
    · have hget : (JFields.cons k' v t).get n = t.get n := by simp [JFields.get, hk]
      rw [hget]
      exact tbGoodPropF_get t h.2 n

end OpenSwagger

namespace OpenSwagger

/-- Cleaning a good TypeBox schema turns a helper file node found at a
nonempty property path into the clean OpenAPI file node at that path. -/
theorem cleanTB_atPath (o : FileOptions) : ∀ (p : List String) (v target : JVal),
    AtPath v p target → tbGoodV v → HelperFileAt target o → p ≠ [] →
    AtPath (cleanTypeBoxFileSchemas v) p (cleanFileNode o)
  | [], _, _, _, _, _, hne => absurd rfl hne
  | [n], v, target, hap, hgood, hh, _ => by
    cases hap with
    | step hP hinner =>
      rename_i sf yf sfP yfP
      have hgf : tbGoodF sf := by simpa [tbGoodV] using hgood
      have hprops : tbGoodPropF sfP := by
        have hg := tbGoodF_get sf hgf "properties"
        rw [hP] at hg
        simpa [JVal.isObjTy, tbGoodProps] using hg
      have hcp : (cleanTBFields sf).get "properties" = .jobj (cleanTBPropF sfP) .nil := by
        have hc := cleanTBFields_get sf "properties"
        rw [hP] at hc
        simpa [JVal.isObjTy, cleanTBProps] using hc
      have hentry := cleanTBPropF_get sfP n
      generalize hw : sfP.get n = w at hinner hentry
      cases hinner
      have hfs : isFileSchema target = true := isFileSchema_helper _ o hh
      rw [if_pos hfs, toOpenAPI_helper _ o hh] at hentry
      show AtPath (.jobj (cleanTBFields sf) .nil) [n] (cleanFileNode o)
      exact AtPath.step hcp (hentry ▸ AtPath.here _)
  | n :: n' :: ns', v, target, hap, hgood, hh, _ => by
    cases hap with
    | step hP hinner =>
      rename_i sf yf sfP yfP
      have hgf : tbGoodF sf := by simpa [tbGoodV] using hgood
      have hprops : tbGoodPropF sfP := by
        have hg := tbGoodF_get sf hgf "properties"
        rw [hP] at hg
        simpa [JVal.isObjTy, tbGoodProps] using hg
      have hcp : (cleanTBFields sf).get "properties" = .jobj (cleanTBPropF sfP) .nil := by
        have hc := cleanTBFields_get sf "properties"
        rw [hP] at hc
        simpa [JVal.isObjTy, cleanTBProps] using hc
      have hentry := cleanTBPropF_get sfP n
      have hgn := tbGoodPropF_get sfP hprops n
      have hrec : AtPath (cleanTypeBoxFileSchemas (sfP.get n)) (n' :: ns') (cleanFileNode o)
          ∧ (cleanTBPropF sfP).get n = cleanTypeBoxFileSchemas (sfP.get n) := by
        generalize hw : sfP.get n = w at hinner hentry hgn
        cases hinner with
        | step hP2 hinner2 =>
          rename_i sf2 yf2 sfP2 yfP2
          by_cases hfs : isFileSchema (.jobj sf2 yf2) = true
          · rw [if_pos hfs] at hgn
            rcases hgn with ⟨o2, ho2⟩
            have hnp := helper_no_props _ o2 ho2
            rw [show (JVal.jobj sf2 yf2).getF "properties" = sf2.get "properties" from rfl,
              hP2] at hnp
            exact absurd hnp (by simp)
          · rw [if_neg hfs] at hentry hgn
            have hcond : ((JVal.jobj sf2 yf2).isObjTy
                && !((JVal.jobj sf2 yf2 : JVal) = .jnull)) = true := by
              simp [JVal.isObjTy]
            rw [if_pos hcond] at hentry hgn
            exact ⟨cleanTB_atPath o (n' :: ns') (.jobj sf2 yf2) target
              (AtPath.step hP2 hinner2) hgn hh (by simp), hentry⟩
      show AtPath (.jobj (cleanTBFields sf) .nil) (n :: n' :: ns') (cleanFileNode o)
      exact AtPath.step hcp (hrec.2 ▸ hrec.1)

end OpenSwagger

namespace OpenSwagger

theorem fixTBFields_cons (c : Bool) (fl : JList) (k : String) (v : JVal) (t : JFields) :
    fixTBFields c fl (.cons k v t) =
      (if k = "required" then
        (if c then
          (match fl with
           | .nil => fixTBFields c fl t
           | f => .cons k (.jarr f) (fixTBFields c fl t))
         else .cons k v (fixTBFields c fl t))
       else if k = "properties" then
        (if v.truthy then .cons k (fixTBProps v) (fixTBFields c fl t)
         else .cons k v (fixTBFields c fl t))
       else if k = "items" then
        (if v.truthy then .cons k (fixTypeBoxNullableFields v) (fixTBFields c fl t)
         else .cons k v (fixTBFields c fl t))
       else if k = "anyOf" || k = "oneOf" || k = "allOf" then
        (match v with
         | .jarr es => .cons k (.jarr (fixTBList es)) (fixTBFields c fl t)
         | _ => .cons k v (fixTBFields c fl t))
       else .cons k v (fixTBFields c fl t)) := by
  cases fl <;> cases v <;> simp [fixTBFields]

theorem fixTBFields_get_props : ∀ (c : Bool) (fl : JList) (sf : JFields),
    (fixTBFields c fl sf).get "properties" =
      (if (sf.get "properties").truthy then fixTBProps (sf.get "properties")
       else sf.get "properties")
  | c, fl, .nil => by simp [fixTBFields, JFields.get, JVal.truthy]
  | c, fl, .cons k v t => by
    by_cases hk : k = "properties"
    · subst hk
      have hget : (JFields.cons "properties" v t).get "properties" = v := by
        simp [JFields.get]
      rw [hget, fixTBFields_cons]
      rw [if_neg (by decide : ¬("properties" = "required"))]
      rw [if_pos rfl]
      split_ifs <;> simp [JFields.get]
    · have hget : (JFields.cons k v t).get "properties" = t.get "properties" := by
        simp [JFields.get, hk]
      have hstep : (fixTBFields c fl (.cons k v t)).get "properties"
          = (fixTBFields c fl t).get "properties" := by
        rw [fixTBFields_cons]
        split_ifs <;> (try cases fl) <;> (try cases v) <;> simp [JFields.get, hk]
      rw [hget, hstep]
      exact fixTBFields_get_props c fl t

theorem fixTBMapF_get : ∀ (sfP : JFields) (n : String),
    (fixTBMapF sfP).get n = fixTypeBoxNullableFields (sfP.get n)
  | .nil, n => by simp [fixTBMapF, JFields.get, fixTypeBoxNullableFields]
  | .cons k v t, n => by
    by_cases hk : k = n
    · subst hk
      have hget : (JFields.cons k v t).get k = v := by simp [JFields.get]
      rw [hget]
      conv_lhs => rw [fixTBMapF]
      simp [JFields.get]
    · have hget : (JFields.cons k v t).get n = t.get n := by simp [JFields.get, hk]
      rw [hget]
      conv_lhs => rw [fixTBMapF]
      rw [show (JFields.cons k (fixTypeBoxNullableFields v) (fixTBMapF t)).get n
        = (fixTBMapF t).get n from by simp [JFields.get, hk]]
      exact fixTBMapF_get t n

/-- The TypeBox nullable-required fixup preserves a clean file node found
at a nonempty property path. -/
theorem fixTB_atPath (o : FileOptions) : ∀ (p : List String) (w t : JVal),
    AtPath w p t → t = cleanFileNode o → p ≠ [] →
    AtPath (fixTypeBoxNullableFields w) p (cleanFileNode o)
  | [], _, _, _, _, hne => absurd rfl hne
  | [n], w, t, hap, ht, _ => by
    cases hap with
    | step hP hinner =>
      rename_i sf yf sfP yfP
      have hfp : (fixTBFields
          ((sf.get "type" = JVal.jstr "object") && (sf.get "properties").truthy
            && (sf.get "required").isArr)
          (tbReqFilter (sf.get "properties") (reqElems (sf.get "required")))
          sf).get "properties" = .jobj (fixTBMapF sfP) .nil := by
        rw [fixTBFields_get_props, hP]
        simp [JVal.truthy, fixTBProps]
      have hentry := fixTBMapF_get sfP n
      generalize hw : sfP.get n = u at hinner hentry
      cases hinner
      rw [ht, fixTB_cleanFileNode] at hentry
      show AtPath (.jobj (fixTBFields _ _ sf) yf) [n] (cleanFileNode o)
      exact AtPath.step hfp (hentry ▸ AtPath.here _)
  | n :: n' :: ns', w, t, hap, ht, _ => by
    cases hap with
    | step hP hinner =>
      rename_i sf yf sfP yfP
      have hfp : (fixTBFields
          ((sf.get "type" = JVal.jstr "object") && (sf.get "properties").truthy
            && (sf.get "required").isArr)
          (tbReqFilter (sf.get "properties") (reqElems (sf.get "required")))
          sf).get "properties" = .jobj (fixTBMapF sfP) .nil := by
        rw [fixTBFields_get_props, hP]
        simp [JVal.truthy, fixTBProps]
      have hentry := fixTBMapF_get sfP n
      have hrec := fixTB_atPath o (n' :: ns') (sfP.get n) t hinner ht (by simp)
      show AtPath (.jobj (fixTBFields _ _ sf) yf) (n :: n' :: ns') (cleanFileNode o)
      exact AtPath.step hfp (hentry ▸ hrec)

end OpenSwagger

namespace OpenSwagger

mutual

theorem mf_fixTB : ∀ (v : JVal), mfV v = true → mfV (fixTypeBoxNullableFields v) = true
  | .jobj sf yf, h => by
    simp only [mfV, Bool.and_eq_true] at h
    obtain ⟨⟨hy, hf⟩, hys⟩ := h
    have hfl : mfL (tbReqFilter (sf.get "properties") (reqElems (sf.get "required"))) = true :=
      mfL_tbReqFilter _ _ (mfL_reqElems _ (mfF_get sf "required" hf))
    have hff := mf_fixTBFields
      ((sf.get "type" = JVal.jstr "object") && (sf.get "properties").truthy
        && (sf.get "required").isArr)
      (tbReqFilter (sf.get "properties") (reqElems (sf.get "required"))) sf hfl hf
    simp [fixTypeBoxNullableFields, mfV, hy, hff, hys]
  | .jarr es, h => by
    have hi : mfF (idxFields 0 es) = true := mfF_idxFields es 0 (by simpa [mfV] using h)
    simp [fixTypeBoxNullableFields, mfV, JSyms.has, mfY, hi]
  | .undef, h => h
  | .jnull, h => h
  | .jbool b, h => h
  | .jnum n, h => h
  | .jstr s, h => h
  | .jfn t, h => h

theorem mf_fixTBFields : ∀ (c : Bool) (fl : JList) (sf : JFields),
    mfL fl = true → mfF sf = true → mfF (fixTBFields c fl sf) = true
  | _, _, .nil, _, _ => rfl
  | c, fl, .cons k v t, hfl, h => by
    simp only [mfF, Bool.and_eq_true] at h
    have ih := mf_fixTBFields c fl t hfl h.2
    rw [fixTBFields_cons]
    by_cases hr : k = "required"
    · rw [if_pos hr]
      by_cases hc : c = true
      · rw [if_pos hc]
        cases fl with
        | nil => exact ih
        | cons f1 f2 =>
          simp only [mfF, mfV, Bool.and_eq_true]
          exact ⟨by simpa [mfL] using hfl, ih⟩
      · rw [if_neg hc]
        simp [mfF, h.1, ih]
    · rw [if_neg hr]
      by_cases hp : k = "properties"
      · rw [if_pos hp]
        by_cases ht : v.truthy = true
        · rw [if_pos ht]
          have hv := mf_fixTBProps v h.1
          simp [mfF, hv, ih]
        · rw [if_neg ht]
          simp [mfF, h.1, ih]
      · rw [if_neg hp]
        by_cases hi : k = "items"
        · rw [if_pos hi]
          by_cases ht : v.truthy = true
          · rw [if_pos ht]
            have hv := mf_fixTB v h.1
            simp [mfF, hv, ih]
          · rw [if_neg ht]
            simp [mfF, h.1, ih]
        · rw [if_neg hi]
          by_cases ha : (k = "anyOf" || k = "oneOf" || k = "allOf") = true
          · rw [if_pos ha]
            cases v with
            | jarr es =>
              have hes := mf_fixTBList es (by simpa [mfV] using h.1)
              simp [mfF, mfV, hes, ih]
            | jobj sf2 yf2 => simp [mfF, h.1, ih]
            | undef => simp [mfF, h.1, ih]
            | jnull => simp [mfF, h.1, ih]
            | jbool b => simp [mfF, h.1, ih]
            | jnum n => simp [mfF, h.1, ih]
            | jstr s => simp [mfF, h.1, ih]
            | jfn tf => simp [mfF, h.1, ih]
          · rw [if_neg ha]
            simp [mfF, h.1, ih]

theorem mf_fixTBProps : ∀ (v : JVal), mfV v = true → mfV (fixTBProps v) = true
  | .jobj sfP yfP, h => by
    have hm := mf_fixTBMapF sfP (by simp only [mfV, Bool.and_eq_true] at h; exact h.1.2)
    simp [fixTBProps, mfV, JSyms.has, mfY, hm]
  | .jarr es, h => by
    have hm := mf_fixTBIdx 0 es (by simpa [mfV] using h)
    simp [fixTBProps, mfV, JSyms.has, mfY, hm]
  | .jstr s, _ => by simp [fixTBProps, mfV, JSyms.has, mfY, mfF_charFields]
  | .undef, _ => rfl
  | .jnull, _ => rfl
  | .jbool b, _ => rfl
  | .jnum n, _ => rfl
  | .jfn t, _ => rfl

theorem mf_fixTBMapF : ∀ (sfP : JFields), mfF sfP = true → mfF (fixTBMapF sfP) = true
  | .nil, _ => rfl
  | .cons k v t, h => by
    simp only [mfF, Bool.and_eq_true] at h
    have hv := mf_fixTB v h.1
    have ih := mf_fixTBMapF t h.2
    simp [fixTBMapF, mfF, hv, ih]

theorem mf_fixTBIdx : ∀ (i : Nat) (es : JList), mfL es = true → mfF (fixTBIdx i es) = true
  | _, .nil, _ => rfl
  | i, .cons v t, h => by
    simp only [mfL, Bool.and_eq_true] at h
    have hv := mf_fixTB v h.1
    have ih := mf_fixTBIdx (i + 1) t h.2
    simp [fixTBIdx, mfF, hv, ih]

theorem mf_fixTBList : ∀ (es : JList), mfL es = true → mfL (fixTBList es) = true
  | .nil, _ => rfl
  | .cons v t, h => by
    simp only [mfL, Bool.and_eq_true] at h
    have hv := mf_fixTB v h.1
    have ih := mf_fixTBList t h.2
    simp [fixTBList, mfL, hv, ih]

end

end OpenSwagger

namespace OpenSwagger

/-! ## Claim C7 — merge and extraction lemmas -/

theorem JFields.get_set_self : ∀ (sf : JFields) (k : String) (v : JVal),
    (sf.set k v).get k = v
  | .nil, k, v => by simp [JFields.set, JFields.get]
  | .cons k' v' t, k, v => by
    by_cases hk : k' = k
    · simp [JFields.set, JFields.get, hk]
    · simp [JFields.set, JFields.get, hk, JFields.get_set_self t k v]

theorem JFields.get_set_ne : ∀ (sf : JFields) (k f : String) (v : JVal), k ≠ f →
    (sf.set k v).get f = sf.get f
  | .nil, k, f, v, h => by simp [JFields.set, JFields.get, h]
  | .cons k0 v0 t, k, f, v, h => by
    by_cases h0 : k0 = k
    · subst h0
      simp [JFields.set, JFields.get, h]
    · by_cases h0f : k0 = f <;>
        simp [JFields.set, JFields.get, h0, h0f, h.symm, JFields.get_set_ne t k f v h]

theorem mapSet_fst : ∀ {α : Type} (m : List (String × α)) (k : String) (v : α),
    (mapSet m k v).map Prod.fst
      = (if k ∈ m.map Prod.fst then m.map Prod.fst else m.map Prod.fst ++ [k])
  | _, [], k, v => by simp [mapSet]
  | _, (k0, v0) :: t, k, v => by
    by_cases hk : k0 = k
    · simp [mapSet, hk]
    · have ih := mapSet_fst t k v
      have hne : ¬(k = k0) := fun hh => hk hh.symm
      by_cases hm : k ∈ t.map Prod.fst <;>
        simp_all [mapSet, hk, hne, ih]

theorem mapSet_fst_nodup {α : Type} (m : List (String × α)) (k : String) (v : α)
    (h : (m.map Prod.fst).Nodup) : ((mapSet m k v).map Prod.fst).Nodup := by
  rw [mapSet_fst]
  by_cases hm : k ∈ m.map Prod.fst
  · simpa [hm] using h
  · rw [if_neg hm]
    refine List.Nodup.append h (List.nodup_singleton k) ?_
    intro a ha hb
    rw [List.mem_singleton] at hb
    subst hb
    exact hm ha

theorem mapSet_vals_mf {α : Type} (P : α → Prop) (m : List (String × α)) (k : String) (v : α)
    (h : ∀ p ∈ m, P p.2) (hv : P v) : ∀ p ∈ mapSet m k v, P p.2 := by
  induction m with
  | nil => simpa [mapSet] using hv
  | cons hd t ih =>
    obtain ⟨k0, v0⟩ := hd
    by_cases hk : k0 = k
    · simp only [mapSet, if_pos hk]
      intro p hp
      rcases List.mem_cons.mp hp with hp | hp
      · simpa [hp] using hv
      · exact h p (List.mem_cons_of_mem _ hp)
    · simp only [mapSet, if_neg hk]
      intro p hp
      rcases List.mem_cons.mp hp with hp | hp
      · exact h p (by simp [hp])
      · exact ih (fun q hq => h q (List.mem_cons_of_mem _ hq)) p hp

theorem assignFileSchemas_jobj : ∀ (m : List (String × JVal)) (pf : JFields) (py : JSyms),
    ∃ pf', assignFileSchemas (.jobj pf py) m = .jobj pf' py
  | [], pf, py => ⟨pf, rfl⟩
  | (k, v) :: t, pf, py => by
    simpa [assignFileSchemas, setKV] using assignFileSchemas_jobj t (pf.set k v) py

theorem assign_get_notin : ∀ (m : List (String × JVal)) (pf : JFields) (py : JSyms)
    (f : String), f ∉ m.map Prod.fst →
    (assignFileSchemas (.jobj pf py) m).getF f = pf.get f
  | [], pf, py, f, _ => rfl
  | (k, v) :: t, pf, py, f, h => by
    simp only [List.map_cons, List.mem_cons, not_or] at h
    have : (assignFileSchemas (.jobj (pf.set k v) py) t).getF f = (pf.set k v).get f :=
      assign_get_notin t (pf.set k v) py f h.2
    rw [show assignFileSchemas (.jobj pf py) ((k, v) :: t)
      = assignFileSchemas (.jobj (pf.set k v) py) t from rfl, this]
    have hk : k ≠ f := fun hh => h.1 hh.symm
    exact JFields.get_set_ne pf k f v hk

theorem assign_get : ∀ (m : List (String × JVal)) (pf : JFields) (py : JSyms)
    (f : String) (x : JVal), (m.map Prod.fst).Nodup → mapGet m f = some x →
    (assignFileSchemas (.jobj pf py) m).getF f = x
  | [], _, _, _, _, _, hg => by simp [mapGet] at hg
  | (k, v) :: t, pf, py, f, x, hnd, hg => by
    simp only [List.map_cons, List.nodup_cons] at hnd
    by_cases hk : k = f
    · subst hk
      have hv : v = x := by simpa [mapGet] using hg
      subst hv
      rw [show assignFileSchemas (.jobj pf py) ((k, v) :: t)
        = assignFileSchemas (.jobj (pf.set k v) py) t from rfl]
      rw [assign_get_notin t (pf.set k v) py k hnd.1]
      exact JFields.get_set_self pf k v
    · have hg' : mapGet t f = some x := by simpa [mapGet, hk] using hg
      rw [show assignFileSchemas (.jobj pf py) ((k, v) :: t)
        = assignFileSchemas (.jobj (pf.set k v) py) t from rfl]
      exact assign_get t (pf.set k v) py f x hnd.2 hg'

theorem mf_setKV (v : JVal) (k : String) (x : JVal) (h : mfV v = true)
    (hx : mfV x = true) : mfV (setKV v k x) = true := by
  cases v with
  | jobj sf yf =>
    simp only [mfV, Bool.and_eq_true] at h
    simp [setKV, mfV, h.1.1, h.2, mfF_set sf k x h.1.2 hx]
  | _ => simpa [setKV] using h

theorem mf_assign : ∀ (m : List (String × JVal)) (props : JVal),
    mfV props = true → (∀ p ∈ m, mfV p.2 = true) →
    mfV (assignFileSchemas props m) = true
  | [], props, h, _ => h
  | (k, v) :: t, props, h, hm => by
    rw [show assignFileSchemas props ((k, v) :: t)
      = assignFileSchemas (setKV props k v) t from rfl]
    exact mf_assign t (setKV props k v)
      (mf_setKV props k v h (hm (k, v) (by simp)))
      (fun p hp => hm p (List.mem_cons_of_mem _ hp))

end OpenSwagger

namespace OpenSwagger

/-- Every marked entry of a Zod shape was produced by a file helper. -/
def zodShapeOK : JFields → Prop
  | .nil => True
  | .cons _ v t => (isFileSchema v = true → HelperFile v) ∧ zodShapeOK t

/-- Every vine-marked entry of a VineJS property map was produced by a
file helper. -/
def vineShapeOK : JFields → Prop
  | .nil => True
  | .cons _ v t => (isVineFileSchema v = true → HelperFile v) ∧ vineShapeOK t

theorem collectZod_notin : ∀ (sh : JFields) (acc : List (String × JVal)) (f : String),
    f ∉ sh.keys → mapGet (collectZodFiles acc sh) f = mapGet acc f
  | .nil, _, _, _ => rfl
  | .cons k v t, acc, f, h => by
    simp only [JFields.keys, List.mem_cons, not_or] at h
    rw [show collectZodFiles acc (.cons k v t) = collectZodFiles
      (if isFileSchema v then mapSet acc k (toOpenAPIFileSchema v) else acc) t from rfl]
    rw [collectZod_notin t _ f h.2]
    split_ifs
    · exact mapGet_mapSet_ne acc k f _ (fun hh => h.1 hh.symm)
    · rfl

theorem collectZod_get : ∀ (sh : JFields) (acc : List (String × JVal)) (f : String),
    sh.keys.Nodup → isFileSchema (sh.get f) = true →
    mapGet (collectZodFiles acc sh) f = some (toOpenAPIFileSchema (sh.get f))
  | .nil, _, f, _, hfs => by simp [JFields.get, isFileSchema, JVal.truthy] at hfs
  | .cons k v t, acc, f, hnd, hfs => by
    simp only [JFields.keys, List.nodup_cons] at hnd
    by_cases hk : k = f
    · subst hk
      have hgv : (JFields.cons k v t).get k = v := by simp [JFields.get]
      rw [hgv] at hfs ⊢
      rw [show collectZodFiles acc (.cons k v t)
        = collectZodFiles (mapSet acc k (toOpenAPIFileSchema v)) t from by
          simp [collectZodFiles, hfs]]
      rw [collectZod_notin t _ k hnd.1]
      exact mapGet_mapSet_self acc k _
    · have hgt : (JFields.cons k v t).get f = t.get f := by simp [JFields.get, hk]
      rw [hgt] at hfs ⊢
      rw [show collectZodFiles acc (.cons k v t) = collectZodFiles
        (if isFileSchema v then mapSet acc k (toOpenAPIFileSchema v) else acc) t from rfl]
      exact collectZod_get t _ f hnd.2 hfs

theorem collectZod_nodup : ∀ (sh : JFields) (acc : List (String × JVal)),
    (acc.map Prod.fst).Nodup → ((collectZodFiles acc sh).map Prod.fst).Nodup
  | .nil, _, h => h
  | .cons k v t, acc, h => by
    rw [show collectZodFiles acc (.cons k v t) = collectZodFiles
      (if isFileSchema v then mapSet acc k (toOpenAPIFileSchema v) else acc) t from rfl]
    apply collectZod_nodup t
    split_ifs
    · exact mapSet_fst_nodup acc k _ h
    · exact h

theorem collectZod_vals_mf : ∀ (sh : JFields) (acc : List (String × JVal)),
    zodShapeOK sh → (∀ p ∈ acc, mfV p.2 = true) →
    ∀ p ∈ collectZodFiles acc sh, mfV p.2 = true
  | .nil, _, _, ha => ha
  | .cons k v t, acc, hok, ha => by
    simp only [zodShapeOK] at hok
    rw [show collectZodFiles acc (.cons k v t) = collectZodFiles
      (if isFileSchema v then mapSet acc k (toOpenAPIFileSchema v) else acc) t from rfl]
    refine collectZod_vals_mf t _ hok.2 ?_
    split_ifs with hfs
    · exact mapSet_vals_mf (fun x => mfV x = true) acc k _ ha
        (mf_toOpenAPI_helper v (hok.1 hfs))
    · exact ha

theorem collectVine_notin : ∀ (sh : JFields) (acc : List (String × JVal)) (f : String),
    f ∉ sh.keys → mapGet (collectVineFiles acc sh) f = mapGet acc f
  | .nil, _, _, _ => rfl
  | .cons k v t, acc, f, h => by
    simp only [JFields.keys, List.mem_cons, not_or] at h
    rw [show collectVineFiles acc (.cons k v t) = collectVineFiles
      (if isVineFileSchema v then mapSet acc k (toOpenAPIFileSchema v) else acc) t from rfl]
    rw [collectVine_notin t _ f h.2]
    split_ifs
    · exact mapGet_mapSet_ne acc k f _ (fun hh => h.1 hh.symm)
    · rfl

theorem collectVine_get : ∀ (sh : JFields) (acc : List (String × JVal)) (f : String),
    sh.keys.Nodup → isVineFileSchema (sh.get f) = true →
    mapGet (collectVineFiles acc sh) f = some (toOpenAPIFileSchema (sh.get f))
  | .nil, _, f, _, hfs => by simp [JFields.get, isVineFileSchema, JVal.truthy] at hfs
  | .cons k v t, acc, f, hnd, hfs => by
    simp only [JFields.keys, List.nodup_cons] at hnd
    by_cases hk : k = f
    · subst hk
      have hgv : (JFields.cons k v t).get k = v := by simp [JFields.get]
      rw [hgv] at hfs ⊢
      rw [show collectVineFiles acc (.cons k v t)
        = collectVineFiles (mapSet acc k (toOpenAPIFileSchema v)) t from by
          simp [collectVineFiles, hfs]]
      rw [collectVine_notin t _ k hnd.1]
      exact mapGet_mapSet_self acc k _
    · have hgt : (JFields.cons k v t).get f = t.get f := by simp [JFields.get, hk]
      rw [hgt] at hfs ⊢
      rw [show collectVineFiles acc (.cons k v t) = collectVineFiles
        (if isVineFileSchema v then mapSet acc k (toOpenAPIFileSchema v) else acc) t from rfl]
      exact collectVine_get t _ f hnd.2 hfs

theorem collectVine_nodup : ∀ (sh : JFields) (acc : List (String × JVal)),
    (acc.map Prod.fst).Nodup → ((collectVineFiles acc sh).map Prod.fst).Nodup
  | .nil, _, h => h
  | .cons k v t, acc, h => by
    rw [show collectVineFiles acc (.cons k v t) = collectVineFiles
      (if isVineFileSchema v then mapSet acc k (toOpenAPIFileSchema v) else acc) t from rfl]
    apply collectVine_nodup t
    split_ifs
    · exact mapSet_fst_nodup acc k _ h
    · exact h

theorem collectVine_vals_mf : ∀ (sh : JFields) (acc : List (String × JVal)),
    vineShapeOK sh → (∀ p ∈ acc, mfV p.2 = true) →
    ∀ p ∈ collectVineFiles acc sh, mfV p.2 = true
  | .nil, _, _, ha => ha
  | .cons k v t, acc, hok, ha => by
    simp only [vineShapeOK] at hok
    rw [show collectVineFiles acc (.cons k v t) = collectVineFiles
      (if isVineFileSchema v then mapSet acc k (toOpenAPIFileSchema v) else acc) t from rfl]
    refine collectVine_vals_mf t _ hok.2 ?_
    split_ifs with hfs
    · exact mapSet_vals_mf (fun x => mfV x = true) acc k _ ha
        (mf_toOpenAPI_helper v (hok.1 hfs))
    · exact ha

end OpenSwagger

namespace OpenSwagger

theorem cleanZodFields_cons (dp : Bool) (k : String) (v : JVal) (t : JFields) :
    cleanZodFields dp (.cons k v t) =
      (if k = "pattern" && dp then cleanZodFields dp t
       else if k = "properties" then
        (if v.truthy then .cons k (cleanZodProps v) (cleanZodFields dp t)
         else .cons k v (cleanZodFields dp t))
       else if k = "items" then
        (if v.truthy then .cons k (cleanZodJsonSchema v) (cleanZodFields dp t)
         else .cons k v (cleanZodFields dp t))
       else if k = "anyOf" || k = "oneOf" || k = "allOf" then
        (match v with
         | .jarr es => .cons k (.jarr (cleanZodList es)) (cleanZodFields dp t)
         | _ => .cons k v (cleanZodFields dp t))
       else .cons k v (cleanZodFields dp t)) := by
  cases v <;> simp [cleanZodFields]

theorem fixZodFields_cons (c : Bool) (fl : JList) (k : String) (v : JVal) (t : JFields) :
    fixZodFields c fl (.cons k v t) =
      (if k = "required" then
        (if c then
          (match fl with
           | .nil => fixZodFields c fl t
           | f => .cons k (.jarr f) (fixZodFields c fl t))
         else .cons k v (fixZodFields c fl t))
       else if k = "properties" then
        (if v.truthy then .cons k (fixZodProps v) (fixZodFields c fl t)
         else .cons k v (fixZodFields c fl t))
       else if k = "items" then
        (if v.truthy then .cons k (fixNullableFieldsInSchema v) (fixZodFields c fl t)
         else .cons k v (fixZodFields c fl t))
       else if k = "anyOf" || k = "oneOf" || k = "allOf" then
        (match v with
         | .jarr es => .cons k (.jarr (fixZodList es)) (fixZodFields c fl t)
         | _ => .cons k v (fixZodFields c fl t))
       else .cons k v (fixZodFields c fl t)) := by
  cases fl <;> cases v <;> simp [fixZodFields]

theorem cleanZodFields_get_props : ∀ (dp : Bool) (sf : JFields),
    (cleanZodFields dp sf).get "properties" =
      (if (sf.get "properties").truthy then cleanZodProps (sf.get "properties")
       else sf.get "properties")
  | dp, .nil => by simp [cleanZodFields, JFields.get, JVal.truthy]
  | dp, .cons k v t => by
    by_cases hk : k = "properties"
    · subst hk
      have hget : (JFields.cons "properties" v t).get "properties" = v := by
        simp [JFields.get]
      rw [hget, cleanZodFields_cons]
      rw [if_neg (by simp : ¬((decide ("properties" = "pattern") && dp) = true))]
      rw [if_pos rfl]
      split_ifs <;> simp [JFields.get]
    · have hget : (JFields.cons k v t).get "properties" = t.get "properties" := by
        simp [JFields.get, hk]
      have hstep : (cleanZodFields dp (.cons k v t)).get "properties"
          = (cleanZodFields dp t).get "properties" := by
        rw [cleanZodFields_cons]
        split_ifs <;> (try cases v) <;> simp [JFields.get, hk]
      rw [hget, hstep]
      exact cleanZodFields_get_props dp t

theorem fixZodFields_get_props : ∀ (c : Bool) (fl : JList) (sf : JFields),
    (fixZodFields c fl sf).get "properties" =
      (if (sf.get "properties").truthy then fixZodProps (sf.get "properties")
       else sf.get "properties")
  | c, fl, .nil => by simp [fixZodFields, JFields.get, JVal.truthy]
  | c, fl, .cons k v t => by
    by_cases hk : k = "properties"
    · subst hk
      have hget : (JFields.cons "properties" v t).get "properties" = v := by
        simp [JFields.get]
      rw [hget, fixZodFields_cons]
      rw [if_neg (by decide : ¬("properties" = "required"))]
      rw [if_pos rfl]
      split_ifs <;> simp [JFields.get]
    · have hget : (JFields.cons k v t).get "properties" = t.get "properties" := by
        simp [JFields.get, hk]
      have hstep : (fixZodFields c fl (.cons k v t)).get "properties"
          = (fixZodFields c fl t).get "properties" := by
        rw [fixZodFields_cons]
        split_ifs <;> (try cases fl) <;> (try cases v) <;> simp [JFields.get, hk]
      rw [hget, hstep]
      exact fixZodFields_get_props c fl t

end OpenSwagger

namespace OpenSwagger

mutual

theorem mf_cleanZod : ∀ (v : JVal), mfV v = true → mfV (cleanZodJsonSchema v) = true
  | .jobj sf yf, h => by
    simp only [mfV, Bool.and_eq_true] at h
    obtain ⟨⟨hy, hf⟩, hys⟩ := h
    have hff := mf_cleanZodFields
      ((sf.get "format" = JVal.jstr "date-time") && (sf.get "pattern").truthy) sf hf
    simp [cleanZodJsonSchema, mfV, hy, hff, hys]
  | .jarr es, h => by
    have hi : mfF (idxFields 0 es) = true := mfF_idxFields es 0 (by simpa [mfV] using h)
    simp [cleanZodJsonSchema, mfV, JSyms.has, mfY, hi]
  | .undef, h => h
  | .jnull, h => h
  | .jbool b, h => h
  | .jnum n, h => h
  | .jstr s, h => h
  | .jfn t, h => h

theorem mf_cleanZodFields : ∀ (dp : Bool) (sf : JFields),
    mfF sf = true → mfF (cleanZodFields dp sf) = true
  | _, .nil, _ => rfl
  | dp, .cons k v t, h => by
    simp only [mfF, Bool.and_eq_true] at h
    have ih := mf_cleanZodFields dp t h.2
    rw [cleanZodFields_cons]
    by_cases hr : (k = "pattern" && dp) = true
    · rw [if_pos hr]
      exact ih
    · rw [if_neg hr]
      by_cases hp : k = "properties"
      · rw [if_pos hp]
        by_cases ht : v.truthy = true
        · rw [if_pos ht]
          have hv := mf_cleanZodProps v h.1
          simp [mfF, hv, ih]
        · rw [if_neg ht]
          simp [mfF, h.1, ih]
      · rw [if_neg hp]
        by_cases hi : k = "items"
        · rw [if_pos hi]
          by_cases ht : v.truthy = true
          · rw [if_pos ht]
            have hv := mf_cleanZod v h.1
            simp [mfF, hv, ih]
          · rw [if_neg ht]
            simp [mfF, h.1, ih]
        · rw [if_neg hi]
          by_cases ha : (k = "anyOf" || k = "oneOf" || k = "allOf") = true
          · rw [if_pos ha]
            cases v with
            | jarr es =>
              have hes := mf_cleanZodList es (by simpa [mfV] using h.1)
              simp [mfF, mfV, hes, ih]
            | jobj sf2 yf2 => simp [mfF, h.1, ih]
            | undef => simp [mfF, h.1, ih]
            | jnull => simp [mfF, h.1, ih]
            | jbool b => simp [mfF, h.1, ih]
            | jnum n => simp [mfF, h.1, ih]
            | jstr s => simp [mfF, h.1, ih]
            | jfn tf => simp [mfF, h.1, ih]
          · rw [if_neg ha]
            simp [mfF, h.1, ih]

theorem mf_cleanZodProps : ∀ (v : JVal), mfV v = true → mfV (cleanZodProps v) = true
  | .jobj sfP yfP, h => by
    have hm := mf_cleanZodMapF sfP (by simp only [mfV, Bool.and_eq_true] at h; exact h.1.2)
    simp [cleanZodProps, mfV, JSyms.has, mfY, hm]
  | .jarr es, h => by
    have hm := mf_cleanZodIdx 0 es (by simpa [mfV] using h)
    simp [cleanZodProps, mfV, JSyms.has, mfY, hm]
  | .jstr s, _ => by simp [cleanZodProps, mfV, JSyms.has, mfY, mfF_charFields]
  | .undef, _ => rfl
  | .jnull, _ => rfl
  | .jbool b, _ => rfl
  | .jnum n, _ => rfl
  | .jfn t, _ => rfl

theorem mf_cleanZodMapF : ∀ (sfP : JFields), mfF sfP = true → mfF (cleanZodMapF sfP) = true
  | .nil, _ => rfl
  | .cons k v t, h => by
    simp only [mfF, Bool.and_eq_true] at h
    have hv := mf_cleanZod v h.1
    have ih := mf_cleanZodMapF t h.2
    simp [cleanZodMapF, mfF, hv, ih]

theorem mf_cleanZodIdx : ∀ (i : Nat) (es : JList), mfL es = true → mfF (cleanZodIdx i es) = true
  | _, .nil, _ => rfl
  | i, .cons v t, h => by
    simp only [mfL, Bool.and_eq_true] at h
    have hv := mf_cleanZod v h.1
    have ih := mf_cleanZodIdx (i + 1) t h.2
    simp [cleanZodIdx, mfF, hv, ih]

theorem mf_cleanZodList : ∀ (es : JList), mfL es = true → mfL (cleanZodList es) = true
  | .nil, _ => rfl
  | .cons v t, h => by
    simp only [mfL, Bool.and_eq_true] at h
    have hv := mf_cleanZod v h.1
    have ih := mf_cleanZodList t h.2
    simp [cleanZodList, mfL, hv, ih]

end

mutual

theorem mf_fixZod : ∀ (v : JVal), mfV v = true → mfV (fixNullableFieldsInSchema v) = true
  | .jobj sf yf, h => by
    simp only [mfV, Bool.and_eq_true] at h
    obtain ⟨⟨hy, hf⟩, hys⟩ := h
    have hfl : mfL (zodReqFilter (sf.get "properties") (reqElems (sf.get "required"))) = true :=
      mfL_zodReqFilter _ _ (mfL_reqElems _ (mfF_get sf "required" hf))
    have hff := mf_fixZodFields
      ((sf.get "type" = JVal.jstr "object") && (sf.get "properties").truthy
        && (sf.get "required").isArr)
      (zodReqFilter (sf.get "properties") (reqElems (sf.get "required"))) sf hfl hf
    simp [fixNullableFieldsInSchema, mfV, hy, hff, hys]
  | .jarr es, h => by
    have hi : mfF (idxFields 0 es) = true := mfF_idxFields es 0 (by simpa [mfV] using h)
    simp [fixNullableFieldsInSchema, mfV, JSyms.has, mfY, hi]
  | .undef, h => h
  | .jnull, h => h
  | .jbool b, h => h
  | .jnum n, h => h
  | .jstr s, h => h
  | .jfn t, h => h

theorem mf_fixZodFields : ∀ (c : Bool) (fl : JList) (sf : JFields),
    mfL fl = true → mfF sf = true → mfF (fixZodFields c fl sf) = true
  | _, _, .nil, _, _ => rfl
  | c, fl, .cons k v t, hfl, h => by
    simp only [mfF, Bool.and_eq_true] at h
    have ih := mf_fixZodFields c fl t hfl h.2
    rw [fixZodFields_cons]
    by_cases hr : k = "required"
    · rw [if_pos hr]
      by_cases hc : c = true
      · rw [if_pos hc]
        cases fl with
        | nil => exact ih
        | cons f1 f2 =>
          simp only [mfF, mfV, Bool.and_eq_true]
          exact ⟨by simpa [mfL] using hfl, ih⟩
      · rw [if_neg hc]
        simp [mfF, h.1, ih]
    · rw [if_neg hr]
      by_cases hp : k = "properties"
      · rw [if_pos hp]
        by_cases ht : v.truthy = true
        · rw [if_pos ht]
          have hv := mf_fixZodProps v h.1
          simp [mfF, hv, ih]
        · rw [if_neg ht]
          simp [mfF, h.1, ih]
      · rw [if_neg hp]
        by_cases hi : k = "items"
        · rw [if_pos hi]
          by_cases ht : v.truthy = true
          · rw [if_pos ht]
            have hv := mf_fixZod v h.1
            simp [mfF, hv, ih]
          · rw [if_neg ht]
            simp [mfF, h.1, ih]
        · rw [if_neg hi]
          by_cases ha : (k = "anyOf" || k = "oneOf" || k = "allOf") = true
          · rw [if_pos ha]
            cases v with
            | jarr es =>
              have hes := mf_fixZodList es (by simpa [mfV] using h.1)
              simp [mfF, mfV, hes, ih]
            | jobj sf2 yf2 => simp [mfF, h.1, ih]
            | undef => simp [mfF, h.1, ih]
            | jnull => simp [mfF, h.1, ih]
            | jbool b => simp [mfF, h.1, ih]
            | jnum n => simp [mfF, h.1, ih]
            | jstr s => simp [mfF, h.1, ih]
            | jfn tf => simp [mfF, h.1, ih]
          · rw [if_neg ha]
            simp [mfF, h.1, ih]

theorem mf_fixZodProps : ∀ (v : JVal), mfV v = true → mfV (fixZodProps v) = true
  | .jobj sfP yfP, h => by
    have hm := mf_fixZodMapF sfP (by simp only [mfV, Bool.and_eq_true] at h; exact h.1.2)
    simp [fixZodProps, mfV, JSyms.has, mfY, hm]
  | .jarr es, h => by
    have hm := mf_fixZodIdx 0 es (by simpa [mfV] using h)
    simp [fixZodProps, mfV, JSyms.has, mfY, hm]
  | .jstr s, _ => by simp [fixZodProps, mfV, JSyms.has, mfY, mfF_charFields]
  | .undef, _ => rfl
  | .jnull, _ => rfl
  | .jbool b, _ => rfl
  | .jnum n, _ => rfl
  | .jfn t, _ => rfl

theorem mf_fixZodMapF : ∀ (sfP : JFields), mfF sfP = true → mfF (fixZodMapF sfP) = true
  | .nil, _ => rfl
  | .cons k v t, h => by
    simp only [mfF, Bool.and_eq_true] at h
    have hv := mf_fixZod v h.1
    have ih := mf_fixZodMapF t h.2
    simp [fixZodMapF, mfF, hv, ih]

theorem mf_fixZodIdx : ∀ (i : Nat) (es : JList), mfL es = true → mfF (fixZodIdx i es) = true
  | _, .nil, _ => rfl
  | i, .cons v t, h => by
    simp only [mfL, Bool.and_eq_true] at h
    have hv := mf_fixZod v h.1
    have ih := mf_fixZodIdx (i + 1) t h.2
    simp [fixZodIdx, mfF, hv, ih]

theorem mf_fixZodList : ∀ (es : JList), mfL es = true → mfL (fixZodList es) = true
  | .nil, _ => rfl
  | .cons v t, h => by
    simp only [mfL, Bool.and_eq_true] at h
    have hv := mf_fixZod v h.1
    have ih := mf_fixZodList t h.2
    simp [fixZodList, mfL, hv, ih]

end

end OpenSwagger

namespace OpenSwagger

theorem merge_result (fsf : JFields) (fyf : JSyms) (m : List (String × JVal)) (hm : m ≠ []) :
    mergeFileSchemas (.jobj fsf fyf) m = .jobj
      (fsf.set "properties" (assignFileSchemas
        (if (fsf.get "properties").truthy then fsf.get "properties" else .jobj .nil .nil) m))
      fyf := by
  cases m with
  | nil => exact absurd rfl hm
  | cons p t => simp [mergeFileSchemas, spreadF]

theorem mf_merge (fsf : JFields) (fyf : JSyms) (m : List (String × JVal))
    (hmf : mfV (.jobj fsf fyf) = true) (hvals : ∀ p ∈ m, mfV p.2 = true) :
    mfV (mergeFileSchemas (.jobj fsf fyf) m) = true := by
  cases m with
  | nil => exact hmf
  | cons p t =>
    simp only [mfV, Bool.and_eq_true] at hmf
    obtain ⟨⟨hy, hf⟩, hys⟩ := hmf
    have hprops : mfV (if (fsf.get "properties").truthy then fsf.get "properties"
        else .jobj .nil .nil) = true := by
      split_ifs
      · exact mfF_get fsf "properties" hf
      · rfl
    have hA := mf_assign (p :: t) _ hprops hvals
    simp [mergeFileSchemas, spreadF, mfV, hy, hys, mfF_set fsf "properties" _ hf hA]

theorem zodFixed_shape (rawSf : JFields) (rawYf : JSyms) :
    ∃ fsf : JFields,
      fixNullableFieldsInSchema (cleanZodJsonSchema (.jobj rawSf rawYf)) = .jobj fsf rawYf ∧
      ((fsf.get "properties").truthy = true → ∃ a b, fsf.get "properties" = .jobj a b) := by
  simp only [cleanZodJsonSchema, fixNullableFieldsInSchema]
  refine ⟨_, rfl, ?_⟩
  intro htr
  rw [fixZodFields_get_props] at htr ⊢
  split_ifs at htr ⊢ with hq
  · cases ((cleanZodFields ((rawSf.get "format" = JVal.jstr "date-time")
        && (rawSf.get "pattern").truthy) rawSf).get "properties") with
    | jobj a b => exact ⟨fixZodMapF a, .nil, by simp [fixZodProps]⟩
    | jarr es => exact ⟨fixZodIdx 0 es, .nil, by simp [fixZodProps]⟩
    | jstr s => exact ⟨charFields 0 s.data, .nil, by simp [fixZodProps]⟩
    | undef => exact ⟨.nil, .nil, by simp [fixZodProps]⟩
    | jnull => exact ⟨.nil, .nil, by simp [fixZodProps]⟩
    | jbool b => exact ⟨.nil, .nil, by simp [fixZodProps]⟩
    | jnum n => exact ⟨.nil, .nil, by simp [fixZodProps]⟩
    | jfn t => exact ⟨.nil, .nil, by simp [fixZodProps]⟩
  · exact absurd htr hq

end OpenSwagger

namespace OpenSwagger

/-- Zod pipeline: a helper file node stored at shape field `f` resurfaces
in the converted schema at `properties.f` as the clean OpenAPI file node,
and the output carries no marker anywhere. -/
theorem zod_file_roundtrip
    (zl : ZodLib) (emit : JVal → Except Unit JVal)
    (s : JVal) (shapeSf : JFields) (yfSh : JSyms) (f : String) (o : FileOptions)
    (cs : JVal) (m : List (String × JVal)) (rawSf : JFields) (rawYf : JSyms)
    (hemit : zl.toJSONSchema = some emit)
    (hs : s.truthy = true) (hso : s.isObjTy = true)
    (hsh : s.getF "shape" = .jobj shapeSf yfSh)
    (hnd : shapeSf.keys.Nodup)
    (hok : zodShapeOK shapeSf)
    (hf : HelperFileAt (shapeSf.get f) o)
    (hex : extractZodFileSchemas zl s = .ok (cs, m))
    (hraw : emit cs = .ok (.jobj rawSf rawYf))
    (hmf : mfV (.jobj rawSf rawYf) = true) :
    ((zodToJsonSchema (.ok zl) s).getF "properties").getF f = cleanFileNode o
    ∧ mfV (zodToJsonSchema (.ok zl) s) = true := by
  have hfs : isFileSchema (shapeSf.get f) = true := isFileSchema_helper _ o hf
  have hcg : mapGet (collectZodFiles [] shapeSf) f
      = some (toOpenAPIFileSchema (shapeSf.get f)) := collectZod_get shapeSf [] f hnd hfs
  have htoa : toOpenAPIFileSchema (shapeSf.get f) = cleanFileNode o := toOpenAPI_helper _ o hf
  have hcg' : mapGet (collectZodFiles [] shapeSf) f = some (cleanFileNode o) := by
    rw [hcg, htoa]
  have hne : collectZodFiles [] shapeSf ≠ [] := by
    intro hnil
    rw [hnil] at hcg'
    simp [mapGet] at hcg'
  have hshT : (s.getF "shape").truthy = true := by rw [hsh]; rfl
  have hsch : entriesF (s.getF "shape") = shapeSf := by rw [hsh]; rfl
  have hm : m = collectZodFiles [] shapeSf := by
    rw [extractZodFileSchemas] at hex
    rw [hsch] at hex
    cases hobj : zl.objectFn (.jobj (nonFileShape shapeSf) .nil) with
    | ok ns =>
      rw [hobj] at hex
      simp [hs, hso, hshT, hne] at hex
      exact hex.2.symm
    | error e =>
      rw [hobj] at hex
      simp [hs, hso, hshT, hne] at hex
  obtain ⟨fsf, hfixEq, hshape⟩ := zodFixed_shape rawSf rawYf
  have hmne : m ≠ [] := by rw [hm]; exact hne
  have hbody : zodBody (.ok zl) s
      = .ok (mergeFileSchemas (.jobj fsf rawYf) m) := by
    rw [← hfixEq]
    simp [zodBody, hemit, hex, hraw, Bind.bind, Except.bind, Pure.pure, Except.pure]
  have hconv : zodToJsonSchema (.ok zl) s = mergeFileSchemas (.jobj fsf rawYf) m := by
    simp [zodToJsonSchema, hbody]
  have hmerge := merge_result fsf rawYf m hmne
  have hmfFix : mfV (.jobj fsf rawYf) = true := by
    rw [← hfixEq]
    exact mf_fixZod _ (mf_cleanZod _ hmf)
  have hprops_jobj : ∃ pa pb, (if (fsf.get "properties").truthy then fsf.get "properties"
      else .jobj .nil .nil) = .jobj pa pb := by
    split_ifs with ht
    · exact hshape ht
    · exact ⟨.nil, .nil, rfl⟩
  obtain ⟨pa, pb, hpe⟩ := hprops_jobj
  have hndm : (m.map Prod.fst).Nodup := by
    rw [hm]
    exact collectZod_nodup shapeSf [] (by simp)
  have hvals : ∀ p ∈ m, mfV p.2 = true := by
    rw [hm]
    exact collectZod_vals_mf shapeSf [] hok (by simp)
  constructor
  · rw [hconv, hmerge]
    rw [show (JVal.jobj (fsf.set "properties" (assignFileSchemas
      (if (fsf.get "properties").truthy then fsf.get "properties" else .jobj .nil .nil) m))
      rawYf).getF "properties" = (fsf.set "properties" (assignFileSchemas
      (if (fsf.get "properties").truthy then fsf.get "properties" else .jobj .nil .nil) m)).get
      "properties" from rfl]
    rw [JFields.get_set_self, hpe]
    exact assign_get m pa pb f (cleanFileNode o) hndm (by rw [hm]; exact hcg')
  · rw [hconv]
    exact mf_merge fsf rawYf m hmfFix hvals

end OpenSwagger

namespace OpenSwagger

/-! ## Claim C7 — VineJS converter lemmas -/

theorem isVineFileSchema_vineFile (o : FileOptions) :
    isVineFileSchema (vineFile o) = true := rfl

theorem mf_mkFallback (d : String) : mfV (mkFallback d) = true := rfl

theorem mfF_append : ∀ (a b : JFields), mfF a = true → mfF b = true →
    mfF (a.append b) = true
  | .nil, b, _, hb => hb
  | .cons k v t, b, ha, hb => by
    simp only [mfF, Bool.and_eq_true] at ha
    simp [JFields.append, mfF, ha.1, mfF_append t b ha.2 hb]

theorem mfL_vineReqList : ∀ (es : JList), mfL (vineReqList es) = true
  | .nil => rfl
  | .cons p t => by
    rw [vineReqList]
    cases hk : vineFieldKey p with
    | some f =>
      simp only [hk]
      split_ifs <;> simp [mfL, mfV, mfL_vineReqList t]
    | none =>
      simp only [hk]
      exact mfL_vineReqList t

theorem mfF_vineSubtypeFields (s : JVal) : mfF (vineSubtypeFields s) = true := by
  simp only [vineSubtypeFields]
  split_ifs <;> rfl

theorem mfF_valFold (subty refs : JVal) (hr : mfV refs = true) :
    ∀ (es : JList) (acc : JFields), mfF acc = true →
    mfF (valFold subty refs acc es) = true
  | .nil, acc, ha => by simpa [valFold] using ha
  | .cons v t, acc, ha => by
    simp only [valFold]
    have hopts : mfV ((refs.getF ((v.getF "ruleFnId").keyStr)).getF "options") = true :=
      mf_getF _ _ (mf_getF refs _ hr)
    have hc := mf_getF _ "choices" hopts
    have hmin := mf_getF _ "min" hopts
    have hmax := mf_getF _ "max" hopts
    refine mfF_valFold subty refs hr t _ ?_
    split_ifs <;>
      (repeat' first
        | exact ha
        | exact hc
        | exact hmin
        | exact hmax
        | apply mfF_set)

theorem mf_vineLiteral (p r : JVal) (hr : mfV r = true) :
    mfV (vineLiteral p r) = true := by
  simp only [vineLiteral]
  have h1 : mfF (vineSubtypeFields (p.getF "subtype")) = true := mfF_vineSubtypeFields _
  simp only [mfV, JSyms.has, mfY, Bool.and_eq_true]
  refine ⟨⟨by simp, ?_⟩, by simp⟩
  split_ifs with hv hn
  · exact mfF_valFold _ _ hr _ _ (mfF_set _ _ _ h1 rfl)
  · exact mfF_valFold _ _ hr _ _ h1
  · exact mfF_set _ _ _ h1 rfl
  · exact h1

end OpenSwagger

namespace OpenSwagger

theorem vineLiteral_jobj (p r : JVal) : ∃ a, vineLiteral p r = .jobj a .nil :=
  ⟨_, rfl⟩

theorem vineProp_jobj (prop refs : JVal) :
    ∃ a, convertVineJSProperty prop refs = .jobj a .nil := by
  cases prop with
  | jobj sf yf =>
    rw [convertVineJSProperty]
    by_cases h1 : (sf.get "type" = JVal.jstr "array" && (sf.get "each").truthy) = true
    · rw [if_pos h1]
      exact ⟨_, rfl⟩
    · rw [if_neg h1]
      split
      · split_ifs <;> exact ⟨_, rfl⟩
      · exact vineLiteral_jobj _ _
  | undef =>
    have h : convertVineJSProperty JVal.undef refs = vineLiteral JVal.undef refs := by
      simp [convertVineJSProperty]
    rw [h]; exact vineLiteral_jobj _ _
  | jnull =>
    have h : convertVineJSProperty JVal.jnull refs = vineLiteral JVal.jnull refs := by
      simp [convertVineJSProperty]
    rw [h]; exact vineLiteral_jobj _ _
  | jbool b =>
    have h : convertVineJSProperty (JVal.jbool b) refs = vineLiteral (JVal.jbool b) refs := by
      simp [convertVineJSProperty]
    rw [h]; exact vineLiteral_jobj _ _
  | jnum n =>
    have h : convertVineJSProperty (JVal.jnum n) refs = vineLiteral (JVal.jnum n) refs := by
      simp [convertVineJSProperty]
    rw [h]; exact vineLiteral_jobj _ _
  | jstr s =>
    have h : convertVineJSProperty (JVal.jstr s) refs = vineLiteral (JVal.jstr s) refs := by
      simp [convertVineJSProperty]
    rw [h]; exact vineLiteral_jobj _ _
  | jfn t =>
    have h : convertVineJSProperty (JVal.jfn t) refs = vineLiteral (JVal.jfn t) refs := by
      simp [convertVineJSProperty]
    rw [h]; exact vineLiteral_jobj _ _
  | jarr es =>
    have h : convertVineJSProperty (JVal.jarr es) refs = vineLiteral (JVal.jarr es) refs := by
      simp [convertVineJSProperty]
    rw [h]; exact vineLiteral_jobj _ _

end OpenSwagger

namespace OpenSwagger

mutual

theorem mf_convertVineProp : ∀ (prop refs : JVal), mfV refs = true →
    mfV (convertVineJSProperty prop refs) = true
  | .jobj sf yf, refs, hr => by
    rw [convertVineJSProperty]
    by_cases h1 : (sf.get "type" = JVal.jstr "array" && (sf.get "each").truthy) = true
    · rw [if_pos h1]
      have hitems := mf_convertVineProp (sf.get "each") refs hr
      split_ifs <;>
        simp [mfV, mfF, mfY, JSyms.has, JFields.set, hitems]
    · rw [if_neg h1]
      split
      · rename_i es hp
        by_cases h2 : sf.get "type" = JVal.jstr "object"
        · rw [if_pos h2]
          have hprops := mf_convertVinePropsFields refs es hr
          cases hrm : vineReqList es with
          | nil =>
            split_ifs <;>
              simp [mfV, mfF, mfY, mfL, JSyms.has, JFields.set, JFields.append, hprops]
          | cons a b =>
            have hrl := mfL_vineReqList es
            rw [hrm] at hrl
            simp only [mfL, Bool.and_eq_true] at hrl
            split_ifs <;>
              simp [mfV, mfF, mfY, mfL, JSyms.has, JFields.set, JFields.append, hprops,
                hrl.1, hrl.2]
        · rw [if_neg h2]
          exact mf_vineLiteral _ _ hr
      · exact mf_vineLiteral _ _ hr
  | .undef, refs, hr => by
    have h : convertVineJSProperty JVal.undef refs = vineLiteral JVal.undef refs := by
      simp [convertVineJSProperty]
    rw [h]; exact mf_vineLiteral _ _ hr
  | .jnull, refs, hr => by
    have h : convertVineJSProperty JVal.jnull refs = vineLiteral JVal.jnull refs := by
      simp [convertVineJSProperty]
    rw [h]; exact mf_vineLiteral _ _ hr
  | .jbool b, refs, hr => by
    have h : convertVineJSProperty (JVal.jbool b) refs = vineLiteral (JVal.jbool b) refs := by
      simp [convertVineJSProperty]
    rw [h]; exact mf_vineLiteral _ _ hr
  | .jnum n, refs, hr => by
    have h : convertVineJSProperty (JVal.jnum n) refs = vineLiteral (JVal.jnum n) refs := by
      simp [convertVineJSProperty]
    rw [h]; exact mf_vineLiteral _ _ hr
  | .jstr s, refs, hr => by
    have h : convertVineJSProperty (JVal.jstr s) refs = vineLiteral (JVal.jstr s) refs := by
      simp [convertVineJSProperty]
    rw [h]; exact mf_vineLiteral _ _ hr
  | .jfn t, refs, hr => by
    have h : convertVineJSProperty (JVal.jfn t) refs = vineLiteral (JVal.jfn t) refs := by
      simp [convertVineJSProperty]
    rw [h]; exact mf_vineLiteral _ _ hr
  | .jarr es, refs, hr => by
    have h : convertVineJSProperty (JVal.jarr es) refs = vineLiteral (JVal.jarr es) refs := by
      simp [convertVineJSProperty]
    rw [h]; exact mf_vineLiteral _ _ hr
termination_by prop refs hr => sizeOf prop
decreasing_by
  all_goals first
    | (have hsz := sizeOf_JFields_get_le sf "each"
       simp
       omega)
    | (rename_i es hp hx hy
       have hsz : sizeOf (JVal.jarr es) ≤ sizeOf sf := hp ▸ sizeOf_JFields_get_le sf "properties"
       simp at hsz ⊢
       omega)

theorem mf_convertVinePropsFields : ∀ (refs : JVal) (es : JList), mfV refs = true →
    mfF (convertVinePropsFields refs es) = true
  | refs, .nil, _ => by rw [convertVinePropsFields]; rfl
  | refs, .cons p t, hr => by
    rw [convertVinePropsFields]
    cases hk : vineFieldKey p with
    | some f =>
      simp only [hk]
      simp [mfF, mf_convertVineProp p refs hr, mf_convertVinePropsFields refs t hr]
    | none =>
      simp only [hk]
      exact mf_convertVinePropsFields refs t hr
termination_by refs es hr => sizeOf es
decreasing_by
  all_goals (simp <;> omega)

end

end OpenSwagger

namespace OpenSwagger

theorem valFold_get_props : ∀ (subty refs : JVal) (es : JList) (acc : JFields),
    (valFold subty refs acc es).get "properties" = acc.get "properties"
  | _, _, .nil, acc => by simp [valFold]
  | subty, refs, .cons v t, acc => by
    simp only [valFold]
    rw [valFold_get_props subty refs t _]
    split_ifs <;> simp [JFields.get_set_ne]

theorem vineSubtypeFields_get_props (s : JVal) :
    (vineSubtypeFields s).get "properties" = .undef := by
  simp only [vineSubtypeFields]
  split_ifs <;> simp [JFields.get]

theorem vineLiteral_props (p r : JVal) : (vineLiteral p r).getF "properties" = .undef := by
  simp only [vineLiteral, JVal.getF]
  split_ifs
  · rw [valFold_get_props, JFields.get_set_ne _ _ _ _ (by decide)]
    exact vineSubtypeFields_get_props _
  · rw [valFold_get_props]
    exact vineSubtypeFields_get_props _
  · rw [JFields.get_set_ne _ _ _ _ (by decide)]
    exact vineSubtypeFields_get_props _
  · exact vineSubtypeFields_get_props _

theorem vineProp_props : ∀ (prop refs : JVal),
    (convertVineJSProperty prop refs).getF "properties" = .undef
    ∨ ∃ a b, (convertVineJSProperty prop refs).getF "properties" = .jobj a b := by
  intro prop refs
  cases prop with
  | jobj sf yf =>
    rw [convertVineJSProperty]
    by_cases h1 : (sf.get "type" = JVal.jstr "array" && (sf.get "each").truthy) = true
    · rw [if_pos h1]
      left
      simp only [JVal.getF]
      split_ifs <;> simp [JFields.set, JFields.get]
    · rw [if_neg h1]
      split
      · rename_i es hp
        by_cases h2 : sf.get "type" = JVal.jstr "object"
        · rw [if_pos h2]
          cases hrm : vineReqList es <;>
            (refine Or.inr ⟨convertVinePropsFields refs es, JSyms.nil, ?_⟩
             split_ifs <;>
               simp [JVal.getF, JFields.get, JFields.append, JFields.set])
        · rw [if_neg h2]
          exact Or.inl (vineLiteral_props _ _)
      · exact Or.inl (vineLiteral_props _ _)
  | undef =>
    have h : convertVineJSProperty JVal.undef refs = vineLiteral JVal.undef refs := by
      simp [convertVineJSProperty]
    rw [h]; exact Or.inl (vineLiteral_props _ _)
  | jnull =>
    have h : convertVineJSProperty JVal.jnull refs = vineLiteral JVal.jnull refs := by
      simp [convertVineJSProperty]
    rw [h]; exact Or.inl (vineLiteral_props _ _)
  | jbool b =>
    have h : convertVineJSProperty (JVal.jbool b) refs = vineLiteral (JVal.jbool b) refs := by
      simp [convertVineJSProperty]
    rw [h]; exact Or.inl (vineLiteral_props _ _)
  | jnum n =>
    have h : convertVineJSProperty (JVal.jnum n) refs = vineLiteral (JVal.jnum n) refs := by
      simp [convertVineJSProperty]
    rw [h]; exact Or.inl (vineLiteral_props _ _)
  | jstr s =>
    have h : convertVineJSProperty (JVal.jstr s) refs = vineLiteral (JVal.jstr s) refs := by
      simp [convertVineJSProperty]
    rw [h]; exact Or.inl (vineLiteral_props _ _)
  | jfn t =>
    have h : convertVineJSProperty (JVal.jfn t) refs = vineLiteral (JVal.jfn t) refs := by
      simp [convertVineJSProperty]
    rw [h]; exact Or.inl (vineLiteral_props _ _)
  | jarr es =>
    have h : convertVineJSProperty (JVal.jarr es) refs = vineLiteral (JVal.jarr es) refs := by
      simp [convertVineJSProperty]
    rw [h]; exact Or.inl (vineLiteral_props _ _)

end OpenSwagger

namespace OpenSwagger

theorem vineConvert_jobj (out : JVal) :
    ∃ csf, convertVineJSToJsonSchema out = .jobj csf .nil := by
  simp only [convertVineJSToJsonSchema]
  split_ifs <;> first
    | exact vineProp_jobj _ _
    | exact ⟨_, rfl⟩
    | (split <;> exact ⟨_, rfl⟩)

theorem mf_convertVine (out : JVal) (h : mfV out = true) :
    mfV (convertVineJSToJsonSchema out) = true := by
  have hrefs : mfV (out.getF "refs") = true := mf_getF out "refs" h
  simp only [convertVineJSToJsonSchema]
  split_ifs <;> first
    | exact mf_mkFallback _
    | exact mf_convertVineProp _ _ hrefs
    | (split <;> first
        | exact mf_mkFallback _
        | (rename_i es hp
           have hprops := mf_convertVinePropsFields (out.getF "refs") es hrefs
           cases hrm : vineReqList es with
           | nil => simp [mfV, mfF, mfY, mfL, JSyms.has, JFields.append, hprops]
           | cons a b =>
             have hrl := mfL_vineReqList es
             rw [hrm] at hrl
             simp only [mfL, Bool.and_eq_true] at hrl
             simp [mfV, mfF, mfY, mfL, JSyms.has, JFields.append, hprops, hrl.1, hrl.2]))

theorem vineConvert_props (out : JVal) :
    (convertVineJSToJsonSchema out).getF "properties" = .undef
    ∨ ∃ a b, (convertVineJSToJsonSchema out).getF "properties" = .jobj a b := by
  simp only [convertVineJSToJsonSchema]
  split_ifs <;> first
    | exact vineProp_props _ _
    | exact Or.inl rfl
    | (split <;> first
        | exact Or.inl rfl
        | (rename_i es hp
           cases hrm : vineReqList es <;>
             (refine Or.inr ⟨convertVinePropsFields (out.getF "refs") es, JSyms.nil, ?_⟩
              simp [JVal.getF, JFields.get, JFields.append])))

end OpenSwagger

namespace OpenSwagger

/-- VineJS pipeline: a `vineFile` helper node stored at property field `f`
resurfaces in the converted schema at `properties.f` as the clean OpenAPI
file node, and the output carries no marker anywhere. -/
theorem vine_file_roundtrip
    (vl : VineLib) (s : JVal) (pSf : JFields) (pYf : JSyms) (f : String) (o : FileOptions)
    (cv out : JVal)
    (hs : s.truthy = true) (hso : s.isObjTy = true)
    (hfn : (s.getF "getProperties").isFn = true)
    (hgp : vl.getPropsOf s = .ok (.jobj pSf pYf))
    (hnd : pSf.keys.Nodup)
    (hok : vineShapeOK pSf)
    (hf : pSf.get f = vineFile o)
    (hcomp : vl.compile (extractFileSchemas vl s).1 = .ok cv)
    (htj : vl.toJSONOf cv = .ok out)
    (hmfout : mfV out = true) :
    ((vineToJsonSchema (.ok vl) s).getF "properties").getF f = cleanFileNode o
    ∧ mfV (vineToJsonSchema (.ok vl) s) = true := by
  have hvfs : isVineFileSchema (pSf.get f) = true := by
    rw [hf]
    exact isVineFileSchema_vineFile o
  have hcg : mapGet (collectVineFiles [] pSf) f
      = some (toOpenAPIFileSchema (pSf.get f)) := collectVine_get pSf [] f hnd hvfs
  have hcg' : mapGet (collectVineFiles [] pSf) f = some (cleanFileNode o) := by
    rw [hcg, hf, toOpenAPI_vineFile]
  have hne : collectVineFiles [] pSf ≠ [] := by
    intro hnil
    rw [hnil] at hcg'
    simp [mapGet] at hcg'
  have hex2 : (extractFileSchemas vl s).2 = collectVineFiles [] pSf := by
    rw [extractFileSchemas, hgp]
    cases hobj : vl.objectFn (.jobj (nonVineFileProps pSf) .nil) with
    | ok ns => simp [hs, hso, hfn, hne, hobj, entriesF]
    | error e => simp [hs, hso, hfn, hne, hobj, entriesF]
  have hbody : vineBody (.ok vl) s
      = .ok (mergeFileSchemas (convertVineJSToJsonSchema out)
          (extractFileSchemas vl s).2) := by
    simp [vineBody, hcomp, htj, Bind.bind, Except.bind, Pure.pure, Except.pure]
  obtain ⟨csf, hcsf⟩ := vineConvert_jobj out
  have hconv : vineToJsonSchema (.ok vl) s
      = mergeFileSchemas (.jobj csf .nil) (collectVineFiles [] pSf) := by
    rw [vineToJsonSchema, hbody, hex2, hcsf]
  have hmconv : mfV (.jobj csf JSyms.nil) = true := by
    rw [← hcsf]
    exact mf_convertVine out hmfout
  have hmerge := merge_result csf .nil (collectVineFiles [] pSf) hne
  have hpj : ∃ pa pb, (if (csf.get "properties").truthy then csf.get "properties"
      else .jobj .nil .nil) = .jobj pa pb := by
    rcases vineConvert_props out with hu | ⟨a, b, hab⟩
    · rw [hcsf, show (JVal.jobj csf JSyms.nil).getF "properties"
        = csf.get "properties" from rfl] at hu
      refine ⟨.nil, .nil, ?_⟩
      simp [hu, JVal.truthy]
    · rw [hcsf, show (JVal.jobj csf JSyms.nil).getF "properties"
        = csf.get "properties" from rfl] at hab
      refine ⟨a, b, ?_⟩
      simp [hab, JVal.truthy]
  obtain ⟨pa, pb, hpe⟩ := hpj
  have hndm : ((collectVineFiles [] pSf).map Prod.fst).Nodup :=
    collectVine_nodup pSf [] (by simp)
  have hvals : ∀ p ∈ collectVineFiles [] pSf, mfV p.2 = true :=
    collectVine_vals_mf pSf [] hok (by simp)
  constructor
  · rw [hconv, hmerge]
    rw [show (JVal.jobj (csf.set "properties" (assignFileSchemas
      (if (csf.get "properties").truthy then csf.get "properties" else .jobj .nil .nil)
      (collectVineFiles [] pSf))) JSyms.nil).getF "properties"
      = (csf.set "properties" (assignFileSchemas
        (if (csf.get "properties").truthy then csf.get "properties" else .jobj .nil .nil)
        (collectVineFiles [] pSf))).get "properties" from rfl]
    rw [JFields.get_set_self, hpe]
    exact assign_get _ pa pb f (cleanFileNode o) hndm hcg'
  · rw [hconv]
    exact mf_merge csf .nil _ hmconv hvals

end OpenSwagger

namespace OpenSwagger

/-- C7: file-marker round-trip.  A file-helper marker node sitting at a
property path of the input schema resurfaces in the converted output at
the same property path as the clean OpenAPI file node
(`{type:'string',format:'binary'}`, or the array/items form with
description/minItems/maxItems for the multiple-files variant), and the
internal marker symbol key is absent from the whole output tree
(`mfV` = marker-free).  TypeBox: any property-path depth, for inputs
whose marked nodes under `properties` are helper-made and whose
verbatim-copied subtrees are marker-free.  Zod and VineJS: a marker at a
field of the top-level `shape` / property map, under oracle hypotheses
(the emitter / `compile`+`toJSON` succeed and return marker-free plain
JSON). -/
theorem claim_C7_file_marker_roundtrip :
    (∀ (s target : JVal) (o : FileOptions) (p : List String),
      AtPath s p target → tbGoodV s → HelperFileAt target o → p ≠ [] →
      AtPath (typeBoxToJsonSchema s) p (cleanFileNode o)
      ∧ mfV (typeBoxToJsonSchema s) = true) ∧
    (∀ (zl : ZodLib) (emit : JVal → Except Unit JVal) (s : JVal) (shapeSf : JFields)
      (yfSh : JSyms) (f : String) (o : FileOptions) (cs : JVal)
      (m : List (String × JVal)) (rawSf : JFields) (rawYf : JSyms),
      zl.toJSONSchema = some emit → s.truthy = true → s.isObjTy = true →
      s.getF "shape" = .jobj shapeSf yfSh → shapeSf.keys.Nodup → zodShapeOK shapeSf →
      HelperFileAt (shapeSf.get f) o → extractZodFileSchemas zl s = .ok (cs, m) →
      emit cs = .ok (.jobj rawSf rawYf) → mfV (.jobj rawSf rawYf) = true →
      ((zodToJsonSchema (.ok zl) s).getF "properties").getF f = cleanFileNode o
      ∧ mfV (zodToJsonSchema (.ok zl) s) = true) ∧
    (∀ (vl : VineLib) (s : JVal) (pSf : JFields) (pYf : JSyms) (f : String)
      (o : FileOptions) (cv out : JVal),
      s.truthy = true → s.isObjTy = true → (s.getF "getProperties").isFn = true →
      vl.getPropsOf s = .ok (.jobj pSf pYf) → pSf.keys.Nodup → vineShapeOK pSf →
      pSf.get f = vineFile o → vl.compile (extractFileSchemas vl s).1 = .ok cv →
      vl.toJSONOf cv = .ok out → mfV out = true →
      ((vineToJsonSchema (.ok vl) s).getF "properties").getF f = cleanFileNode o
      ∧ mfV (vineToJsonSchema (.ok vl) s) = true) := by
  refine ⟨?_, ?_, ?_⟩
  · intro s target o p hap hgood hh hne
    exact ⟨fixTB_atPath o p (cleanTypeBoxFileSchemas s) (cleanFileNode o)
        (cleanTB_atPath o p s target hap hgood hh hne) rfl hne,
      mf_fixTB _ (mf_cleanTB s hgood)⟩
  · intro zl emit s shapeSf yfSh f o cs m rawSf rawYf h1 h2 h3 h4 h5 h6 h7 h8 h9 h10
    exact zod_file_roundtrip zl emit s shapeSf yfSh f o cs m rawSf rawYf
      h1 h2 h3 h4 h5 h6 h7 h8 h9 h10
  · intro vl s pSf pYf f o cv out h1 h2 h3 h4 h5 h6 h7 h8 h9 h10
    exact vine_file_roundtrip vl s pSf pYf f o cv out
      h1 h2 h3 h4 h5 h6 h7 h8 h9 h10

def oW : FileOptions := {}

def tbSW : JVal :=
  .jobj
    (.cons "type" (.jstr "object")
      (.cons "properties" (.jobj (.cons "upload" (typeboxFile oW) .nil) .nil) .nil))
    .nil

def zodShapeW : JFields := .cons "upload" (zodFile oW) .nil

def zodSW : JVal := .jobj (.cons "shape" (.jobj zodShapeW .nil) .nil) .nil

def zodRawW : JFields := .cons "type" (.jstr "object") .nil

def zlW : ZodLib :=
  { objectFn := fun v => .ok v, toJSONSchema := some (fun _ => .ok (.jobj zodRawW .nil)) }

def vinePW : JFields := .cons "upload" (vineFile oW) .nil

def vineSW : JVal := .jobj (.cons "getProperties" (.jfn 0) .nil) .nil

def vineOutW : JVal := .jobj (.cons "x" (.jstr "y") .nil) .nil

def vlW : VineLib :=
  { getPropsOf := fun _ => .ok (.jobj vinePW .nil), objectFn := fun v => .ok v,
    compile := fun v => .ok v, toJSONOf := fun _ => .ok vineOutW }

/-- C7 witness: concrete runs of the three pipelines with a single
helper file node under field `upload`. -/
theorem claim_C7_file_marker_roundtrip_witness :
    (AtPath (typeBoxToJsonSchema tbSW) ["upload"] (cleanFileNode oW)
      ∧ mfV (typeBoxToJsonSchema tbSW) = true)
    ∧ (((zodToJsonSchema (.ok zlW) zodSW).getF "properties").getF "upload"
        = cleanFileNode oW
      ∧ mfV (zodToJsonSchema (.ok zlW) zodSW) = true)
    ∧ (((vineToJsonSchema (.ok vlW) vineSW).getF "properties").getF "upload"
        = cleanFileNode oW
      ∧ mfV (vineToJsonSchema (.ok vlW) vineSW) = true) := by
  have hP : (JFields.cons "type" (JVal.jstr "object")
      (JFields.cons "properties" (JVal.jobj (JFields.cons "upload" (typeboxFile oW)
        JFields.nil) JSyms.nil) JFields.nil)).get "properties"
      = JVal.jobj (JFields.cons "upload" (typeboxFile oW) JFields.nil) JSyms.nil := rfl
  have hpath : AtPath tbSW ["upload"] (typeboxFile oW) :=
    AtPath.step hP (AtPath.here (typeboxFile oW))
  have hgood : tbGoodV tbSW := by
    simp [tbSW, tbGoodV, tbGoodF, tbGoodProps, tbGoodPropF, tbGoodPropElems, tbGoodElems,
      isFileSchema, typeboxFile, JVal.truthy, JVal.isObjTy, mfV, mfF, mfY, JSyms.has,
      JVal.getSym, JSyms.get, fileSym, vineFileSym, zodFileSym, typeboxFileSym, kindSym]
    exact ⟨oW, Or.inr (Or.inr (Or.inl rfl))⟩
  refine ⟨?_, ?_, ?_⟩
  · exact claim_C7_file_marker_roundtrip.1 tbSW (typeboxFile oW) oW ["upload"]
      hpath hgood (Or.inr (Or.inr (Or.inl rfl))) (by simp)
  · exact claim_C7_file_marker_roundtrip.2.1 zlW (fun _ => .ok (.jobj zodRawW .nil))
      zodSW zodShapeW .nil "upload" oW (.jobj .nil .nil)
      [("upload", .jobj (.cons "type" (.jstr "string")
        (.cons "format" (.jstr "binary") .nil)) .nil)]
      zodRawW .nil rfl rfl rfl rfl (by decide)
      ⟨fun hh => ⟨oW, Or.inr (Or.inr (Or.inr rfl))⟩, trivial⟩
      (Or.inr (Or.inr (Or.inr rfl))) rfl rfl rfl
  · exact claim_C7_file_marker_roundtrip.2.2 vlW vineSW vinePW .nil "upload" oW
      ((extractFileSchemas vlW vineSW).1) vineOutW rfl rfl rfl rfl (by decide)
      ⟨fun hh => ⟨oW, Or.inr (Or.inl rfl)⟩, trivial⟩ rfl rfl rfl rfl

end OpenSwagger
